import Mathlib

/-!
The two command-line utilities of the repository: the version-delta calculator
`get-forth-semver` and the token decoder `decode_jwt`.

A shallow embedding of `get-forth-semver/main.go` (`parseSemver`, `formatSemver`,
`computeApplied`) and of `decode_jwt/main.go` (`main`), together with the pieces of the Go
standard library these functions call (`strings.IndexByte`, `strings.Split`,
`strings.TrimSpace`, `strconv.Atoi`, the `%d` verb of `fmt.Sprintf`,
`base64.RawURLEncoding.DecodeString`, `json.Unmarshal`, `json.MarshalIndent`), followed by
theorems about them.

Conventions of the embedding:

* a Go `string` is a sequence of bytes, a byte is a natural number (`GoString := List Nat`);
  every definition works on arbitrary lists, so every theorem covers all byte strings;
* a Go `int` is a 64-bit two's-complement integer, modelled as an `Int` in
  `[-2^63, 2^63)`; additions and subtractions are followed by `wrapInt`;
* a `(value, error)` result is an `Except`/`Option`: the value components returned next
  to a non-nil error are ignored by every caller and are not modelled;
* the token decoder is a function from the outcome of `scanner.Scan()` to what the run
  writes to standard output and standard error; a missing slice element is a panic;
* the conversion of JSON numbers to `float64` and back to text is a parameter
  (`Float64Text`) of the decoder: its theorems hold for every such conversion; that the
  printed payload parses back to the payload is proved for the conversions that are
  `FloatStable` (the text written for a `float64` reads back to the same text), as that
  of `strconv` is.
-/

namespace GetForthSemver

/-! ## Go strings and integers -/

/-- A Go string: a sequence of bytes. -/
abbrev GoString := List Nat

/-- The bytes of an ASCII string literal. -/
def str (s : String) : GoString := s.toList.map Char.toNat

/-- The smallest Go `int` (64 bit). -/
def minInt : Int := -9223372036854775808

/-- The largest Go `int` (64 bit). -/
def maxInt : Int := 9223372036854775807

/-- Two's-complement wrap-around of an exact integer into the range of a Go `int`. -/
def wrapInt (x : Int) : Int := (x + 9223372036854775808) % 18446744073709551616 - 9223372036854775808

/-! ## Standard-library functions used by the program -/

/-- Model of `strings.IndexByte(s, c)`: index of the first byte `c` in `s`, or `-1`. -/
def IndexByte : GoString → Nat → Int
  | [], _ => -1
  | x :: xs, c =>
    if x = c then 0
    else
      let r := IndexByte xs c
      if r < 0 then -1 else r + 1

/-- Model of `strings.Split(s, sep)` for a one-byte separator: the pieces of `s` between
the occurrences of `sep`; the empty string gives the single piece `""`. -/
def Split : GoString → Nat → List GoString
  | [], _ => [[]]
  | x :: xs, sep =>
    if x = sep then [] :: Split xs sep
    else
      match Split xs sep with
      | [] => [[x]]
      | p :: ps => (x :: p) :: ps

/-- An ASCII decimal digit, `'0'` to `'9'`. -/
def isDigit (c : Nat) : Bool := decide (48 ≤ c) && decide (c ≤ 57)

/-- The value of a run of decimal digits, most significant first. -/
def digitsValue (s : GoString) : Nat := s.foldl (fun n c => n * 10 + (c - 48)) 0

/-- Model of `strconv.Atoi(s)` on a 64-bit platform: an optional sign `+` or `-`
followed by one or more decimal digits, whose signed value lies in the range of `int`.
`none` stands for a `*strconv.NumError` (syntax or range). -/
def Atoi (s : GoString) : Option Int :=
  let neg : Bool := s.head? == some 45
  let body : GoString :=
    match s with
    | [] => []
    | c :: rest => if c = 43 ∨ c = 45 then rest else s
  if body = [] then none
  else if !body.all isDigit then none
  else
    let un := digitsValue body
    if neg then
      if un > 9223372036854775808 then none else some (-(un : Int))
    else
      if un ≥ 9223372036854775808 then none else some (un : Int)

/-- The decimal digits of `n` put in front of `acc`; `fuel` bounds the number of
digits produced and `n + 1` is always enough. -/
def fmtDigits : Nat → Nat → GoString → GoString
  | 0, _, acc => acc
  | fuel + 1, n, acc =>
    if n < 10 then (48 + n) :: acc
    else fmtDigits fuel (n / 10) ((48 + n % 10) :: acc)

/-- Decimal rendering of a natural number, without leading zeros. -/
def fmtNat (n : Nat) : GoString := fmtDigits (n + 1) n []

/-- Model of the `%d` verb of `fmt.Sprintf` on an `int`: decimal digits, with a leading
`-` for a negative number. -/
def fmtInt : Int → GoString
  | Int.ofNat n => fmtNat n
  | Int.negSucc n => 45 :: fmtNat (n + 1)

/-! ## The program -/

/-- The errors `parseSemver` and `computeApplied` return, one constructor per
`fmt.Errorf` call of the source. -/
inductive SemverError where
  /-- Error "empty version". -/
  | emptyVersion
  /-- Error "invalid semver: %q", with the core string that did not split in three. -/
  | invalidSemver (version : GoString)
  /-- Error "invalid major: %w", with the part `strconv.Atoi` refused. -/
  | invalidMajor (part : GoString)
  /-- Error "invalid minor: %w". -/
  | invalidMinor (part : GoString)
  /-- Error "invalid patch: %w". -/
  | invalidPatch (part : GoString)
  /-- Error "resulting major would be negative". -/
  | negativeMajor
  /-- Error "resulting minor would be negative". -/
  | negativeMinor
  /-- Error "resulting patch would be negative". -/
  | negativePatch
  deriving DecidableEq, Repr

/-- A successfully parsed version: `(major, minor, patch, hasVPrefix)`. -/
abbrev Parsed := Int × Int × Int × Bool

/-- Embedding of `parseSemver` (main.go, lines 18-50). -/
def parseSemver (version : GoString) : Except SemverError Parsed :=
  if version = [] then Except.error SemverError.emptyVersion
  else
    let hasVPrefix : Bool :=
      decide (version.length > 0) && (version.head? == some 118 || version.head? == some 86)
    let version := if hasVPrefix then version.drop 1 else version
    -- Strip pre-release and build metadata if present
    let idx := IndexByte version 45
    let version := if idx ≥ 0 then version.take idx.toNat else version
    let idx := IndexByte version 43
    let version := if idx ≥ 0 then version.take idx.toNat else version
    let parts := Split version 46
    match parts with
    | [p0, p1, p2] =>
      match Atoi p0 with
      | none => Except.error (SemverError.invalidMajor p0)
      | some major =>
        match Atoi p1 with
        | none => Except.error (SemverError.invalidMinor p1)
        | some minor =>
          match Atoi p2 with
          | none => Except.error (SemverError.invalidPatch p2)
          | some patch => Except.ok (major, minor, patch, hasVPrefix)
    | _ => Except.error (SemverError.invalidSemver version)

/-- The three integer conversions at the end of `parseSemver` (main.go, lines 37-49), as a
function of the three parts; used to unfold `parseSemver`. -/
def parseParts (p0 p1 p2 : GoString) (hasVPrefix : Bool) : Except SemverError Parsed :=
  match Atoi p0 with
  | none => Except.error (SemverError.invalidMajor p0)
  | some major =>
    match Atoi p1 with
    | none => Except.error (SemverError.invalidMinor p1)
    | some minor =>
      match Atoi p2 with
      | none => Except.error (SemverError.invalidPatch p2)
      | some patch => Except.ok (major, minor, patch, hasVPrefix)

/-- Embedding of `formatSemver` (main.go, lines 52-57). -/
def formatSemver (major minor patch : Int) (withV : Bool) : GoString :=
  if withV then
    118 :: (fmtInt major ++ 46 :: (fmtInt minor ++ 46 :: fmtInt patch))
  else
    fmtInt major ++ 46 :: (fmtInt minor ++ 46 :: fmtInt patch)

/-- The part of `computeApplied` after the three parses (main.go, lines 73-96). -/
def applyDelta (prev latest curr : Parsed) : Except SemverError GoString :=
  let (prevMajor, prevMinor, prevPatch, _) := prev
  let (latestMajor, latestMinor, latestPatch, _) := latest
  let (currMajor, currMinor, currPatch, hasV) := curr
  -- Determine highest-order change and apply same delta to current
  if latestMajor ≠ prevMajor then
    let delta := wrapInt (latestMajor - prevMajor)
    let newMajor := wrapInt (currMajor + delta)
    if newMajor < 0 then Except.error SemverError.negativeMajor
    else Except.ok (formatSemver newMajor 0 0 hasV)
  else if latestMinor ≠ prevMinor then
    let delta := wrapInt (latestMinor - prevMinor)
    let newMinor := wrapInt (currMinor + delta)
    if newMinor < 0 then Except.error SemverError.negativeMinor
    else Except.ok (formatSemver currMajor newMinor 0 hasV)
  else
    -- Patch-level change (or no change)
    let delta := wrapInt (latestPatch - prevPatch)
    let newPatch := wrapInt (currPatch + delta)
    if newPatch < 0 then Except.error SemverError.negativePatch
    else Except.ok (formatSemver currMajor currMinor newPatch hasV)

/-- Embedding of `computeApplied` (main.go, lines 59-97). -/
def computeApplied (previous latest current : GoString) : Except SemverError GoString :=
  match parseSemver previous with
  | Except.error err => Except.error err
  | Except.ok prev =>
    match parseSemver latest with
    | Except.error err => Except.error err
    | Except.ok lat =>
      match parseSemver current with
      | Except.error err => Except.error err
      | Except.ok curr => applyDelta prev lat curr

/-! ## Reading of the specification's acceptance condition -/

/-- Whether the string starts with `v` or `V`. -/
def hasLeadingV : GoString → Bool
  | [] => false
  | c :: _ => c == 118 || c == 86

/-- The string cut at the first occurrence of the byte `c` (kept whole without one). -/
def cutAt (c : Nat) (s : GoString) : GoString := s.takeWhile (fun x => x != c)

/-- The core of a version string: without one leading `v` or `V`, cut at the first `-`
and then at the first `+`. -/
def versionCore (s : GoString) : GoString :=
  cutAt 43 (cutAt 45 (if hasLeadingV s then s.tail else s))

/-- A non-empty run of ASCII decimal digits whose value fits in an `int`. -/
def validPart (p : GoString) : Bool :=
  !p.isEmpty && p.all isDigit && decide ((digitsValue p : Int) ≤ maxInt)

/-- The acceptance condition in the specification's words: the string is non-empty and
its core splits on `.` into exactly three valid parts. -/
def accepted (s : GoString) : Bool :=
  !s.isEmpty &&
    match Split (versionCore s) 46 with
    | [a, b, c] => validPart a && validPart b && validPart c
    | _ => false

/-! ## The suffix-stripping passes in the other order -/

/-- The core of a version string when the cut at the first `+` is made before the cut at
the first `-`. -/
def versionCorePlusFirst (s : GoString) : GoString :=
  cutAt 45 (cutAt 43 (if hasLeadingV s then s.tail else s))

/-- A copy of `parseSemver` in which the two stripping passes of main.go, lines 27-32, are
exchanged: the string is cut at the first `+` and then at the first `-`. It is the
variant the specification warns against, to be compared with `parseSemver`. -/
def parseSemverPlusFirst (version : GoString) : Except SemverError Parsed :=
  if version = [] then Except.error SemverError.emptyVersion
  else
    let hasVPrefix : Bool :=
      decide (version.length > 0) && (version.head? == some 118 || version.head? == some 86)
    let version := if hasVPrefix then version.drop 1 else version
    let idx := IndexByte version 43
    let version := if idx ≥ 0 then version.take idx.toNat else version
    let idx := IndexByte version 45
    let version := if idx ≥ 0 then version.take idx.toNat else version
    let parts := Split version 46
    match parts with
    | [p0, p1, p2] =>
      match Atoi p0 with
      | none => Except.error (SemverError.invalidMajor p0)
      | some major =>
        match Atoi p1 with
        | none => Except.error (SemverError.invalidMinor p1)
        | some minor =>
          match Atoi p2 with
          | none => Except.error (SemverError.invalidPatch p2)
          | some patch => Except.ok (major, minor, patch, hasVPrefix)
    | _ => Except.error (SemverError.invalidSemver version)

end GetForthSemver

/-! ## The token decoder `decode_jwt` -/

namespace DecodeJwt

open GetForthSemver (GoString str Split fmtNat)

/-! ### `strings.TrimSpace` -/

/-- Length in bytes of the UTF-8 encoding of a white-space rune (`unicode.IsSpace`) at the
head of the string, `0` when the string does not start with one. -/
def spaceRuneLen : GoString → Nat
  | [] => 0
  | b0 :: r =>
    if b0 = 9 ∨ b0 = 10 ∨ b0 = 11 ∨ b0 = 12 ∨ b0 = 13 ∨ b0 = 32 then 1
    else
      match r with
      | [] => 0
      | b1 :: r1 =>
        -- U+0085, U+00A0
        if b0 = 194 ∧ (b1 = 133 ∨ b1 = 160) then 2
        else
          match r1 with
          | [] => 0
          | b2 :: _ =>
            -- U+1680
            if b0 = 225 ∧ b1 = 154 ∧ b2 = 128 then 3
            -- U+2000 to U+200A, U+2028, U+2029, U+202F
            else if b0 = 226 ∧ b1 = 128 ∧ ((128 ≤ b2 ∧ b2 ≤ 138) ∨ b2 = 168 ∨ b2 = 169 ∨ b2 = 175)
              then 3
            -- U+205F
            else if b0 = 226 ∧ b1 = 129 ∧ b2 = 159 then 3
            -- U+3000
            else if b0 = 227 ∧ b1 = 128 ∧ b2 = 128 then 3
            else 0

/-- The same test on a reversed string: length of the white-space rune the string ends
with, given its bytes last first. -/
def spaceRuneLenRev : GoString → Nat
  | [] => 0
  | b0 :: r =>
    if b0 = 9 ∨ b0 = 10 ∨ b0 = 11 ∨ b0 = 12 ∨ b0 = 13 ∨ b0 = 32 then 1
    else
      match r with
      | [] => 0
      | b1 :: r1 =>
        if b1 = 194 ∧ (b0 = 133 ∨ b0 = 160) then 2
        else
          match r1 with
          | [] => 0
          | b2 :: _ =>
            if b2 = 225 ∧ b1 = 154 ∧ b0 = 128 then 3
            else if b2 = 226 ∧ b1 = 128 ∧ ((128 ≤ b0 ∧ b0 ≤ 138) ∨ b0 = 168 ∨ b0 = 169 ∨ b0 = 175)
              then 3
            else if b2 = 226 ∧ b1 = 129 ∧ b0 = 159 then 3
            else if b2 = 227 ∧ b1 = 128 ∧ b0 = 128 then 3
            else 0

/-- Drops `skip` bytes and then every rune that `len` recognises at the head. -/
def dropRunes (len : GoString → Nat) : Nat → GoString → GoString
  | _, [] => []
  | skip + 1, _ :: r => dropRunes len skip r
  | 0, b :: r => if len (b :: r) = 0 then b :: r else dropRunes len (len (b :: r) - 1) r

/-- Model of `strings.TrimSpace`: the string without its leading and trailing white-space
runes. -/
def TrimSpace (s : GoString) : GoString :=
  (dropRunes spaceRuneLenRev 0 (dropRunes spaceRuneLen 0 s).reverse).reverse

/-! ### `base64.RawURLEncoding` -/

/-- The 6-bit value of a character of the URL-safe base64 alphabet. -/
def b64Value (c : Nat) : Option Nat :=
  if 65 ≤ c ∧ c ≤ 90 then some (c - 65)
  else if 97 ≤ c ∧ c ≤ 122 then some (c - 71)
  else if 48 ≤ c ∧ c ≤ 57 then some (c + 4)
  else if c = 45 then some 62
  else if c = 95 then some 63
  else none

/-- The 6-bit values of the characters of the input; `\r` and `\n` are skipped, any other
byte outside the alphabet (the padding `=` included) is an error. -/
def b64Values : GoString → Option (List Nat)
  | [] => some []
  | c :: r =>
    if c = 10 ∨ c = 13 then b64Values r
    else
      match b64Value c with
      | none => none
      | some v =>
        match b64Values r with
        | none => none
        | some vs => some (v :: vs)

/-- Four 6-bit values give three bytes; a final group of three gives two bytes, of two
gives one byte (left-over bits are dropped), and a final group of one is an error. -/
def decodeQuanta : List Nat → Option GoString
  | a :: b :: c :: d :: rest =>
    match decodeQuanta rest with
    | none => none
    | some bs => some ((a * 4 + b / 16) :: (b % 16 * 16 + c / 4) :: (c % 4 * 64 + d) :: bs)
  | [a, b, c] => some [a * 4 + b / 16, b % 16 * 16 + c / 4]
  | [a, b] => some [a * 4 + b / 16]
  | [_] => none
  | [] => some []

/-- Model of `base64.RawURLEncoding.DecodeString`; `none` stands for a
`base64.CorruptInputError`. -/
def DecodeString (s : GoString) : Option GoString :=
  match b64Values s with
  | none => none
  | some vs => decodeQuanta vs

/-! ### `encoding/json`: values -/

/-- What `encoding/json` stores in an `interface{}`: `nil`, `bool`, `float64`, `string`,
`[]interface{}` or `map[string]interface{}`. A `float64` is held as the text the encoder
writes for it. A map has no order and no duplicate key: its fields are held sorted by key,
which is the order in which the encoder writes them. -/
inductive JsonValue where
  | null
  | bool (b : Bool)
  | number (text : GoString)
  | string (s : GoString)
  | array (items : List JsonValue)
  | object (fields : List (GoString × JsonValue))

/-- The part of `encoding/json` that is floating-point arithmetic, left as a parameter of
the model: for a number literal of the JSON grammar, the text the encoder writes for the
`float64` that `strconv.ParseFloat` returns, or `none` when the literal is out of range. -/
abbrev Float64Text := GoString → Option GoString

/-- An instance of the floating-point parameter that writes every number literal back as
it stands; used to evaluate the program on inputs that hold no number. -/
def literalFloat : Float64Text := fun lit => some lit

/-- An instance of the floating-point parameter that refuses the literal `1e999`, which
is beyond the largest `float64`, and writes every other literal back as it stands. -/
def boundedFloat : Float64Text := fun lit => if lit = str "1e999" then none else some lit

/-- Byte-wise lexicographic order of Go strings (`<` on `string`). -/
def keyLess : GoString → GoString → Bool
  | [], [] => false
  | [], _ :: _ => true
  | _ :: _, [] => false
  | a :: as, b :: bs => if a < b then true else if b < a then false else keyLess as bs

/-- Map assignment `m[k] = v` on the sorted field list. -/
def setField (k : GoString) (v : JsonValue) :
    List (GoString × JsonValue) → List (GoString × JsonValue)
  | [] => [(k, v)]
  | (k2, v2) :: rest =>
    if k = k2 then (k, v) :: rest
    else if keyLess k k2 then (k, v) :: (k2, v2) :: rest
    else (k2, v2) :: setField k v rest

/-! ### `encoding/json`: string literals -/

/-- Value of a hexadecimal digit. -/
def hexValue (c : Nat) : Option Nat :=
  if 48 ≤ c ∧ c ≤ 57 then some (c - 48)
  else if 97 ≤ c ∧ c ≤ 102 then some (c - 87)
  else if 65 ≤ c ∧ c ≤ 70 then some (c - 55)
  else none

/-- The number written by four hexadecimal digits. -/
def hex4 (a b c d : Nat) : Nat :=
  (((hexValue a).getD 0 * 16 + (hexValue b).getD 0) * 16 + (hexValue c).getD 0) * 16
    + (hexValue d).getD 0

/-- UTF-8 encoding of a code point (`utf8.EncodeRune` on a valid rune). -/
def utf8Encode (r : Nat) : GoString :=
  if r < 128 then [r]
  else if r < 2048 then [192 + r / 64, 128 + r % 64]
  else if r < 65536 then [224 + r / 4096, 128 + r / 64 % 64, 128 + r % 64]
  else [240 + r / 262144, 128 + r / 4096 % 64, 128 + r / 64 % 64, 128 + r % 64]

/-- A UTF-8 continuation byte. -/
def isCont (b : Nat) : Bool := decide (128 ≤ b) && decide (b ≤ 191)

/-- Width of the rune `utf8.DecodeRune` finds at the head of the string when it is a valid
encoding, `0` when it is not (Go then reports `RuneError` with width 1). -/
def utf8Len : GoString → Nat
  | [] => 0
  | b0 :: r =>
    if b0 < 128 then 1
    else
      match r with
      | [] => 0
      | b1 :: r1 =>
        if 194 ≤ b0 ∧ b0 ≤ 223 then (if isCont b1 then 2 else 0)
        else
          match r1 with
          | [] => 0
          | b2 :: r2 =>
            if 224 ≤ b0 ∧ b0 ≤ 239 then
              (if (if b0 = 224 then 160 else 128) ≤ b1 ∧ b1 ≤ (if b0 = 237 then 159 else 191)
                  ∧ isCont b2 then 3 else 0)
            else
              match r2 with
              | [] => 0
              | b3 :: _ =>
                if 240 ≤ b0 ∧ b0 ≤ 244 ∧ (if b0 = 240 then 144 else 128) ≤ b1
                    ∧ b1 ≤ (if b0 = 244 then 143 else 191) ∧ isCont b2 ∧ isCont b3 then 4
                else 0

/-- The byte a one-letter escape stands for. -/
def escByte (c : Nat) : Nat :=
  if c = 98 then 8
  else if c = 102 then 12
  else if c = 110 then 10
  else if c = 114 then 13
  else if c = 116 then 9
  else c

/-- Where `unquote` stands in a string literal. -/
inductive UnquoteState where
  /-- At the start of a character. -/
  | plain
  /-- Inside a valid UTF-8 sequence, with this many bytes still to copy. -/
  | copy (n : Nat)
  /-- After a backslash. -/
  | esc
  /-- Inside `\uXXXX`, with `left` digits to read and the value `acc` read so far; `high`
  holds a high surrogate written just before, if any. -/
  | hex (left : Nat) (acc : Nat) (high : Option Nat)
  /-- After a `\uXXXX` that is a high surrogate. -/
  | high (h : Nat)
  /-- After a high surrogate and a backslash. -/
  | highEsc (h : Nat)

/-- The bytes of U+FFFD, the replacement character. -/
def replacementChar : GoString := [239, 191, 189]

/-- One byte at the start of a character: a backslash opens an escape, an ASCII byte is
copied, a valid UTF-8 sequence is copied whole, any other byte becomes U+FFFD. -/
def unquotePlain (b : Nat) (rest : GoString) : GoString × UnquoteState :=
  if b = 92 then ([], UnquoteState.esc)
  else if b < 128 then ([b], UnquoteState.plain)
  else if utf8Len (b :: rest) = 0 then (replacementChar, UnquoteState.plain)
  else ([b], UnquoteState.copy (utf8Len (b :: rest) - 1))

/-- The rune of a complete `\uXXXX` that is not the second half of a pair: a high
surrogate waits for its partner, a low surrogate alone is U+FFFD. -/
def unquoteRune (r : Nat) : GoString × UnquoteState :=
  if 55296 ≤ r ∧ r < 56320 then ([], UnquoteState.high r)
  else if 56320 ≤ r ∧ r < 57344 then (replacementChar, UnquoteState.plain)
  else (utf8Encode r, UnquoteState.plain)

/-- One step of `unquote`: the bytes written for the byte `b` (followed by `rest`) and the
next state. -/
def unquoteStep (st : UnquoteState) (b : Nat) (rest : GoString) : GoString × UnquoteState :=
  match st with
  | UnquoteState.plain => unquotePlain b rest
  | UnquoteState.copy n =>
    match n with
    | 0 => unquotePlain b rest
    | 1 => ([b], UnquoteState.plain)
    | k + 2 => ([b], UnquoteState.copy (k + 1))
  | UnquoteState.esc =>
    if b = 117 then ([], UnquoteState.hex 4 0 none) else ([escByte b], UnquoteState.plain)
  | UnquoteState.hex left acc high =>
    let r := acc * 16 + (hexValue b).getD 0
    if left ≤ 1 then
      match high with
      | none => unquoteRune r
      | some h =>
        if 56320 ≤ r ∧ r < 57344 then
          (utf8Encode (65536 + (h - 55296) * 1024 + (r - 56320)), UnquoteState.plain)
        else (replacementChar ++ (unquoteRune r).1, (unquoteRune r).2)
    else ([], UnquoteState.hex (left - 1) r high)
  | UnquoteState.high h =>
    if b = 92 then ([], UnquoteState.highEsc h)
    else (replacementChar ++ (unquotePlain b rest).1, (unquotePlain b rest).2)
  | UnquoteState.highEsc h =>
    if b = 117 then ([], UnquoteState.hex 4 0 (some h))
    else (replacementChar ++ [escByte b], UnquoteState.plain)

/-- Runs `unquoteStep` over the body of a string literal. -/
def unquoteAux : UnquoteState → GoString → GoString
  | UnquoteState.high _, [] => replacementChar
  | _, [] => []
  | st, b :: rest => (unquoteStep st b rest).1 ++ unquoteAux (unquoteStep st b rest).2 rest

/-- Model of the decoder's `unquote` on the body of a string literal the scanner accepted:
escapes are replaced, `\u` escapes are written in UTF-8 (a surrogate pair as one rune, a
lone surrogate as U+FFFD), and every byte that does not start a valid UTF-8 sequence
becomes U+FFFD. -/
def unquote (raw : GoString) : GoString := unquoteAux UnquoteState.plain raw

/-- A lower-case hexadecimal digit. -/
def hexDigit (n : Nat) : Nat := if n < 10 then 48 + n else 87 + n

/-- What the encoder (with HTML escaping, the default) writes for one byte of a string:
a backslash escape for the quote, the backslash and the control characters (the short
forms `\b` and `\f` are those of Go 1.22 and later), a `\u00XX` escape for the other
control characters and for `<`, `>`, `&`, and the byte itself otherwise. -/
def quoteByte (b : Nat) : GoString :=
  if b = 34 then [92, 34]
  else if b = 92 then [92, 92]
  else if b = 8 then [92, 98]
  else if b = 12 then [92, 102]
  else if b = 10 then [92, 110]
  else if b = 13 then [92, 114]
  else if b = 9 then [92, 116]
  else if b < 32 ∨ b = 60 ∨ b = 62 ∨ b = 38 then [92, 117, 48, 48, hexDigit (b / 16), hexDigit (b % 16)]
  else [b]

/-- The body of the string literal the encoder writes for a valid UTF-8 string: the bytes
of `quoteByte`, with the line separators U+2028 and U+2029 written as six-byte `\u`
escapes. The first argument counts bytes to skip. -/
def quoteAux : Nat → GoString → GoString
  | _, [] => []
  | skip + 1, _ :: rest => quoteAux skip rest
  | 0, b :: rest =>
    if b = 226 ∧ rest.take 2 = [128, 168] then str "\\u2028" ++ quoteAux 2 rest
    else if b = 226 ∧ rest.take 2 = [128, 169] then str "\\u2029" ++ quoteAux 2 rest
    else quoteByte b ++ quoteAux 0 rest

/-- The string literal the encoder writes for a string. -/
def quote (s : GoString) : GoString := 34 :: (quoteAux 0 s ++ [34])

/-! ### `encoding/json`: decoding -/

/-- Progress inside a number literal. -/
inductive NumState where
  /-- After the minus sign. -/
  | neg
  /-- After a leading `0`. -/
  | zero
  /-- Inside the integer digits. -/
  | int
  /-- After the decimal point. -/
  | dot
  /-- Inside the fraction digits. -/
  | frac
  /-- After `e` or `E`. -/
  | e
  /-- After the sign of the exponent. -/
  | eSign
  /-- Inside the exponent digits. -/
  | exp

/-- Whether a number literal may end in this state. -/
def NumState.final : NumState → Bool
  | NumState.zero | NumState.int | NumState.frac | NumState.exp => true
  | _ => false

/-- The next state of a number literal on one more byte, `none` when the byte does not
continue the literal. -/
def NumState.next (st : NumState) (c : Nat) : Option NumState :=
  let digit : Bool := decide (48 ≤ c) && decide (c ≤ 57)
  match st with
  | NumState.neg =>
    if c = 48 then some NumState.zero else if digit then some NumState.int else none
  | NumState.zero =>
    if c = 46 then some NumState.dot
    else if c = 101 ∨ c = 69 then some NumState.e else none
  | NumState.int =>
    if digit then some NumState.int
    else if c = 46 then some NumState.dot
    else if c = 101 ∨ c = 69 then some NumState.e else none
  | NumState.dot => if digit then some NumState.frac else none
  | NumState.frac =>
    if digit then some NumState.frac
    else if c = 101 ∨ c = 69 then some NumState.e else none
  | NumState.e =>
    if c = 43 ∨ c = 45 then some NumState.eSign
    else if digit then some NumState.exp else none
  | NumState.eSign => if digit then some NumState.exp else none
  | NumState.exp => if digit then some NumState.exp else none

/-- An array or object that is open: the items read so far (last first), or the fields
assigned so far and the key whose value is awaited. -/
inductive Frame where
  | arr (items : List JsonValue)
  | obj (fields : List (GoString × JsonValue)) (key : Option GoString)

/-- What the decoder expects next. -/
inductive Mode where
  /-- A value. -/
  | value
  /-- A value or `]`, just after `[`. -/
  | valueOrEnd
  /-- A key or `}`, just after the opening brace. -/
  | keyOrEnd
  /-- A key, after a comma in an object. -/
  | key
  /-- The colon after a key. -/
  | colon
  /-- A comma or the closing bracket after a value; at top level, the end of the input. -/
  | next
  /-- Inside a string literal: its body so far, last byte first. -/
  | string (isKey : Bool) (raw : GoString)
  /-- Inside a string literal, after a backslash. -/
  | stringEsc (isKey : Bool) (raw : GoString)
  /-- Inside a string literal, with `left` hexadecimal digits of a `\u` escape to read. -/
  | stringHex (isKey : Bool) (raw : GoString) (left : Nat)
  /-- Inside a number literal: its text so far, last byte first. -/
  | number (st : NumState) (lit : GoString)
  /-- Inside `true`, `false` or `null`: the bytes still expected and the value. -/
  | literal (rest : GoString) (v : JsonValue)

/-- State of the decoder: what it expects, the open arrays and objects (innermost first)
and the top-level value once it is complete. -/
structure Decoder where
  mode : Mode
  stack : List Frame
  top : Option JsonValue

/-- JSON white space. -/
def isSpace (c : Nat) : Bool := c == 32 || c == 9 || c == 13 || c == 10

/-- The nesting depth beyond which the scanner reports "exceeded max depth". -/
def maxNestingDepth : Nat := 10000

/-- A complete value goes into the innermost open array or object, or becomes the
top-level value. -/
def emit (v : JsonValue) (stack : List Frame) : Option Decoder :=
  match stack with
  | [] => some ⟨Mode.next, [], some v⟩
  | Frame.arr items :: rest => some ⟨Mode.next, Frame.arr (v :: items) :: rest, none⟩
  | Frame.obj fields (some k) :: rest =>
    some ⟨Mode.next, Frame.obj (setField k v fields) none :: rest, none⟩
  | Frame.obj _ none :: _ => none

/-- A complete number literal: converted to `float64`, an error when out of range. -/
def emitNumber (float : Float64Text) (lit : GoString) (stack : List Frame) : Option Decoder :=
  match float lit.reverse with
  | none => none
  | some text => emit (JsonValue.number text) stack

/-- The first byte of a value. -/
def beginValue (stack : List Frame) (c : Nat) : Option Decoder :=
  if c = 123 then
    if stack.length + 1 ≤ maxNestingDepth then
      some ⟨Mode.keyOrEnd, Frame.obj [] none :: stack, none⟩
    else none
  else if c = 91 then
    if stack.length + 1 ≤ maxNestingDepth then
      some ⟨Mode.valueOrEnd, Frame.arr [] :: stack, none⟩
    else none
  else if c = 34 then some ⟨Mode.string false [], stack, none⟩
  else if c = 45 then some ⟨Mode.number NumState.neg [c], stack, none⟩
  else if c = 48 then some ⟨Mode.number NumState.zero [c], stack, none⟩
  else if 49 ≤ c ∧ c ≤ 57 then some ⟨Mode.number NumState.int [c], stack, none⟩
  else if c = 116 then some ⟨Mode.literal (str "rue") (JsonValue.bool true), stack, none⟩
  else if c = 102 then some ⟨Mode.literal (str "alse") (JsonValue.bool false), stack, none⟩
  else if c = 110 then some ⟨Mode.literal (str "ull") JsonValue.null, stack, none⟩
  else none

/-- The byte after a complete value: white space, a comma, or the bracket that closes the
innermost open array or object; after the top-level value only white space. -/
def afterValue (stack : List Frame) (top : Option JsonValue) (c : Nat) : Option Decoder :=
  if isSpace c then some ⟨Mode.next, stack, top⟩
  else
    match stack with
    | [] => none
    | Frame.arr items :: rest =>
      if c = 44 then some ⟨Mode.value, stack, none⟩
      else if c = 93 then emit (JsonValue.array items.reverse) rest
      else none
    | Frame.obj fields _ :: rest =>
      if c = 44 then some ⟨Mode.key, stack, none⟩
      else if c = 125 then emit (JsonValue.object fields) rest
      else none

/-- The end of a string literal: a key is kept in the open object, a value is emitted. -/
def endString (isKey : Bool) (raw : GoString) (stack : List Frame) : Option Decoder :=
  if isKey then
    match stack with
    | Frame.obj fields _ :: rest =>
      some ⟨Mode.colon, Frame.obj fields (some (unquote raw.reverse)) :: rest, none⟩
    | _ => none
  else emit (JsonValue.string (unquote raw.reverse)) stack

/-- One byte of input; `none` is a syntax error (or a number out of range). -/
def step (float : Float64Text) (d : Decoder) (c : Nat) : Option Decoder :=
  match d.mode with
  | Mode.value => if isSpace c then some d else beginValue d.stack c
  | Mode.valueOrEnd =>
    if isSpace c then some d
    else if c = 93 then
      match d.stack with
      | Frame.arr _ :: rest => emit (JsonValue.array []) rest
      | _ => none
    else beginValue d.stack c
  | Mode.keyOrEnd =>
    if isSpace c then some d
    else if c = 125 then
      match d.stack with
      | Frame.obj _ _ :: rest => emit (JsonValue.object []) rest
      | _ => none
    else if c = 34 then some ⟨Mode.string true [], d.stack, none⟩
    else none
  | Mode.key =>
    if isSpace c then some d
    else if c = 34 then some ⟨Mode.string true [], d.stack, none⟩
    else none
  | Mode.colon =>
    if isSpace c then some d
    else if c = 58 then some ⟨Mode.value, d.stack, none⟩
    else none
  | Mode.next => afterValue d.stack d.top c
  | Mode.string isKey raw =>
    if c = 34 then endString isKey raw d.stack
    else if c = 92 then some ⟨Mode.stringEsc isKey (c :: raw), d.stack, none⟩
    else if c < 32 then none
    else some ⟨Mode.string isKey (c :: raw), d.stack, none⟩
  | Mode.stringEsc isKey raw =>
    if c = 98 ∨ c = 102 ∨ c = 110 ∨ c = 114 ∨ c = 116 ∨ c = 92 ∨ c = 47 ∨ c = 34 then
      some ⟨Mode.string isKey (c :: raw), d.stack, none⟩
    else if c = 117 then some ⟨Mode.stringHex isKey (c :: raw) 4, d.stack, none⟩
    else none
  | Mode.stringHex isKey raw left =>
    match hexValue c with
    | none => none
    | some _ =>
      if left ≤ 1 then some ⟨Mode.string isKey (c :: raw), d.stack, none⟩
      else some ⟨Mode.stringHex isKey (c :: raw) (left - 1), d.stack, none⟩
  | Mode.number st lit =>
    match st.next c with
    | some st2 => some ⟨Mode.number st2 (c :: lit), d.stack, none⟩
    | none =>
      if st.final then
        match emitNumber float lit d.stack with
        | none => none
        | some d2 => afterValue d2.stack d2.top c
      else none
  | Mode.literal rest v =>
    match rest with
    | [] => none
    | [x] => if c = x then emit v d.stack else none
    | x :: xs => if c = x then some ⟨Mode.literal xs v, d.stack, none⟩ else none

/-- Runs `step` over the input. -/
def run (float : Float64Text) : Decoder → GoString → Option Decoder
  | d, [] => some d
  | d, c :: rest =>
    match step float d c with
    | none => none
    | some d2 => run float d2 rest

/-- The value at the end of the input: the top-level value must be complete (a number
may end with the input). -/
def finish (float : Float64Text) (d : Decoder) : Option JsonValue :=
  match d.mode, d.stack with
  | Mode.next, [] => d.top
  | Mode.number st lit, [] =>
    if st.final then
      match emitNumber float lit [] with
      | none => none
      | some d2 => d2.top
    else none
  | _, _ => none

/-- Model of `json.Unmarshal(data, &v)` for `v` of type `interface{}`: the value the JSON
text denotes, `none` for any error. -/
def decodeValue (float : Float64Text) (data : GoString) : Option JsonValue :=
  match run float ⟨Mode.value, [], none⟩ data with
  | none => none
  | some d => finish float d

/-- A Go `map[string]interface{}`: `none` is the `nil` map. -/
abbrev GoMap := Option (List (GoString × JsonValue))

/-- Model of `json.Unmarshal(data, &m)` for a `nil` `m` of type `map[string]interface{}`: a
JSON object fills the map, `null` leaves it `nil` without error, and any other value, like
any text that is not JSON, is an error (`none`). -/
def Unmarshal (float : Float64Text) (data : GoString) : Option GoMap :=
  match decodeValue float data with
  | some (JsonValue.object fields) => some (some fields)
  | some JsonValue.null => some none
  | _ => none

/-! ### `encoding/json`: encoding -/

/-- A line break followed by `depth` copies of the indent `indent`, after `pre`. -/
def newline (pre indent : GoString) (depth : Nat) : GoString :=
  10 :: (pre ++ (List.replicate depth indent).flatten)

mutual
/-- The indented JSON text of a value at nesting depth `depth`. -/
def encodeValue (pre indent : GoString) (depth : Nat) : JsonValue → GoString
  | JsonValue.null => str "null"
  | JsonValue.bool true => str "true"
  | JsonValue.bool false => str "false"
  | JsonValue.number text => text
  | JsonValue.string s => quote s
  | JsonValue.array [] => str "[]"
  | JsonValue.array (x :: xs) =>
    91 :: (newline pre indent (depth + 1) ++ encodeValue pre indent (depth + 1) x
      ++ encodeItems pre indent (depth + 1) xs ++ newline pre indent depth ++ [93])
  | JsonValue.object [] => str "\x7b\x7d"
  | JsonValue.object ((k, v) :: fs) =>
    123 :: (newline pre indent (depth + 1) ++ quote k ++ 58 :: 32 ::
      encodeValue pre indent (depth + 1) v
      ++ encodeFields pre indent (depth + 1) fs ++ newline pre indent depth ++ [125])
/-- The items of an array after the first, each after a comma and a line break. -/
def encodeItems (pre indent : GoString) (depth : Nat) : List JsonValue → GoString
  | [] => []
  | x :: xs =>
    44 :: (newline pre indent depth ++ encodeValue pre indent depth x
      ++ encodeItems pre indent depth xs)
/-- The fields of an object after the first, each after a comma and a line break. -/
def encodeFields (pre indent : GoString) (depth : Nat) :
    List (GoString × JsonValue) → GoString
  | [] => []
  | (k, v) :: fs =>
    44 :: (newline pre indent depth ++ quote k ++ 58 :: 32 :: encodeValue pre indent depth v
      ++ encodeFields pre indent depth fs)
end

/-- Model of `json.MarshalIndent(m, prefix, indent)` for a map produced by `Unmarshal`:
`null` for the `nil` map, else the indented object with its keys in sorted order. `none`
stands for an error, which no such map gives. -/
def MarshalIndent (m : GoMap) (pre indent : GoString) : Option GoString :=
  match m with
  | none => some (str "null")
  | some fields => some (encodeValue pre indent 0 (JsonValue.object fields))

/-! ### Predicates of the proofs: the values the decoder produces

The definitions from here to the program are not part of the program: they state what
holds of every value `json.Unmarshal` returns, and the invariant of the decoder that
proves it. -/

/-- Whether the string is valid UTF-8. The first argument counts the bytes still to pass
of a sequence whose first byte has been checked with `utf8Len`. -/
def validUtf8Aux : Nat → GoString → Bool
  | 0, [] => true
  | _ + 1, [] => false
  | k + 1, _ :: rest => validUtf8Aux k rest
  | 0, b :: rest => decide (utf8Len (b :: rest) ≠ 0) && validUtf8Aux (utf8Len (b :: rest) - 1) rest

/-- Whether the string is valid UTF-8 (`utf8.ValidString`). -/
def validUtf8 (s : GoString) : Bool := validUtf8Aux 0 s

/-- The state of a number literal after its first byte. -/
def numberStart (c : Nat) : Option NumState :=
  if c = 45 then some NumState.neg
  else if c = 48 then some NumState.zero
  else if 49 ≤ c ∧ c ≤ 57 then some NumState.int
  else none

/-- The state of a number literal after more bytes. -/
def numberScan : NumState → GoString → Option NumState
  | st, [] => some st
  | st, c :: rest =>
    match st.next c with
    | none => none
    | some st2 => numberScan st2 rest

/-- Whether the text is a number literal of the JSON grammar. -/
def isNumberLiteral (t : GoString) : Bool :=
  match t with
  | [] => false
  | c :: rest =>
    match numberStart c with
    | none => false
    | some st =>
      match numberScan st rest with
      | none => false
      | some st2 => st2.final

/-- Whether the keys of a field list increase strictly in byte order. -/
def sortedKeys : List (GoString × JsonValue) → Bool
  | [] => true
  | (k, _) :: rest =>
    (match rest with
      | [] => true
      | (k2, _) :: _ => keyLess k k2) && sortedKeys rest

mutual
/-- Nesting depth of a value: `0` for a scalar, one more than its deepest element for an
array or object. -/
def depthOf : JsonValue → Nat
  | JsonValue.array items => depthItems items + 1
  | JsonValue.object fields => depthFields fields + 1
  | _ => 0
/-- Largest nesting depth among the items of an array. -/
def depthItems : List JsonValue → Nat
  | [] => 0
  | x :: xs => max (depthOf x) (depthItems xs)
/-- Largest nesting depth among the values of an object. -/
def depthFields : List (GoString × JsonValue) → Nat
  | [] => 0
  | (_, v) :: fs => max (depthOf v) (depthFields fs)
end

mutual
/-- The values `json.Unmarshal` can produce: strings and keys are valid UTF-8, the keys of
an object increase strictly, and a number is the text of a `float64`, that is a number
literal the conversion `float` maps to itself. -/
def canonical (float : Float64Text) : JsonValue → Bool
  | JsonValue.null => true
  | JsonValue.bool _ => true
  | JsonValue.number t => isNumberLiteral t && (float t == some t)
  | JsonValue.string s => validUtf8 s
  | JsonValue.array items => canonicalItems float items
  | JsonValue.object fields => sortedKeys fields && canonicalFields float fields
/-- All items are canonical. -/
def canonicalItems (float : Float64Text) : List JsonValue → Bool
  | [] => true
  | x :: xs => canonical float x && canonicalItems float xs
/-- All keys are valid UTF-8 and all values canonical. -/
def canonicalFields (float : Float64Text) : List (GoString × JsonValue) → Bool
  | [] => true
  | (k, v) :: fs => validUtf8 k && canonical float v && canonicalFields float fs
end

/-! ### The scanner of string bodies and the invariant of the decoder -/

/-- Where the scanner stands inside the body of a string literal. -/
inductive StrState where
  /-- Between characters. -/
  | normal
  /-- After a backslash. -/
  | esc
  /-- Inside `\uXXXX`, with `left` hexadecimal digits to read. -/
  | hex (left : Nat)

/-- One byte of the body of a string literal, as `step` treats it in the modes `string`,
`stringEsc` and `stringHex`; `none` when the byte ends or breaks the literal. -/
def strStep : StrState → Nat → Option StrState
  | StrState.normal, c =>
    if c = 34 then none
    else if c = 92 then some StrState.esc
    else if c < 32 then none
    else some StrState.normal
  | StrState.esc, c =>
    if c = 98 ∨ c = 102 ∨ c = 110 ∨ c = 114 ∨ c = 116 ∨ c = 92 ∨ c = 47 ∨ c = 34 then
      some StrState.normal
    else if c = 117 then some (StrState.hex 4)
    else none
  | StrState.hex left, c =>
    match hexValue c with
    | none => none
    | some _ => if left ≤ 1 then some StrState.normal else some (StrState.hex (left - 1))

/-- Runs `strStep` over a body. -/
def strScan : StrState → GoString → Option StrState
  | st, [] => some st
  | st, c :: rest =>
    match strStep st c with
    | none => none
    | some st2 => strScan st2 rest

/-- The property of the floating-point parameter that `strconv` and the encoder have: the
text written for a `float64` is a number literal, and it converts back to the same
`float64`, so to the same text. -/
def FloatStable (float : Float64Text) : Prop :=
  ∀ lit t : GoString, isNumberLiteral lit = true → float lit = some t →
    isNumberLiteral t = true ∧ float t = some t

/-- What holds of an open array or object that lies `height` levels deep: its values are
canonical and shallow enough, its fields are sorted, and a key that awaits its value is
valid UTF-8. -/
def frameOK (float : Float64Text) (height : Nat) : Frame → Prop
  | Frame.arr items =>
    canonicalItems float items = true ∧ depthItems items + height ≤ maxNestingDepth
  | Frame.obj fields key =>
    canonicalFields float fields = true ∧ sortedKeys fields = true ∧
      depthFields fields + height ≤ maxNestingDepth ∧ ∀ k, key = some k → validUtf8 k = true

/-- All open arrays and objects satisfy `frameOK`, and there are at most
`maxNestingDepth` of them. -/
def stackOK (float : Float64Text) : List Frame → Prop
  | [] => True
  | f :: rest =>
    frameOK float (rest.length + 1) f ∧ rest.length + 1 ≤ maxNestingDepth ∧ stackOK float rest

/-- What holds of the token being read: the body of a string literal is accepted so far,
the text of a number is a prefix of a number literal, and the value of a literal name is
a scalar. -/
def modeOK (float : Float64Text) : Mode → Prop
  | Mode.string _ raw => strScan StrState.normal raw.reverse = some StrState.normal
  | Mode.stringEsc _ raw => strScan StrState.normal raw.reverse = some StrState.esc
  | Mode.stringHex _ raw left =>
    strScan StrState.normal raw.reverse = some (StrState.hex left)
  | Mode.number st lit =>
    ∃ c bs st0, lit.reverse = c :: bs ∧ numberStart c = some st0 ∧ numberScan st0 bs = some st
  | Mode.literal _ v => canonical float v = true ∧ depthOf v = 0
  | _ => True

/-- The invariant of the decoder. -/
def Inv (float : Float64Text) (d : Decoder) : Prop :=
  modeOK float d.mode ∧ stackOK float d.stack ∧
    ∀ v, d.top = some v → canonical float v = true ∧ depthOf v ≤ maxNestingDepth

/-! ### The program -/

/-- The diagnostics `main` writes to standard error, one constructor per `fmt.Fprintf`
call of the source; the `%v` rendering of the underlying error is not modelled. -/
inductive Diag where
  /-- Line "Error reading input: %v". -/
  | readingInput
  /-- Line "Error: Invalid JWT token format (expected 3 parts, got %d)". -/
  | invalidFormat (got : Nat)
  /-- Line "Error decoding header: %v". -/
  | decodingHeader
  /-- Line "Error decoding payload: %v". -/
  | decodingPayload
  /-- Line "Error parsing header JSON: %v". -/
  | parsingHeader
  /-- Line "Error parsing payload JSON: %v". -/
  | parsingPayload
  /-- Line "Error formatting payload: %v". -/
  | formattingPayload
  deriving DecidableEq, Repr

/-- The text of a diagnostic up to the rendering of the underlying error. -/
def Diag.text : Diag → GoString
  | Diag.readingInput => str "Error reading input: "
  | Diag.invalidFormat got =>
    str "Error: Invalid JWT token format (expected 3 parts, got " ++ fmtNat got ++ str ")\n"
  | Diag.decodingHeader => str "Error decoding header: "
  | Diag.decodingPayload => str "Error decoding payload: "
  | Diag.parsingHeader => str "Error parsing header JSON: "
  | Diag.parsingPayload => str "Error parsing payload JSON: "
  | Diag.formattingPayload => str "Error formatting payload: "

/-- What one run of the program leaves behind: the bytes written to standard output, the
diagnostics written to standard error, and whether it stopped on a run-time panic. -/
structure Output where
  stdout : GoString
  stderr : List Diag
  panicked : Bool
  deriving DecidableEq, Repr

/-- A run that ends after writing one diagnostic. -/
def fail (d : Diag) : Output := ⟨[], [d], false⟩

/-- A run that ends on an index out of range. -/
def panicOutput : Output := ⟨[], [], true⟩

/-- Embedding of `main` (decode_jwt/main.go, lines 12-69). The input `scan` is the outcome
of `scanner.Scan()`: `none` when it returns `false`, else the line `scanner.Text()`. -/
def main (float : Float64Text) (scan : Option GoString) : Output :=
  match scan with
  | none => fail Diag.readingInput
  | some text =>
    let token := TrimSpace text
    if token = [] then ⟨[], [], false⟩
    else
      -- Split the JWT token into parts
      let parts := Split token 46
      if parts.length ≠ 3 then fail (Diag.invalidFormat parts.length)
      else
        -- Decode header
        match parts[0]? with
        | none => panicOutput
        | some part0 =>
          match DecodeString part0 with
          | none => fail Diag.decodingHeader
          | some headerBytes =>
            -- Decode payload
            match parts[1]? with
            | none => panicOutput
            | some part1 =>
              match DecodeString part1 with
              | none => fail Diag.decodingPayload
              | some payloadBytes =>
                match Unmarshal float headerBytes with
                | none => fail Diag.parsingHeader
                | some _ =>
                  match Unmarshal float payloadBytes with
                  | none => fail Diag.parsingPayload
                  | some payload =>
                    match MarshalIndent payload [] (str "  ") with
                    | none => fail Diag.formattingPayload
                    | some payloadJSON => ⟨payloadJSON ++ [10], [], false⟩

end DecodeJwt

namespace GetForthSemver

/-! ## Integers -/

theorem wrapInt_of_range (x : Int) (h1 : minInt ≤ x) (h2 : x ≤ maxInt) : wrapInt x = x := by
  unfold wrapInt
  unfold minInt at h1
  unfold maxInt at h2
  omega

/-! ## Cutting and splitting -/

theorem take_IndexByte (s : GoString) (c : Nat) :
    (if IndexByte s c ≥ 0 then s.take (IndexByte s c).toNat else s) = cutAt c s
      ∧ -1 ≤ IndexByte s c := by
  induction s with
  | nil => simp [IndexByte, cutAt]
  | cons x xs ih =>
    obtain ⟨ih1, ih2⟩ := ih
    unfold cutAt at ih1 ⊢
    by_cases hx : x = c
    · simp [IndexByte, hx]
    · by_cases hr : IndexByte xs c < 0
      · have hr2 : ¬ IndexByte xs c ≥ 0 := by omega
        rw [if_neg hr2] at ih1
        simp [IndexByte, hx, hr, ← ih1]
      · have hr2 : IndexByte xs c ≥ 0 := by omega
        rw [if_pos hr2] at ih1
        have h3 : (IndexByte xs c + 1).toNat = (IndexByte xs c).toNat + 1 := by omega
        have h4 : IndexByte xs c + 1 ≥ 0 := by omega
        simp [IndexByte, hx, hr, h3, h4, ih1]
        omega

theorem not_mem_cutAt (c : Nat) (s : GoString) : c ∉ cutAt c s := by
  intro h
  have := List.mem_takeWhile_imp h
  simp at this

theorem mem_of_mem_cutAt {c x : Nat} {s : GoString} (h : x ∈ cutAt c s) : x ∈ s :=
  (List.takeWhile_sublist _).subset h

theorem cutAt_of_not_mem {c : Nat} {s : GoString} (h : c ∉ s) : cutAt c s = s := by
  unfold cutAt
  rw [List.takeWhile_eq_self_iff]
  intro x hx
  have : x ≠ c := fun e => h (e ▸ hx)
  simpa using this

theorem Split_ne_nil (s : GoString) (sep : Nat) : Split s sep ≠ [] := by
  induction s with
  | nil => simp [Split]
  | cons x xs ih =>
    unfold Split
    split
    · simp
    · split <;> simp

theorem mem_of_mem_Split {s : GoString} {sep : Nat} {p : GoString} {x : Nat}
    (hp : p ∈ Split s sep) (hx : x ∈ p) : x ∈ s := by
  induction s generalizing p with
  | nil =>
    simp [Split] at hp
    subst hp
    simp at hx
  | cons y ys ih =>
    unfold Split at hp
    split at hp
    · rcases List.mem_cons.1 hp with h | h
      · subst h
        simp at hx
      · exact List.mem_cons_of_mem _ (ih h hx)
    · split at hp
      · simp at hp
        subst hp
        simp at hx
        simp [hx]
      · rename_i q qs hq
        rcases List.mem_cons.1 hp with h | h
        · subst h
          rcases List.mem_cons.1 hx with h2 | h2
          · subst h2
            simp
          · exact List.mem_cons_of_mem _ (ih (by rw [hq]; simp) h2)
        · exact List.mem_cons_of_mem _ (ih (by rw [hq]; simp [h]) hx)

theorem Split_of_not_mem {s : GoString} {sep : Nat} (h : sep ∉ s) : Split s sep = [s] := by
  induction s with
  | nil => simp [Split]
  | cons x xs ih =>
    have hx : x ≠ sep := fun e => h (by simp [e])
    have hxs : sep ∉ xs := fun e => h (List.mem_cons_of_mem _ e)
    simp [Split, hx, ih hxs]

theorem Split_append_sep {a : GoString} {sep : Nat} (h : sep ∉ a) (rest : GoString) :
    Split (a ++ sep :: rest) sep = a :: Split rest sep := by
  induction a with
  | nil => simp [Split]
  | cons x xs ih =>
    have hx : x ≠ sep := fun e => h (by simp [e])
    have hxs : sep ∉ xs := fun e => h (List.mem_cons_of_mem _ e)
    simp [Split, hx, ih hxs]

/-! ## Integer conversion -/

theorem Atoi_of_no_sign {s : GoString} (hplus : 43 ∉ s) (hminus : 45 ∉ s) :
    Atoi s = if validPart s then some (digitsValue s : Int) else none := by
  cases s with
  | nil => simp [Atoi, validPart]
  | cons c rest =>
    have h1 : c ≠ 43 := fun e => hplus (by simp [e])
    have h2 : c ≠ 45 := fun e => hminus (by simp [e])
    have hor : ¬ (c = 43 ∨ c = 45) := by simp [h1, h2]
    have hneg : ((c :: rest).head? == some 45) = false := by simp [h2]
    have hne : c :: rest ≠ [] := by simp
    have hemp : (c :: rest).isEmpty = false := by simp
    unfold Atoi validPart
    simp only [hneg, hemp, if_neg hor]
    generalize c :: rest = s at hne
    rw [if_neg hne]
    cases hd : s.all isDigit
    · simp
    · by_cases hv : digitsValue s ≥ 9223372036854775808
      · have hv2 : ¬ ((digitsValue s : Int) ≤ maxInt) := by
          unfold maxInt
          omega
        simp [hv, hv2]
      · have hv2 : ((digitsValue s : Int) ≤ maxInt) := by
          unfold maxInt
          omega
        simp [hv, hv2]

/-! ## Unfolding `parseSemver` -/

theorem parseSemver_eq (s : GoString) :
    parseSemver s =
      if s = [] then Except.error SemverError.emptyVersion
      else
        match Split (versionCore s) 46 with
        | [p0, p1, p2] => parseParts p0 p1 p2 (hasLeadingV s)
        | _ => Except.error (SemverError.invalidSemver (versionCore s)) := by
  by_cases hs : s = []
  · simp [parseSemver, hs]
  · obtain ⟨c, rest, rfl⟩ := List.exists_cons_of_ne_nil hs
    have hV : (decide ((c :: rest).length > 0) &&
        ((c :: rest).head? == some 118 || (c :: rest).head? == some 86))
          = hasLeadingV (c :: rest) := by
      simp [hasLeadingV]
    have hcore : ∀ v : GoString,
        (if IndexByte (if IndexByte v 45 ≥ 0 then v.take (IndexByte v 45).toNat else v) 43 ≥ 0
          then (if IndexByte v 45 ≥ 0 then v.take (IndexByte v 45).toNat else v).take
            (IndexByte (if IndexByte v 45 ≥ 0 then v.take (IndexByte v 45).toNat else v) 43).toNat
          else (if IndexByte v 45 ≥ 0 then v.take (IndexByte v 45).toNat else v))
          = cutAt 43 (cutAt 45 v) := by
      intro v
      rw [(take_IndexByte v 45).1, (take_IndexByte (cutAt 45 v) 43).1]
    unfold parseSemver
    rw [if_neg hs, if_neg hs]
    simp only [hV, hcore, versionCore, List.drop_one]
    rfl

theorem versionCore_no_sign (s : GoString) : 43 ∉ versionCore s ∧ 45 ∉ versionCore s := by
  unfold versionCore
  exact ⟨not_mem_cutAt 43 _, fun h => not_mem_cutAt 45 _ (mem_of_mem_cutAt h)⟩

theorem parseParts_eq {p0 p1 p2 : GoString} (h0 : 43 ∉ p0 ∧ 45 ∉ p0) (h1 : 43 ∉ p1 ∧ 45 ∉ p1)
    (h2 : 43 ∉ p2 ∧ 45 ∉ p2) (v : Bool) :
    parseParts p0 p1 p2 v =
      if validPart p0 then
        if validPart p1 then
          if validPart p2 then
            Except.ok ((digitsValue p0 : Int), (digitsValue p1 : Int), (digitsValue p2 : Int), v)
          else Except.error (SemverError.invalidPatch p2)
        else Except.error (SemverError.invalidMinor p1)
      else Except.error (SemverError.invalidMajor p0) := by
  unfold parseParts
  rw [Atoi_of_no_sign h0.1 h0.2, Atoi_of_no_sign h1.1 h1.2, Atoi_of_no_sign h2.1 h2.2]
  cases validPart p0 <;> cases validPart p1 <;> cases validPart p2 <;> simp

theorem parts_no_sign {s : GoString} {p0 p1 p2 : GoString}
    (h : Split (versionCore s) 46 = [p0, p1, p2]) :
    (43 ∉ p0 ∧ 45 ∉ p0) ∧ (43 ∉ p1 ∧ 45 ∉ p1) ∧ (43 ∉ p2 ∧ 45 ∉ p2) := by
  have hc := versionCore_no_sign s
  have key : ∀ p ∈ Split (versionCore s) 46, 43 ∉ p ∧ 45 ∉ p := fun p hp =>
    ⟨fun hx => hc.1 (mem_of_mem_Split hp hx), fun hx => hc.2 (mem_of_mem_Split hp hx)⟩
  rw [h] at key
  exact ⟨key p0 (by simp), key p1 (by simp), key p2 (by simp)⟩

theorem parseSemver_ok_iff (s : GoString) (r : Parsed) :
    parseSemver s = Except.ok r ↔
      s ≠ [] ∧ ∃ p0 p1 p2, Split (versionCore s) 46 = [p0, p1, p2] ∧
        validPart p0 = true ∧ validPart p1 = true ∧ validPart p2 = true ∧
        r = ((digitsValue p0 : Int), (digitsValue p1 : Int), (digitsValue p2 : Int),
              hasLeadingV s) := by
  rw [parseSemver_eq]
  by_cases hs : s = []
  · simp [hs]
  · rw [if_neg hs]
    split
    · rename_i p0 p1 p2 hsplit
      obtain ⟨h0, h1, h2⟩ := parts_no_sign hsplit
      rw [parseParts_eq h0 h1 h2]
      constructor
      · intro h
        refine ⟨hs, p0, p1, p2, hsplit, ?_⟩
        cases hv0 : validPart p0 <;> cases hv1 : validPart p1 <;> cases hv2 : validPart p2 <;>
          simp [hv0, hv1, hv2] at h ⊢
        exact h.symm
      · rintro ⟨-, q0, q1, q2, hq, hv0, hv1, hv2, rfl⟩
        rw [hsplit] at hq
        simp only [List.cons.injEq, and_true] at hq
        obtain ⟨rfl, rfl, rfl⟩ := hq
        simp [hv0, hv1, hv2]
    · rename_i hne
      constructor
      · intro h
        cases h
      · rintro ⟨-, q0, q1, q2, hq, -⟩
        exact absurd hq (hne q0 q1 q2)

theorem validPart_range {p : GoString} (h : validPart p = true) :
    0 ≤ (digitsValue p : Int) ∧ (digitsValue p : Int) ≤ maxInt := by
  unfold validPart at h
  simp only [Bool.and_eq_true, decide_eq_true_eq] at h
  exact ⟨Int.ofNat_nonneg _, h.2⟩

theorem parseSemver_range {s : GoString} {major minor patch : Int} {v : Bool}
    (h : parseSemver s = Except.ok (major, minor, patch, v)) :
    (0 ≤ major ∧ major ≤ maxInt) ∧ (0 ≤ minor ∧ minor ≤ maxInt) ∧
      (0 ≤ patch ∧ patch ≤ maxInt) ∧ v = hasLeadingV s := by
  obtain ⟨-, p0, p1, p2, -, hv0, hv1, hv2, hr⟩ := (parseSemver_ok_iff s _).1 h
  simp only [Prod.mk.injEq] at hr
  obtain ⟨rfl, rfl, rfl, rfl⟩ := hr
  exact ⟨validPart_range hv0, validPart_range hv1, validPart_range hv2, rfl⟩

/-! ## Decimal rendering -/

theorem fmtDigits_acc (fuel n : Nat) (acc : GoString) :
    fmtDigits fuel n acc = fmtDigits fuel n [] ++ acc := by
  induction fuel generalizing n acc with
  | zero => simp [fmtDigits]
  | succ k ih =>
    unfold fmtDigits
    split
    · simp
    · rw [ih (n / 10) ((48 + n % 10) :: acc), ih (n / 10) [48 + n % 10]]
      simp

theorem fmtDigits_fuel (f1 f2 n : Nat) (acc : GoString) (h1 : n < f1) (h2 : n < f2) :
    fmtDigits f1 n acc = fmtDigits f2 n acc := by
  induction f1 generalizing f2 n acc with
  | zero => omega
  | succ k ih =>
    cases f2 with
    | zero => omega
    | succ j =>
      unfold fmtDigits
      split
      · rfl
      · exact ih j (n / 10) _ (by omega) (by omega)

theorem fmtNat_lt {n : Nat} (h : n < 10) : fmtNat n = [48 + n] := by
  simp [fmtNat, fmtDigits, h]

theorem fmtNat_ge {n : Nat} (h : 10 ≤ n) : fmtNat n = fmtNat (n / 10) ++ [48 + n % 10] := by
  have hn : ¬ n < 10 := by omega
  unfold fmtNat
  rw [fmtDigits, if_neg hn, fmtDigits_acc, fmtDigits_fuel n (n / 10 + 1) (n / 10) [] (by omega)
    (by omega)]

theorem digitsValue_append_single (xs : GoString) (d : Nat) :
    digitsValue (xs ++ [d]) = digitsValue xs * 10 + (d - 48) := by
  simp [digitsValue, List.foldl_append]

theorem fmtNat_spec (n : Nat) :
    fmtNat n ≠ [] ∧ (∀ x ∈ fmtNat n, isDigit x = true) ∧ digitsValue (fmtNat n) = n := by
  induction n using Nat.strong_induction_on with
  | _ n ih =>
    by_cases h : n < 10
    · rw [fmtNat_lt h]
      refine ⟨by simp, ?_, ?_⟩
      · intro x hx
        simp only [List.mem_singleton] at hx
        subst hx
        simp only [isDigit, Bool.and_eq_true, decide_eq_true_eq]
        omega
      · simp [digitsValue]
    · have h10 : 10 ≤ n := by omega
      obtain ⟨-, i2, i3⟩ := ih (n / 10) (by omega)
      rw [fmtNat_ge h10]
      refine ⟨by simp, ?_, ?_⟩
      · intro x hx
        rcases List.mem_append.1 hx with hx | hx
        · exact i2 x hx
        · simp only [List.mem_singleton] at hx
          subst hx
          simp only [isDigit, Bool.and_eq_true, decide_eq_true_eq]
          omega
      · rw [digitsValue_append_single, i3]
        omega

theorem validPart_fmtNat {n : Nat} (h : (n : Int) ≤ maxInt) : validPart (fmtNat n) = true := by
  obtain ⟨h1, h2, h3⟩ := fmtNat_spec n
  unfold validPart
  simp only [Bool.and_eq_true, Bool.not_eq_true', List.isEmpty_eq_false, ne_eq, List.all_eq_true,
    decide_eq_true_eq]
  refine ⟨⟨h1, h2⟩, ?_⟩
  rw [h3]
  exact h

theorem not_mem_fmtNat {n c : Nat} (hc : isDigit c = false) : c ∉ fmtNat n := by
  intro h
  have := (fmtNat_spec n).2.1 c h
  rw [hc] at this
  cases this

theorem fmtNat_head (n : Nat) : ∃ d rest, fmtNat n = d :: rest ∧ isDigit d = true := by
  obtain ⟨h1, h2, -⟩ := fmtNat_spec n
  obtain ⟨d, rest, hd⟩ := List.exists_cons_of_ne_nil h1
  exact ⟨d, rest, hd, h2 d (by rw [hd]; simp)⟩

/-! ## Formatting and parsing back -/

theorem fmtInt_natCast (n : Nat) : fmtInt (n : Int) = fmtNat n := rfl

theorem hasLeadingV_of_digit {d : Nat} (rest : GoString) (h : isDigit d = true) :
    hasLeadingV (d :: rest) = false := by
  simp only [isDigit, Bool.and_eq_true, decide_eq_true_eq] at h
  have h1 : d ≠ 118 := by omega
  have h2 : d ≠ 86 := by omega
  simp [hasLeadingV, h1, h2]

theorem versionCore_of_plain {s : GoString} (hv : hasLeadingV s = false) (h45 : 45 ∉ s)
    (h43 : 43 ∉ s) : versionCore s = s := by
  unfold versionCore
  rw [hv]
  simp only [Bool.false_eq_true, if_false]
  rw [cutAt_of_not_mem h45, cutAt_of_not_mem h43]

theorem versionCore_cons_v {x : Nat} (hx : x = 118 ∨ x = 86) (s : GoString) :
    versionCore (x :: s) = cutAt 43 (cutAt 45 s) := by
  have hv : hasLeadingV (x :: s) = true := by
    rcases hx with rfl | rfl <;> rfl
  unfold versionCore
  rw [hv]
  simp

theorem parseSemver_formatSemver (a b c : Nat) (v : Bool) (ha : (a : Int) ≤ maxInt)
    (hb : (b : Int) ≤ maxInt) (hc : (c : Int) ≤ maxInt) :
    parseSemver (formatSemver a b c v) = Except.ok ((a : Int), (b : Int), (c : Int), v) := by
  have n46 : ∀ n, 46 ∉ fmtNat n := fun n => not_mem_fmtNat (by decide)
  have n45 : ∀ n, 45 ∉ fmtNat n := fun n => not_mem_fmtNat (by decide)
  have n43 : ∀ n, 43 ∉ fmtNat n := fun n => not_mem_fmtNat (by decide)
  have hsplit : Split (fmtNat a ++ 46 :: (fmtNat b ++ 46 :: fmtNat c)) 46
      = [fmtNat a, fmtNat b, fmtNat c] := by
    rw [Split_append_sep (n46 a), Split_append_sep (n46 b), Split_of_not_mem (n46 c)]
  have h45 : 45 ∉ fmtNat a ++ 46 :: (fmtNat b ++ 46 :: fmtNat c) := by
    simp [n45]
  have h43 : 43 ∉ fmtNat a ++ 46 :: (fmtNat b ++ 46 :: fmtNat c) := by
    simp [n43]
  have hlead : hasLeadingV (fmtNat a ++ 46 :: (fmtNat b ++ 46 :: fmtNat c)) = false := by
    obtain ⟨d, rest, hd, hdig⟩ := fmtNat_head a
    rw [hd]
    exact hasLeadingV_of_digit _ hdig
  have hcore : versionCore (formatSemver a b c v)
      = fmtNat a ++ 46 :: (fmtNat b ++ 46 :: fmtNat c) := by
    cases v
    · simp only [formatSemver, fmtInt_natCast, Bool.false_eq_true, if_false]
      exact versionCore_of_plain hlead h45 h43
    · simp only [formatSemver, fmtInt_natCast, if_true]
      rw [versionCore_cons_v (Or.inl rfl), cutAt_of_not_mem h45, cutAt_of_not_mem h43]
  have hV : hasLeadingV (formatSemver a b c v) = v := by
    cases v
    · simp only [formatSemver, fmtInt_natCast, Bool.false_eq_true, if_false]
      exact hlead
    · rfl
  have hne : formatSemver a b c v ≠ [] := by
    cases v
    · simp only [formatSemver, fmtInt_natCast, Bool.false_eq_true, if_false]
      simp
    · simp [formatSemver]
  refine (parseSemver_ok_iff _ _).2 ⟨hne, fmtNat a, fmtNat b, fmtNat c, ?_, validPart_fmtNat ha,
    validPart_fmtNat hb, validPart_fmtNat hc, ?_⟩
  · rw [hcore, hsplit]
  · rw [(fmtNat_spec a).2.2, (fmtNat_spec b).2.2, (fmtNat_spec c).2.2, hV]

/-! ## The leading `v` -/

theorem core_head_digit {t p0 p1 p2 : GoString}
    (hsplit : Split (cutAt 43 (cutAt 45 t)) 46 = [p0, p1, p2]) (hv : validPart p0 = true) :
    ∃ c rest, t = c :: rest ∧ isDigit c = true := by
  cases t with
  | nil => simp [cutAt, Split] at hsplit
  | cons c rest =>
    refine ⟨c, rest, rfl, ?_⟩
    by_cases h45 : c = 45
    · simp [cutAt, h45, Split] at hsplit
    · by_cases h43 : c = 43
      · simp [cutAt, h43, Split] at hsplit
      · have hcut : cutAt 43 (cutAt 45 (c :: rest)) = c :: cutAt 43 (cutAt 45 rest) := by
          simp [cutAt, h45, h43]
        rw [hcut] at hsplit
        by_cases h46 : c = 46
        · simp only [Split, h46, if_true, List.cons.injEq] at hsplit
          rw [← hsplit.1] at hv
          simp [validPart] at hv
        · simp only [Split, h46, if_false] at hsplit
          split at hsplit
          · simp at hsplit
          · simp only [List.cons.injEq] at hsplit
            rw [← hsplit.1] at hv
            simp only [validPart, Bool.and_eq_true, List.all_cons] at hv
            exact hv.1.2.1

theorem parseSemver_add_v {s : GoString} {major minor patch : Int} {v : Bool} {x : Nat}
    (hx : x = 118 ∨ x = 86) (h : parseSemver s = Except.ok (major, minor, patch, v))
    (hlead : hasLeadingV s = false) :
    parseSemver (x :: s) = Except.ok (major, minor, patch, true) := by
  obtain ⟨-, p0, p1, p2, hsplit, hv0, hv1, hv2, hr⟩ := (parseSemver_ok_iff s _).1 h
  simp only [Prod.mk.injEq] at hr
  obtain ⟨rfl, rfl, rfl, -⟩ := hr
  have hcore : versionCore (x :: s) = versionCore s := by
    rw [versionCore_cons_v hx]
    unfold versionCore
    rw [hlead]
    simp
  have hV : hasLeadingV (x :: s) = true := by
    rcases hx with rfl | rfl <;> rfl
  refine (parseSemver_ok_iff _ _).2 ⟨by simp, p0, p1, p2, ?_, hv0, hv1, hv2, ?_⟩
  · rw [hcore, hsplit]
  · rw [hV]

theorem parseSemver_remove_v {s : GoString} {major minor patch : Int} {v : Bool} {x : Nat}
    (hx : x = 118 ∨ x = 86) (h : parseSemver (x :: s) = Except.ok (major, minor, patch, v)) :
    parseSemver s = Except.ok (major, minor, patch, false) := by
  obtain ⟨-, p0, p1, p2, hsplit, hv0, hv1, hv2, hr⟩ := (parseSemver_ok_iff _ _).1 h
  simp only [Prod.mk.injEq] at hr
  obtain ⟨rfl, rfl, rfl, -⟩ := hr
  rw [versionCore_cons_v hx] at hsplit
  obtain ⟨c, rest, rfl, hdig⟩ := core_head_digit hsplit hv0
  have hlead := hasLeadingV_of_digit rest hdig
  have hcore : versionCore (c :: rest) = cutAt 43 (cutAt 45 (c :: rest)) := by
    unfold versionCore
    rw [hlead]
    simp
  refine (parseSemver_ok_iff _ _).2 ⟨by simp, p0, p1, p2, ?_, hv0, hv1, hv2, ?_⟩
  · rw [hcore, hsplit]
  · rw [hlead]

theorem formatSemver_head (major minor patch : Int) (withV : Bool) (h : 0 ≤ major) :
    (withV = true → (formatSemver major minor patch withV).head? = some 118) ∧
    (withV = false → ∃ d, (formatSemver major minor patch withV).head? = some d ∧
      isDigit d = true) := by
  constructor
  · intro hv
    simp [formatSemver, hv]
  · intro hv
    obtain ⟨n, rfl⟩ := Int.eq_ofNat_of_zero_le h
    obtain ⟨d, rest, hd, hdig⟩ := fmtNat_head n
    refine ⟨d, ?_, hdig⟩
    simp [formatSemver, hv, fmtInt_natCast, hd]

theorem applyDelta_ok {prev lat : Parsed} {cM cm cp : Int} {hasV : Bool} {r : GoString}
    (h : applyDelta prev lat (cM, cm, cp, hasV) = Except.ok r) (hc : 0 ≤ cM) :
    ∃ x y z : Int, 0 ≤ x ∧ r = formatSemver x y z hasV := by
  obtain ⟨pM, pm, pp, pv⟩ := prev
  obtain ⟨lM, lm, lp, lv⟩ := lat
  simp only [applyDelta] at h
  split at h
  · split at h
    · cases h
    · rename_i hn
      exact ⟨_, 0, 0, by omega, (Except.ok.inj h).symm⟩
  · split at h
    · split at h
      · cases h
      · exact ⟨cM, _, 0, hc, (Except.ok.inj h).symm⟩
    · split at h
      · cases h
      · exact ⟨cM, cm, _, hc, (Except.ok.inj h).symm⟩

/-! ## `computeApplied` -/

theorem computeApplied_of_parsed {previous latest current : GoString} {prev lat curr : Parsed}
    (hp : parseSemver previous = Except.ok prev) (hl : parseSemver latest = Except.ok lat)
    (hc : parseSemver current = Except.ok curr) :
    computeApplied previous latest current = applyDelta prev lat curr := by
  unfold computeApplied
  rw [hp, hl, hc]

theorem computeApplied_ok_parsed {previous latest current r : GoString}
    (h : computeApplied previous latest current = Except.ok r) :
    ∃ prev lat curr, parseSemver previous = Except.ok prev ∧
      parseSemver latest = Except.ok lat ∧ parseSemver current = Except.ok curr ∧
      applyDelta prev lat curr = Except.ok r := by
  unfold computeApplied at h
  split at h
  · cases h
  · rename_i prev hp
    split at h
    · cases h
    · rename_i lat hl
      split at h
      · cases h
      · rename_i curr hc
        exact ⟨prev, lat, curr, hp, hl, hc, h⟩

theorem applyDelta_flags (a b c : Int) (v v2 : Bool) (d e f : Int) (w w2 : Bool)
    (curr : Parsed) :
    applyDelta (a, b, c, v) (d, e, f, w) curr = applyDelta (a, b, c, v2) (d, e, f, w2) curr :=
  rfl

/-- C1. Major branch of `computeApplied`: when the three inputs parse, the majors of
`latest` and `previous` differ and `current.major + (latest.major - previous.major)` is
non-negative and representable as an `int`, the call succeeds with
`formatSemver (current.major + (latest.major - previous.major)) 0 0 current.hasVPrefix`,
whatever the minor and patch fields are. -/
theorem computeApplied_major_branch (previous latest current : GoString)
    (pM pm pp lM lm lp cM cm cp : Int) (pv lv hasV : Bool)
    (hp : parseSemver previous = Except.ok (pM, pm, pp, pv))
    (hl : parseSemver latest = Except.ok (lM, lm, lp, lv))
    (hc : parseSemver current = Except.ok (cM, cm, cp, hasV))
    (hne : lM ≠ pM) (hlo : 0 ≤ cM + (lM - pM)) (hhi : cM + (lM - pM) ≤ maxInt) :
    computeApplied previous latest current =
      Except.ok (formatSemver (cM + (lM - pM)) 0 0 hasV) := by
  obtain ⟨⟨a1, a2⟩, -⟩ := parseSemver_range hp
  obtain ⟨⟨b1, b2⟩, -⟩ := parseSemver_range hl
  rw [computeApplied_of_parsed hp hl hc]
  have hd : wrapInt (lM - pM) = lM - pM :=
    wrapInt_of_range _ (by unfold minInt; unfold maxInt at *; omega) (by unfold maxInt at *; omega)
  have hn : wrapInt (cM + (lM - pM)) = cM + (lM - pM) :=
    wrapInt_of_range _ (by unfold minInt; omega) hhi
  have hnot : ¬ cM + (lM - pM) < 0 := by omega
  simp only [applyDelta, ne_eq, hne, not_false_eq_true, if_true, hd, hn, if_neg hnot]

/-- Witness of C1: `("1.2.3", "2.0.0", "5.9.9")` gives `"6.0.0"`. -/
theorem computeApplied_major_branch_witness :
    computeApplied (str "1.2.3") (str "2.0.0") (str "5.9.9") = Except.ok (str "6.0.0") :=
  computeApplied_major_branch (str "1.2.3") (str "2.0.0") (str "5.9.9")
    1 2 3 2 0 0 5 9 9 false false false rfl rfl rfl (by decide) (by decide) (by decide)

/-- C2. Minor branch of `computeApplied`: when the three inputs parse, the majors of
`latest` and `previous` agree, their minors differ and
`current.minor + (latest.minor - previous.minor)` is non-negative and representable as an
`int`, the call succeeds with
`formatSemver current.major (current.minor + (latest.minor - previous.minor)) 0
current.hasVPrefix`, whatever the patch fields are. -/
theorem computeApplied_minor_branch (previous latest current : GoString)
    (pM pm pp lM lm lp cM cm cp : Int) (pv lv hasV : Bool)
    (hp : parseSemver previous = Except.ok (pM, pm, pp, pv))
    (hl : parseSemver latest = Except.ok (lM, lm, lp, lv))
    (hc : parseSemver current = Except.ok (cM, cm, cp, hasV))
    (heq : lM = pM) (hne : lm ≠ pm) (hlo : 0 ≤ cm + (lm - pm))
    (hhi : cm + (lm - pm) ≤ maxInt) :
    computeApplied previous latest current =
      Except.ok (formatSemver cM (cm + (lm - pm)) 0 hasV) := by
  obtain ⟨-, ⟨a1, a2⟩, -⟩ := parseSemver_range hp
  obtain ⟨-, ⟨b1, b2⟩, -⟩ := parseSemver_range hl
  rw [computeApplied_of_parsed hp hl hc]
  have hd : wrapInt (lm - pm) = lm - pm :=
    wrapInt_of_range _ (by unfold minInt; unfold maxInt at *; omega) (by unfold maxInt at *; omega)
  have hn : wrapInt (cm + (lm - pm)) = cm + (lm - pm) :=
    wrapInt_of_range _ (by unfold minInt; omega) hhi
  have hnot : ¬ cm + (lm - pm) < 0 := by omega
  simp only [applyDelta, ne_eq, heq, not_true_eq_false, if_false, hne, not_false_eq_true,
    if_true, hd, hn, if_neg hnot]

/-- Witness of C2: `("1.2.3", "1.3.0", "5.9.9")` gives `"5.10.0"`. -/
theorem computeApplied_minor_branch_witness :
    computeApplied (str "1.2.3") (str "1.3.0") (str "5.9.9") = Except.ok (str "5.10.0") :=
  computeApplied_minor_branch (str "1.2.3") (str "1.3.0") (str "5.9.9")
    1 2 3 1 3 0 5 9 9 false false false rfl rfl rfl rfl (by decide) (by decide) (by decide)

/-- C3. Patch branch of `computeApplied`: when the three inputs parse, the majors and the
minors of `latest` and `previous` agree and
`current.patch + (latest.patch - previous.patch)` is non-negative and representable as an
`int`, the call succeeds with `formatSemver current.major current.minor
(current.patch + (latest.patch - previous.patch)) current.hasVPrefix`: no field of
`current` is reset to zero. -/
theorem computeApplied_patch_branch (previous latest current : GoString)
    (pM pm pp lM lm lp cM cm cp : Int) (pv lv hasV : Bool)
    (hp : parseSemver previous = Except.ok (pM, pm, pp, pv))
    (hl : parseSemver latest = Except.ok (lM, lm, lp, lv))
    (hc : parseSemver current = Except.ok (cM, cm, cp, hasV))
    (heqM : lM = pM) (heqm : lm = pm) (hlo : 0 ≤ cp + (lp - pp))
    (hhi : cp + (lp - pp) ≤ maxInt) :
    computeApplied previous latest current =
      Except.ok (formatSemver cM cm (cp + (lp - pp)) hasV) := by
  obtain ⟨-, -, ⟨a1, a2⟩, -⟩ := parseSemver_range hp
  obtain ⟨-, -, ⟨b1, b2⟩, -⟩ := parseSemver_range hl
  rw [computeApplied_of_parsed hp hl hc]
  have hd : wrapInt (lp - pp) = lp - pp :=
    wrapInt_of_range _ (by unfold minInt; unfold maxInt at *; omega) (by unfold maxInt at *; omega)
  have hn : wrapInt (cp + (lp - pp)) = cp + (lp - pp) :=
    wrapInt_of_range _ (by unfold minInt; omega) hhi
  have hnot : ¬ cp + (lp - pp) < 0 := by omega
  simp only [applyDelta, ne_eq, heqM, heqm, not_true_eq_false, if_false, hd, hn, if_neg hnot]

/-- Witness of C3: `("v1.2.3", "v1.2.5", "v1.2.10")` gives `"v1.2.12"`. -/
theorem computeApplied_patch_branch_witness :
    computeApplied (str "v1.2.3") (str "v1.2.5") (str "v1.2.10") = Except.ok (str "v1.2.12") :=
  computeApplied_patch_branch (str "v1.2.3") (str "v1.2.5") (str "v1.2.10")
    1 2 3 1 2 5 1 2 10 true true true rfl rfl rfl rfl rfl (by decide) (by decide)

/-- C4, as the code behaves: `computeApplied("1.2.3", "1.2.3", "5.9.9")` succeeds and
returns `"5.9.9"`, the patch of `current` being left unchanged by the zero delta. -/
theorem computeApplied_no_change_example :
    computeApplied (str "1.2.3") (str "1.2.3") (str "5.9.9") = Except.ok (str "5.9.9") := by
  rfl

/-- C4, as stated, fails: `computeApplied("1.2.3", "1.2.3", "5.9.9")` is not `"5.9.10"`. -/
theorem computeApplied_no_change_not_bumped :
    computeApplied (str "1.2.3") (str "1.2.3") (str "5.9.9") ≠ Except.ok (str "5.9.10") := by
  intro h
  rw [show computeApplied (str "1.2.3") (str "1.2.3") (str "5.9.9") = Except.ok (str "5.9.9")
    from rfl] at h
  exact absurd (Except.ok.inj h) (by decide)

/-- C5. A zero delta is a no-op and never an error: when `previous` and `latest` parse to
the same `(major, minor, patch)` triple and `current` parses to `(M, m, p, hasV)`,
`computeApplied` succeeds and returns `formatSemver M m p hasV`. -/
theorem computeApplied_zero_delta (previous latest current : GoString)
    (pM pm pp cM cm cp : Int) (pv lv hasV : Bool)
    (hp : parseSemver previous = Except.ok (pM, pm, pp, pv))
    (hl : parseSemver latest = Except.ok (pM, pm, pp, lv))
    (hc : parseSemver current = Except.ok (cM, cm, cp, hasV)) :
    computeApplied previous latest current = Except.ok (formatSemver cM cm cp hasV) := by
  obtain ⟨-, -, ⟨c1, c2⟩, -⟩ := parseSemver_range hc
  rw [computeApplied_of_parsed hp hl hc]
  have hd : wrapInt (pp - pp) = 0 := by
    rw [sub_self]
    rfl
  have hn : wrapInt (cp + 0) = cp := by
    rw [add_zero]
    exact wrapInt_of_range _ (by unfold minInt; omega) c2
  have hnot : ¬ cp < 0 := by omega
  simp only [applyDelta, ne_eq, not_true_eq_false, if_false, hd, hn, if_neg hnot]

/-- Witness of C5: `("v1.2.3", "1.2.3-rc1", "V5.9.9+build")` gives `"v5.9.9"`. -/
theorem computeApplied_zero_delta_witness :
    computeApplied (str "v1.2.3") (str "1.2.3-rc1") (str "V5.9.9+build")
      = Except.ok (str "v5.9.9") :=
  computeApplied_zero_delta (str "v1.2.3") (str "1.2.3-rc1") (str "V5.9.9+build")
    1 2 3 5 9 9 true false true rfl rfl rfl

/-- C6. Negative results are rejected: when the three inputs parse and the field that
carries the delta (major when the majors differ, else minor when the minors differ, else
patch) would become negative, `computeApplied` returns the matching "would be negative"
error and no version string. -/
theorem computeApplied_negative_rejected (previous latest current : GoString)
    (pM pm pp lM lm lp cM cm cp : Int) (pv lv hasV : Bool)
    (hp : parseSemver previous = Except.ok (pM, pm, pp, pv))
    (hl : parseSemver latest = Except.ok (lM, lm, lp, lv))
    (hc : parseSemver current = Except.ok (cM, cm, cp, hasV)) :
    (lM ≠ pM → cM + (lM - pM) < 0 →
        computeApplied previous latest current = Except.error SemverError.negativeMajor) ∧
    (lM = pM → lm ≠ pm → cm + (lm - pm) < 0 →
        computeApplied previous latest current = Except.error SemverError.negativeMinor) ∧
    (lM = pM → lm = pm → cp + (lp - pp) < 0 →
        computeApplied previous latest current = Except.error SemverError.negativePatch) := by
  obtain ⟨⟨a1, a2⟩, ⟨a3, a4⟩, ⟨a5, a6⟩, -⟩ := parseSemver_range hp
  obtain ⟨⟨b1, b2⟩, ⟨b3, b4⟩, ⟨b5, b6⟩, -⟩ := parseSemver_range hl
  obtain ⟨⟨c1, c2⟩, ⟨c3, c4⟩, ⟨c5, c6⟩, -⟩ := parseSemver_range hc
  rw [computeApplied_of_parsed hp hl hc]
  have wd : ∀ x y : Int, 0 ≤ x → x ≤ maxInt → 0 ≤ y → y ≤ maxInt → wrapInt (x - y) = x - y :=
    fun x y h1 h2 h3 h4 =>
      wrapInt_of_range _ (by unfold minInt; unfold maxInt at *; omega)
        (by unfold maxInt at *; omega)
  have wn : ∀ c x y : Int, 0 ≤ c → 0 ≤ x → y ≤ maxInt → c + (x - y) < 0 →
      wrapInt (c + (x - y)) = c + (x - y) :=
    fun c x y h1 h2 h3 h4 =>
      wrapInt_of_range _ (by unfold minInt; unfold maxInt at *; omega)
        (by unfold maxInt at *; omega)
  refine ⟨fun hne hneg => ?_, fun heq hne hneg => ?_, fun heqM heqm hneg => ?_⟩
  · simp only [applyDelta, ne_eq, hne, not_false_eq_true, if_true, wd lM pM b1 b2 a1 a2,
      wn cM lM pM c1 b1 a2 hneg, if_pos hneg]
  · simp only [applyDelta, ne_eq, heq, not_true_eq_false, if_false, hne, not_false_eq_true,
      if_true, wd lm pm b3 b4 a3 a4, wn cm lm pm c3 b3 a4 hneg, if_pos hneg]
  · simp only [applyDelta, ne_eq, heqM, heqm, not_true_eq_false, if_false,
      wd lp pp b5 b6 a5 a6, wn cp lp pp c5 b5 a6 hneg, if_pos hneg]

/-- Witness of C6: `("3.0.0", "1.0.0", "1.0.0")` fails with the negative-major error. -/
theorem computeApplied_negative_rejected_witness :
    computeApplied (str "3.0.0") (str "1.0.0") (str "1.0.0")
      = Except.error SemverError.negativeMajor :=
  (computeApplied_negative_rejected (str "3.0.0") (str "1.0.0") (str "1.0.0")
    3 0 0 1 0 0 1 0 0 false false false rfl rfl rfl).1 (by decide) (by decide)

/-- C7, as the code behaves: the output prefix depends on `current` alone. Whenever
`computeApplied` succeeds, the result starts with a lowercase `v` exactly when `current`
starts with `v` or `V`, and otherwise starts with a digit; and putting a `v`/`V` in front
of a `previous` or `latest` that has none, or taking the leading `v`/`V` off one that has
it, leaves the result unchanged. -/
theorem computeApplied_prefix_from_current (previous latest current r : GoString)
    (h : computeApplied previous latest current = Except.ok r) :
    (r.head? = some 118 ↔ hasLeadingV current = true) ∧
    (hasLeadingV current = false → ∃ d, r.head? = some d ∧ isDigit d = true) ∧
    (∀ x, x = 118 ∨ x = 86 →
      (hasLeadingV previous = false →
        computeApplied (x :: previous) latest current = Except.ok r) ∧
      (hasLeadingV latest = false →
        computeApplied previous (x :: latest) current = Except.ok r) ∧
      (∀ t, previous = x :: t → computeApplied t latest current = Except.ok r) ∧
      (∀ t, latest = x :: t → computeApplied previous t current = Except.ok r)) := by
  obtain ⟨⟨pM, pm, pp, pv⟩, ⟨lM, lm, lp, lv⟩, ⟨cM, cm, cp, hasV⟩, hp, hl, hc, hd⟩ :=
    computeApplied_ok_parsed h
  obtain ⟨⟨c1, -⟩, -, -, hV⟩ := parseSemver_range hc
  obtain ⟨x, y, z, hx0, rfl⟩ := applyDelta_ok hd c1
  obtain ⟨hhead1, hhead2⟩ := formatSemver_head x y z hasV hx0
  have hdigit : hasLeadingV current = false →
      ∃ d, (formatSemver x y z hasV).head? = some d ∧ isDigit d = true := by
    intro hcur
    exact hhead2 (hV.trans hcur)
  refine ⟨⟨fun hr => ?_, fun hcur => hhead1 (hV.trans hcur)⟩, hdigit, fun b hb => ⟨?_, ?_, ?_, ?_⟩⟩
  · cases hcur : hasLeadingV current
    · obtain ⟨d, hd1, hd2⟩ := hdigit hcur
      rw [hr] at hd1
      cases hd1
      revert hd2
      decide
    · rfl
  · intro hlead
    rw [computeApplied_of_parsed (parseSemver_add_v hb hp hlead) hl hc,
      applyDelta_flags pM pm pp true pv lM lm lp lv lv, hd]
  · intro hlead
    rw [computeApplied_of_parsed hp (parseSemver_add_v hb hl hlead) hc,
      applyDelta_flags pM pm pp pv pv lM lm lp true lv, hd]
  · intro t ht
    subst ht
    rw [computeApplied_of_parsed (parseSemver_remove_v hb hp) hl hc,
      applyDelta_flags pM pm pp false pv lM lm lp lv lv, hd]
  · intro t ht
    subst ht
    rw [computeApplied_of_parsed hp (parseSemver_remove_v hb hl) hc,
      applyDelta_flags pM pm pp pv pv lM lm lp false lv, hd]

/-- Witness of C7: `("1.2.3", "v1.3.0", "V5.9.9")` gives `"v5.10.0"`, which starts with
`v`, and so do `("v1.2.3", "v1.3.0", "V5.9.9")` and `("1.2.3", "1.3.0", "V5.9.9")`. -/
theorem computeApplied_prefix_from_current_witness :
    computeApplied (str "1.2.3") (str "v1.3.0") (str "V5.9.9") = Except.ok (str "v5.10.0") ∧
      computeApplied (118 :: str "1.2.3") (str "v1.3.0") (str "V5.9.9")
        = Except.ok (str "v5.10.0") ∧
      computeApplied (str "1.2.3") (str "1.3.0") (str "V5.9.9") = Except.ok (str "v5.10.0") :=
  ⟨rfl,
    ((computeApplied_prefix_from_current (str "1.2.3") (str "v1.3.0") (str "V5.9.9")
      (str "v5.10.0") rfl).2.2 118 (Or.inl rfl)).1 rfl,
    ((computeApplied_prefix_from_current (str "1.2.3") (str "v1.3.0") (str "V5.9.9")
      (str "v5.10.0") rfl).2.2 118 (Or.inl rfl)).2.2.2 (str "1.3.0") rfl⟩

/-- C7, as stated, fails: adding a leading `v` is not always harmless. `parseSemver`
strips one prefix byte only, so with `previous = "v1.2.3"` the call succeeds with
`"5.10.0"`, while with one more `v` in front, `"vv1.2.3"`, it fails on the major part
`"v1"`. -/
theorem doubled_v_rejected :
    (¬ ∀ (previous latest current r : GoString) (x : Nat), x = 118 ∨ x = 86 →
        computeApplied previous latest current = Except.ok r →
          computeApplied (x :: previous) latest current = Except.ok r) ∧
      computeApplied (str "v1.2.3") (str "1.3.0") (str "5.9.9") = Except.ok (str "5.10.0") ∧
      computeApplied (118 :: str "v1.2.3") (str "1.3.0") (str "5.9.9")
        = Except.error (SemverError.invalidMajor (str "v1")) := by
  refine ⟨fun h => ?_, rfl, rfl⟩
  have h2 := h (str "v1.2.3") (str "1.3.0") (str "5.9.9") (str "5.10.0") 118 (Or.inl rfl) rfl
  rw [show computeApplied (118 :: str "v1.2.3") (str "1.3.0") (str "5.9.9")
    = Except.error (SemverError.invalidMajor (str "v1")) from rfl] at h2
  cases h2

/-- C8. Round trip of format then parse: whenever `parseSemver s` succeeds with
`(major, minor, patch, hasVPrefix)`, parsing `formatSemver major minor patch hasVPrefix`
succeeds and returns the same four values. -/
theorem parseSemver_formatSemver_roundtrip (s : GoString) (major minor patch : Int)
    (hasVPrefix : Bool) (h : parseSemver s = Except.ok (major, minor, patch, hasVPrefix)) :
    parseSemver (formatSemver major minor patch hasVPrefix)
      = Except.ok (major, minor, patch, hasVPrefix) := by
  obtain ⟨-, p0, p1, p2, -, hv0, hv1, hv2, hr⟩ := (parseSemver_ok_iff s _).1 h
  simp only [Prod.mk.injEq] at hr
  obtain ⟨rfl, rfl, rfl, -⟩ := hr
  exact parseSemver_formatSemver _ _ _ _ (validPart_range hv0).2 (validPart_range hv1).2
    (validPart_range hv2).2

/-- Witness of C8: `"V1.20.300-rc.1+7"` parses to `(1, 20, 300, true)`, which formats to
`"v1.20.300"` and parses back to the same values. -/
theorem parseSemver_formatSemver_roundtrip_witness :
    parseSemver (str "V1.20.300-rc.1+7") = Except.ok (1, 20, 300, true) ∧
      formatSemver 1 20 300 true = str "v1.20.300" ∧
      parseSemver (formatSemver 1 20 300 true) = Except.ok (1, 20, 300, true) :=
  ⟨rfl, rfl, parseSemver_formatSemver_roundtrip (str "V1.20.300-rc.1+7") 1 20 300 true rfl⟩

/-- C9. Parsed fields are never negative: whenever `parseSemver s` succeeds, the returned
major, minor and patch are all `≥ 0`; no part handed to `strconv.Atoi` contains a `+` or a
`-`, although `Atoi` itself accepts a leading sign (`Atoi "-5" = -5`). -/
theorem parseSemver_fields_nonneg (s : GoString) (major minor patch : Int) (hasVPrefix : Bool)
    (h : parseSemver s = Except.ok (major, minor, patch, hasVPrefix)) :
    (0 ≤ major ∧ 0 ≤ minor ∧ 0 ≤ patch) ∧
      (∀ part ∈ Split (versionCore s) 46, 43 ∉ part ∧ 45 ∉ part) ∧
      Atoi (str "-5") = some (-5) := by
  obtain ⟨⟨a, -⟩, ⟨b, -⟩, ⟨c, -⟩, -⟩ := parseSemver_range h
  refine ⟨⟨a, b, c⟩, fun part hp => ?_, rfl⟩
  have hc := versionCore_no_sign s
  exact ⟨fun hx => hc.1 (mem_of_mem_Split hp hx), fun hx => hc.2 (mem_of_mem_Split hp hx)⟩

/-- Witness of C9: `"v0.10.7-2+3"` parses to `(0, 10, 7, true)`, all fields `≥ 0`. -/
theorem parseSemver_fields_nonneg_witness :
    parseSemver (str "v0.10.7-2+3") = Except.ok (0, 10, 7, true) ∧
      ((0 : Int) ≤ 0 ∧ (0 : Int) ≤ 10 ∧ (0 : Int) ≤ 7) :=
  ⟨rfl, (parseSemver_fields_nonneg (str "v0.10.7-2+3") 0 10 7 true rfl).1⟩

/-- C10. Exact acceptance condition of `parseSemver`: it succeeds if and only if the string
is non-empty and its core (without one leading `v`/`V`, cut at the first `-` and then at
the first `+`) splits on `.` into exactly three parts, each a non-empty run of ASCII
decimal digits whose value fits in an `int`. Otherwise it returns an error: "empty
version" for the empty string, "invalid semver" for a part count other than three, and
else the error naming the first of major, minor, patch that is not such a run. -/
theorem parseSemver_accepts_iff (s : GoString) :
    ((∃ r, parseSemver s = Except.ok r) ↔ accepted s = true) ∧
    (accepted s = false → ∃ e, parseSemver s = Except.error e) ∧
    (s = [] → parseSemver s = Except.error SemverError.emptyVersion) ∧
    (s ≠ [] → (Split (versionCore s) 46).length ≠ 3 →
      parseSemver s = Except.error (SemverError.invalidSemver (versionCore s))) ∧
    (∀ p0 p1 p2, s ≠ [] → Split (versionCore s) 46 = [p0, p1, p2] →
      (validPart p0 = false → parseSemver s = Except.error (SemverError.invalidMajor p0)) ∧
      (validPart p0 = true → validPart p1 = false →
        parseSemver s = Except.error (SemverError.invalidMinor p1)) ∧
      (validPart p0 = true → validPart p1 = true → validPart p2 = false →
        parseSemver s = Except.error (SemverError.invalidPatch p2))) := by
  have hiff : (∃ r, parseSemver s = Except.ok r) ↔ accepted s = true := by
    constructor
    · rintro ⟨r, hr⟩
      obtain ⟨hs, p0, p1, p2, hsplit, hv0, hv1, hv2, -⟩ := (parseSemver_ok_iff s r).1 hr
      have he : s.isEmpty = false := by simpa using hs
      simp [accepted, he, hsplit, hv0, hv1, hv2]
    · intro h
      unfold accepted at h
      simp only [Bool.and_eq_true, Bool.not_eq_true', List.isEmpty_eq_false] at h
      obtain ⟨hs, hm⟩ := h
      split at hm
      · rename_i p0 p1 p2 hsplit
        simp only [Bool.and_eq_true] at hm
        exact ⟨_, (parseSemver_ok_iff s _).2 ⟨hs, p0, p1, p2, hsplit, hm.1.1, hm.1.2, hm.2, rfl⟩⟩
      · cases hm
  refine ⟨hiff, ?_, ?_, ?_, ?_⟩
  · intro hacc
    cases hres : parseSemver s with
    | error e => exact ⟨e, rfl⟩
    | ok r =>
      have := hiff.1 ⟨r, hres⟩
      rw [hacc] at this
      cases this
  · intro hs
    rw [parseSemver_eq, if_pos hs]
  · intro hs hlen
    rw [parseSemver_eq, if_neg hs]
    split
    · rename_i p0 p1 p2 hsplit
      rw [hsplit] at hlen
      simp at hlen
    · rfl
  · intro p0 p1 p2 hs hsplit
    obtain ⟨h0, h1, h2⟩ := parts_no_sign hsplit
    rw [parseSemver_eq, if_neg hs, hsplit]
    simp only
    rw [parseParts_eq h0 h1 h2]
    refine ⟨fun a => ?_, fun a b => ?_, fun a b c => ?_⟩
    · simp [a]
    · simp [a, b]
    · simp [a, b, c]

/-- Witness of C10: `"v1.2.3-rc+1"` meets the acceptance condition and parses, while
`"1.2"`, `"1.x.3"` and `"1.2.9223372036854775808"` do not meet it and are refused. -/
theorem parseSemver_accepts_iff_witness :
    (accepted (str "v1.2.3-rc+1") = true ∧ ∃ r, parseSemver (str "v1.2.3-rc+1") = Except.ok r) ∧
      (accepted (str "1.2") = false ∧ ∃ e, parseSemver (str "1.2") = Except.error e) ∧
      (accepted (str "1.x.3") = false ∧
        parseSemver (str "1.x.3") = Except.error (SemverError.invalidMinor (str "x"))) ∧
      (accepted (str "1.2.9223372036854775808") = false ∧
        ∃ e, parseSemver (str "1.2.9223372036854775808") = Except.error e) :=
  ⟨⟨rfl, (parseSemver_accepts_iff (str "v1.2.3-rc+1")).1.2 rfl⟩,
    ⟨rfl, (parseSemver_accepts_iff (str "1.2")).2.1 rfl⟩,
    ⟨rfl, ((parseSemver_accepts_iff (str "1.x.3")).2.2.2.2 (str "1") (str "x") (str "3")
      (by decide) rfl).2.1 rfl rfl⟩,
    ⟨rfl, (parseSemver_accepts_iff (str "1.2.9223372036854775808")).2.1 rfl⟩⟩

/-! ## Suffixes -/

theorem cutAt_append (c : Nat) (a b : GoString) :
    cutAt c (a ++ b) = if c ∈ a then cutAt c a else a ++ cutAt c b := by
  induction a with
  | nil => simp [cutAt]
  | cons x xs ih =>
    unfold cutAt at ih ⊢
    by_cases hx : x = c
    · simp [hx]
    · have hx2 : ¬ c = x := fun e => hx e.symm
      by_cases hc : c ∈ xs
      · rw [if_pos hc] at ih
        simp [hx, hx2, hc, ih]
      · rw [if_neg hc] at ih
        simp [hx, hx2, hc, ih]

theorem cutAt_append_sep (c : Nat) (a x : GoString) : cutAt c (a ++ c :: x) = cutAt c a := by
  rw [cutAt_append]
  by_cases hc : c ∈ a
  · rw [if_pos hc]
  · rw [if_neg hc, cutAt_of_not_mem hc]
    simp [cutAt]

theorem cutAt_comm (s : GoString) : cutAt 45 (cutAt 43 s) = cutAt 43 (cutAt 45 s) := by
  induction s with
  | nil => simp [cutAt]
  | cons x xs ih =>
    unfold cutAt at ih ⊢
    by_cases h1 : x = 43
    · simp [h1]
    · by_cases h2 : x = 45
      · simp [h2]
      · simp [h1, h2, ih]

theorem core_suffix (t x : GoString) :
    cutAt 43 (cutAt 45 (t ++ 45 :: x)) = cutAt 43 (cutAt 45 t) ∧
      cutAt 43 (cutAt 45 (t ++ 43 :: x)) = cutAt 43 (cutAt 45 t) := by
  constructor
  · rw [cutAt_append_sep]
  · rw [← cutAt_comm, ← cutAt_comm, cutAt_append_sep]

theorem versionCore_suffix {s : GoString} (hs : s ≠ []) (x : GoString) :
    (versionCore (s ++ 45 :: x) = versionCore s ∧ hasLeadingV (s ++ 45 :: x) = hasLeadingV s) ∧
      (versionCore (s ++ 43 :: x) = versionCore s ∧
        hasLeadingV (s ++ 43 :: x) = hasLeadingV s) := by
  obtain ⟨c, rest, rfl⟩ := List.exists_cons_of_ne_nil hs
  have hV : ∀ y : GoString, hasLeadingV (c :: rest ++ y) = hasLeadingV (c :: rest) := fun y => rfl
  have key : ∀ y : GoString,
      (if hasLeadingV (c :: rest ++ y) = true then (c :: rest ++ y).tail else c :: rest ++ y)
        = (if hasLeadingV (c :: rest) = true then (c :: rest).tail else c :: rest) ++ y := by
    intro y
    rw [hV y]
    cases hasLeadingV (c :: rest) <;> simp
  unfold versionCore
  rw [key, key]
  exact ⟨⟨(core_suffix _ x).1, hV _⟩, ⟨(core_suffix _ x).2, hV _⟩⟩

theorem parseSemver_suffix {s : GoString} (hs : s ≠ []) (x : GoString) :
    parseSemver (s ++ 45 :: x) = parseSemver s ∧ parseSemver (s ++ 43 :: x) = parseSemver s := by
  obtain ⟨⟨h1, h2⟩, ⟨h3, h4⟩⟩ := versionCore_suffix hs x
  have n1 : s ++ 45 :: x ≠ [] := by simp
  have n2 : s ++ 43 :: x ≠ [] := by simp
  constructor
  · rw [parseSemver_eq (s ++ 45 :: x), parseSemver_eq s, if_neg n1, if_neg hs, h1, h2]
  · rw [parseSemver_eq (s ++ 43 :: x), parseSemver_eq s, if_neg n2, if_neg hs, h3, h4]

theorem parseSemver_ne_nil {s : GoString} {r : Parsed} (h : parseSemver s = Except.ok r) :
    s ≠ [] :=
  ((parseSemver_ok_iff s r).1 h).1

theorem str_minus : str "-" = [45] := rfl

theorem str_plus : str "+" = [43] := rfl

theorem computeApplied_congr {p p2 l l2 c c2 : GoString} (hp : parseSemver p2 = parseSemver p)
    (hl : parseSemver l2 = parseSemver l) (hc : parseSemver c2 = parseSemver c) :
    computeApplied p2 l2 c2 = computeApplied p l c := by
  unfold computeApplied
  rw [hp, hl, hc]

/-- C11. Pre-release and build-metadata suffixes are discarded: when `parseSemver s`
succeeds, `parseSemver (s ++ "-" ++ x)` and `parseSemver (s ++ "+" ++ x)` succeed with the
same `(major, minor, patch, hasVPrefix)` for every string `x`; hence the result of
`computeApplied` is unchanged by appending such a suffix to any of its three inputs. -/
theorem parseSemver_suffix_discarded (s x : GoString) (r : Parsed)
    (h : parseSemver s = Except.ok r) :
    parseSemver (s ++ str "-" ++ x) = Except.ok r ∧
    parseSemver (s ++ str "+" ++ x) = Except.ok r ∧
    (∀ a b : GoString,
      computeApplied (s ++ str "-" ++ x) a b = computeApplied s a b ∧
      computeApplied (s ++ str "+" ++ x) a b = computeApplied s a b ∧
      computeApplied a (s ++ str "-" ++ x) b = computeApplied a s b ∧
      computeApplied a (s ++ str "+" ++ x) b = computeApplied a s b ∧
      computeApplied a b (s ++ str "-" ++ x) = computeApplied a b s ∧
      computeApplied a b (s ++ str "+" ++ x) = computeApplied a b s) := by
  obtain ⟨h1, h2⟩ := parseSemver_suffix (parseSemver_ne_nil h) x
  have e1 : s ++ str "-" ++ x = s ++ 45 :: x := by simp [str_minus]
  have e2 : s ++ str "+" ++ x = s ++ 43 :: x := by simp [str_plus]
  rw [e1, e2]
  refine ⟨h1.trans h, h2.trans h, fun a b => ⟨?_, ?_, ?_, ?_, ?_, ?_⟩⟩
  · exact computeApplied_congr h1 rfl rfl
  · exact computeApplied_congr h2 rfl rfl
  · exact computeApplied_congr rfl h1 rfl
  · exact computeApplied_congr rfl h2 rfl
  · exact computeApplied_congr rfl rfl h1
  · exact computeApplied_congr rfl rfl h2

/-- Witness of C11: `"v1.2.3"` parses to `(1, 2, 3, true)`, and so do `"v1.2.3-rc.1"` and
`"v1.2.3+build-7"`. -/
theorem parseSemver_suffix_discarded_witness :
    parseSemver (str "v1.2.3") = Except.ok (1, 2, 3, true) ∧
      parseSemver (str "v1.2.3" ++ str "-" ++ str "rc.1") = Except.ok (1, 2, 3, true) ∧
      parseSemver (str "v1.2.3" ++ str "+" ++ str "build-7") = Except.ok (1, 2, 3, true) :=
  ⟨rfl, (parseSemver_suffix_discarded (str "v1.2.3") (str "rc.1") (1, 2, 3, true) rfl).1,
    (parseSemver_suffix_discarded (str "v1.2.3") (str "build-7") (1, 2, 3, true) rfl).2.1⟩

/-! ## The order of the two stripping passes -/

theorem versionCorePlusFirst_eq (s : GoString) : versionCorePlusFirst s = versionCore s := by
  unfold versionCorePlusFirst versionCore
  exact cutAt_comm _

theorem parseSemverPlusFirst_eq (s : GoString) : parseSemverPlusFirst s = parseSemver s := by
  by_cases hs : s = []
  · simp [parseSemver, parseSemverPlusFirst, hs]
  · have hcore : ∀ v : GoString,
        (if IndexByte (if IndexByte v 43 ≥ 0 then v.take (IndexByte v 43).toNat else v) 45 ≥ 0
          then (if IndexByte v 43 ≥ 0 then v.take (IndexByte v 43).toNat else v).take
            (IndexByte (if IndexByte v 43 ≥ 0 then v.take (IndexByte v 43).toNat else v) 45).toNat
          else (if IndexByte v 43 ≥ 0 then v.take (IndexByte v 43).toNat else v))
          = (if IndexByte (if IndexByte v 45 ≥ 0 then v.take (IndexByte v 45).toNat else v) 43 ≥ 0
          then (if IndexByte v 45 ≥ 0 then v.take (IndexByte v 45).toNat else v).take
            (IndexByte (if IndexByte v 45 ≥ 0 then v.take (IndexByte v 45).toNat else v) 43).toNat
          else (if IndexByte v 45 ≥ 0 then v.take (IndexByte v 45).toNat else v)) := by
      intro v
      rw [(take_IndexByte v 43).1, (take_IndexByte (cutAt 43 v) 45).1, (take_IndexByte v 45).1,
        (take_IndexByte (cutAt 45 v) 43).1]
      exact cutAt_comm v
    unfold parseSemverPlusFirst parseSemver
    rw [if_neg hs, if_neg hs]
    simp only [hcore]

/-- C12, as the code behaves: the order of the two suffix-stripping passes never affects
the result. For every string, cutting at the first `-` and then at the first `+` gives the
same core as cutting at the first `+` and then at the first `-` (both keep what stands
before the first `-` or `+`), so `parseSemver` and its variant with the passes exchanged
return the same result. -/
theorem stripping_order_irrelevant (s : GoString) :
    cutAt 43 (cutAt 45 s) = cutAt 45 (cutAt 43 s) ∧
      versionCore s = versionCorePlusFirst s ∧
      parseSemver s = parseSemverPlusFirst s ∧
      cutAt 43 (cutAt 45 s) = s.takeWhile (fun b => b != 45 && b != 43) :=
  ⟨(cutAt_comm s).symm, (versionCorePlusFirst_eq s).symm, (parseSemverPlusFirst_eq s).symm, by
    induction s with
    | nil => simp [cutAt]
    | cons b bs ih =>
      unfold cutAt at ih ⊢
      by_cases h1 : b = 45
      · simp [h1]
      · by_cases h2 : b = 43
        · simp [h2]
        · simp [h1, h2, ih]⟩

/-- C12, as stated, fails: there is no version string for which the two orders of the
stripping passes give different cores or different `parseSemver` results; in particular
`"1.2.3+a-b"`, where `+` precedes `-`, has the core `"1.2.3"` in both orders. -/
theorem no_order_sensitive_version :
    (¬ ∃ s : GoString,
        versionCore s ≠ versionCorePlusFirst s ∨ parseSemver s ≠ parseSemverPlusFirst s) ∧
      versionCore (str "1.2.3+a-b") = str "1.2.3" ∧
      versionCorePlusFirst (str "1.2.3+a-b") = str "1.2.3" := by
  refine ⟨?_, rfl, rfl⟩
  rintro ⟨s, h | h⟩
  · exact h (versionCorePlusFirst_eq s).symm
  · exact h (parseSemverPlusFirst_eq s).symm

/-! ## Overflow -/

theorem wrapInt_sub_fields {x y : Int} (hx : 0 ≤ x ∧ x ≤ maxInt) (hy : 0 ≤ y ∧ y ≤ maxInt) :
    wrapInt (x - y) = x - y :=
  wrapInt_of_range _ (by unfold minInt; unfold maxInt at *; omega) (by unfold maxInt at *; omega)

theorem wrapInt_add_delta {c x y : Int} (hc : 0 ≤ c ∧ c ≤ maxInt) (hx : 0 ≤ x ∧ x ≤ maxInt)
    (hy : 0 ≤ y ∧ y ≤ maxInt) :
    (c + (x - y) ≤ maxInt → wrapInt (c + (x - y)) = c + (x - y)) ∧
      (maxInt < c + (x - y) → wrapInt (c + (x - y)) < 0) := by
  unfold wrapInt
  unfold maxInt at *
  constructor
  · intro h
    omega
  · intro h
    omega

/-- C20. Integer overflow never yields a wrong version: with the sums computed in 64-bit
wrapping arithmetic, whenever `computeApplied` succeeds on three accepted inputs the field
it prints is the exact integer `current.field + (latest.field - previous.field)`; and when
that exact sum exceeds the largest `int`, the wrapped value is negative and
`computeApplied` returns the "would be negative" error of the branch. -/
theorem computeApplied_overflow_safe (previous latest current : GoString)
    (pM pm pp lM lm lp cM cm cp : Int) (pv lv hasV : Bool)
    (hp : parseSemver previous = Except.ok (pM, pm, pp, pv))
    (hl : parseSemver latest = Except.ok (lM, lm, lp, lv))
    (hc : parseSemver current = Except.ok (cM, cm, cp, hasV)) :
    (∀ r, computeApplied previous latest current = Except.ok r →
      (lM ≠ pM ∧ r = formatSemver (cM + (lM - pM)) 0 0 hasV) ∨
      (lM = pM ∧ lm ≠ pm ∧ r = formatSemver cM (cm + (lm - pm)) 0 hasV) ∨
      (lM = pM ∧ lm = pm ∧ r = formatSemver cM cm (cp + (lp - pp)) hasV)) ∧
    (lM ≠ pM → maxInt < cM + (lM - pM) →
      wrapInt (cM + wrapInt (lM - pM)) < 0 ∧
        computeApplied previous latest current = Except.error SemverError.negativeMajor) ∧
    (lM = pM → lm ≠ pm → maxInt < cm + (lm - pm) →
      wrapInt (cm + wrapInt (lm - pm)) < 0 ∧
        computeApplied previous latest current = Except.error SemverError.negativeMinor) ∧
    (lM = pM → lm = pm → maxInt < cp + (lp - pp) →
      wrapInt (cp + wrapInt (lp - pp)) < 0 ∧
        computeApplied previous latest current = Except.error SemverError.negativePatch) := by
  obtain ⟨a1, a2, a3, -⟩ := parseSemver_range hp
  obtain ⟨b1, b2, b3, -⟩ := parseSemver_range hl
  obtain ⟨c1, c2, c3, -⟩ := parseSemver_range hc
  rw [computeApplied_of_parsed hp hl hc]
  have dM := wrapInt_sub_fields b1 a1
  have dm := wrapInt_sub_fields b2 a2
  have dp := wrapInt_sub_fields b3 a3
  obtain ⟨eM, oM⟩ := wrapInt_add_delta c1 b1 a1
  obtain ⟨em, om⟩ := wrapInt_add_delta c2 b2 a2
  obtain ⟨ep, op⟩ := wrapInt_add_delta c3 b3 a3
  refine ⟨fun r hr => ?_, fun hne hbig => ?_, fun heq hne hbig => ?_, fun heqM heqm hbig => ?_⟩
  · by_cases hM : lM = pM
    · by_cases hm : lm = pm
      · refine Or.inr (Or.inr ⟨hM, hm, ?_⟩)
        simp only [applyDelta, ne_eq, hM, hm, not_true_eq_false, if_false, dp] at hr
        by_cases hbig : maxInt < cp + (lp - pp)
        · rw [if_pos (op hbig)] at hr
          cases hr
        · rw [ep (by omega)] at hr
          split at hr
          · cases hr
          · exact (Except.ok.inj hr).symm
      · refine Or.inr (Or.inl ⟨hM, hm, ?_⟩)
        simp only [applyDelta, ne_eq, hM, hm, not_true_eq_false, if_false, not_false_eq_true,
          if_true, dm] at hr
        by_cases hbig : maxInt < cm + (lm - pm)
        · rw [if_pos (om hbig)] at hr
          cases hr
        · rw [em (by omega)] at hr
          split at hr
          · cases hr
          · exact (Except.ok.inj hr).symm
    · refine Or.inl ⟨hM, ?_⟩
      simp only [applyDelta, ne_eq, hM, not_false_eq_true, if_true, dM] at hr
      by_cases hbig : maxInt < cM + (lM - pM)
      · rw [if_pos (oM hbig)] at hr
        cases hr
      · rw [eM (by omega)] at hr
        split at hr
        · cases hr
        · exact (Except.ok.inj hr).symm
  · rw [dM]
    refine ⟨oM hbig, ?_⟩
    simp only [applyDelta, ne_eq, hne, not_false_eq_true, if_true, dM, if_pos (oM hbig)]
  · rw [dm]
    refine ⟨om hbig, ?_⟩
    simp only [applyDelta, ne_eq, heq, not_true_eq_false, if_false, hne, not_false_eq_true,
      if_true, dm, if_pos (om hbig)]
  · rw [dp]
    refine ⟨op hbig, ?_⟩
    simp only [applyDelta, ne_eq, heqM, heqm, not_true_eq_false, if_false, dp, if_pos (op hbig)]

/-- Witness of C20: `("0.0.0", "1.0.0", "9223372036854775807.0.0")` has the exact major
`2^63`, above the largest `int`; the wrapped sum is negative and the call fails. -/
theorem computeApplied_overflow_safe_witness :
    wrapInt (9223372036854775807 + wrapInt (1 - 0)) < 0 ∧
      computeApplied (str "0.0.0") (str "1.0.0") (str "9223372036854775807.0.0")
        = Except.error SemverError.negativeMajor :=
  (computeApplied_overflow_safe (str "0.0.0") (str "1.0.0") (str "9223372036854775807.0.0")
    0 0 0 1 0 0 9223372036854775807 0 0 false false false rfl rfl rfl).2.1
    (by decide) (by decide)

end GetForthSemver

namespace DecodeJwt

open GetForthSemver (GoString str Split fmtNat)

/-! ## The token decoder: unfolding `main` -/

theorem Split_length (s : GoString) (sep : Nat) : (Split s sep).length = s.count sep + 1 := by
  induction s with
  | nil => simp [Split]
  | cons x xs ih =>
    unfold Split
    by_cases hx : x = sep
    · simp [hx, ih]
    · have hx2 : ¬ (x == sep) = true := by simpa using hx
      rw [if_neg hx, List.count_cons, if_neg hx2, add_zero, ← ih]
      split
      · rename_i h
        exact absurd h (GetForthSemver.Split_ne_nil xs sep)
      · rename_i p ps h
        rw [h]
        simp

theorem token_ne_nil {token p0 p1 p2 : GoString} (h : Split token 46 = [p0, p1, p2]) :
    token ≠ [] := by
  intro e
  rw [e] at h
  simp [Split] at h

theorem main_three (float : Float64Text) {text p0 p1 p2 : GoString}
    (h : Split (TrimSpace text) 46 = [p0, p1, p2]) :
    main float (some text) =
      match DecodeString p0 with
      | none => fail Diag.decodingHeader
      | some headerBytes =>
        match DecodeString p1 with
        | none => fail Diag.decodingPayload
        | some payloadBytes =>
          match Unmarshal float headerBytes with
          | none => fail Diag.parsingHeader
          | some _ =>
            match Unmarshal float payloadBytes with
            | none => fail Diag.parsingPayload
            | some payload =>
              match MarshalIndent payload [] (str "  ") with
              | none => fail Diag.formattingPayload
              | some payloadJSON => ⟨payloadJSON ++ [10], [], false⟩ := by
  unfold main
  simp only [if_neg (token_ne_nil h), h]
  rfl

theorem main_not_three (float : Float64Text) {text : GoString} (hne : TrimSpace text ≠ [])
    (h : (Split (TrimSpace text) 46).length ≠ 3) :
    main float (some text) = fail (Diag.invalidFormat (Split (TrimSpace text) 46).length) := by
  unfold main
  simp only [if_neg hne, if_pos h]

theorem main_empty (float : Float64Text) {text : GoString} (h : TrimSpace text = []) :
    main float (some text) = ⟨[], [], false⟩ := by
  unfold main
  simp only [if_pos h]

theorem three_of_length {parts : List GoString} (h : parts.length = 3) :
    ∃ p0 p1 p2, parts = [p0, p1, p2] := by
  match parts, h with
  | [p0, p1, p2], _ => exact ⟨p0, p1, p2, rfl⟩

theorem MarshalIndent_eq (m : GoMap) (pre indent : GoString) :
    ∃ json, MarshalIndent m pre indent = some json := by
  cases m with
  | none => exact ⟨_, rfl⟩
  | some fields => exact ⟨_, rfl⟩

theorem Unmarshal_eq_none_iff (float : Float64Text) (data : GoString) :
    Unmarshal float data = none ↔
      (¬ ∃ fields, decodeValue float data = some (JsonValue.object fields)) ∧
        decodeValue float data ≠ some JsonValue.null := by
  unfold Unmarshal
  cases h : decodeValue float data with
  | none => simp
  | some v => cases v <;> simp

theorem main_decoded (float : Float64Text) {text p0 p1 p2 headerBytes payloadBytes : GoString}
    (hs : Split (TrimSpace text) 46 = [p0, p1, p2])
    (h0 : DecodeString p0 = some headerBytes) (h1 : DecodeString p1 = some payloadBytes) :
    main float (some text) =
      match Unmarshal float headerBytes with
      | none => fail Diag.parsingHeader
      | some _ =>
        match Unmarshal float payloadBytes with
        | none => fail Diag.parsingPayload
        | some payload =>
          match MarshalIndent payload [] (str "  ") with
          | none => fail Diag.formattingPayload
          | some payloadJSON => ⟨payloadJSON ++ [10], [], false⟩ := by
  rw [main_three float hs, h0, h1]

/-! ## Scanning a string literal -/

theorem run_append (float : Float64Text) (d : Decoder) (a b : GoString) :
    run float d (a ++ b) = (run float d a).bind (fun d2 => run float d2 b) := by
  induction a generalizing d with
  | nil => simp [run]
  | cons c cs ih =>
    simp only [List.cons_append, run]
    cases step float d c with
    | none => simp
    | some d2 => simp [ih]

theorem hexValue_hexDigit {n : Nat} (h : n < 16) : hexValue (hexDigit n) = some n := by
  interval_cases n <;> rfl

theorem step_stringHex (float : Float64Text) (isKey : Bool) (raw : GoString)
    (stack : List Frame) (top : Option JsonValue) (left c v : Nat) (h : hexValue c = some v) :
    step float ⟨Mode.stringHex isKey raw (left + 2), stack, top⟩ c
      = some ⟨Mode.stringHex isKey (c :: raw) (left + 1), stack, none⟩ := by
  simp [step, h]

theorem step_stringHex_last (float : Float64Text) (isKey : Bool) (raw : GoString)
    (stack : List Frame) (top : Option JsonValue) (c v : Nat) (h : hexValue c = some v) :
    step float ⟨Mode.stringHex isKey raw 1, stack, top⟩ c
      = some ⟨Mode.string isKey (c :: raw), stack, none⟩ := by
  simp [step, h]

/-- The scanner passes over a six-byte escape `\uXXXX` inside a string literal. -/
theorem run_escape_u (float : Float64Text) (isKey : Bool) (raw : GoString)
    (stack : List Frame) (a b c d : Nat) (va vb vc vd : Nat) (ha : hexValue a = some va)
    (hb : hexValue b = some vb) (hc : hexValue c = some vc) (hd : hexValue d = some vd) :
    run float ⟨Mode.string isKey raw, stack, none⟩ [92, 117, a, b, c, d]
      = some ⟨Mode.string isKey (d :: c :: b :: a :: 117 :: 92 :: raw), stack, none⟩ := by
  have s1 : step float ⟨Mode.string isKey raw, stack, none⟩ 92
      = some ⟨Mode.stringEsc isKey (92 :: raw), stack, none⟩ := by simp [step]
  have s2 : step float ⟨Mode.stringEsc isKey (92 :: raw), stack, none⟩ 117
      = some ⟨Mode.stringHex isKey (117 :: 92 :: raw) 4, stack, none⟩ := by simp [step]
  rw [run, s1]
  simp only []
  rw [run, s2]
  simp only []
  rw [run, step_stringHex float isKey _ stack none 2 a va ha]
  simp only []
  rw [run, step_stringHex float isKey _ stack none 1 b vb hb]
  simp only []
  rw [run, step_stringHex float isKey _ stack none 0 c vc hc]
  simp only []
  rw [run, step_stringHex_last float isKey _ stack none d vd hd]
  simp only []
  rfl

/-- The scanner, inside a string literal, passes over what the encoder writes for one
byte. -/
theorem run_quoteByte (float : Float64Text) (isKey : Bool) (raw : GoString)
    (stack : List Frame) (b : Nat) :
    run float ⟨Mode.string isKey raw, stack, none⟩ (quoteByte b)
      = some ⟨Mode.string isKey ((quoteByte b).reverse ++ raw), stack, none⟩ := by
  unfold quoteByte
  split
  · simp [run, step]
  split
  · simp [run, step]
  split
  · simp [run, step]
  split
  · simp [run, step]
  split
  · simp [run, step]
  split
  · simp [run, step]
  split
  · simp [run, step]
  split
  · rename_i h1 h2 h3 h4 h5 h6 h7 h8
    have hb : b < 64 := by omega
    rw [run_escape_u float isKey raw stack 48 48 _ _ 0 0 _ _ rfl rfl
      (hexValue_hexDigit (by omega : b / 16 < 16)) (hexValue_hexDigit (by omega : b % 16 < 16))]
    simp
  · rename_i h1 h2 h3 h4 h5 h6 h7 h8
    have h9 : ¬ b < 32 := by omega
    simp [run, step, h1, h2, h9]

/-- The scanner, inside a string literal, passes over the body the encoder writes for a
string. -/
theorem run_quoteAux (float : Float64Text) (isKey : Bool) (stack : List Frame)
    (s : GoString) (skip : Nat) (raw : GoString) :
    run float ⟨Mode.string isKey raw, stack, none⟩ (quoteAux skip s)
      = some ⟨Mode.string isKey ((quoteAux skip s).reverse ++ raw), stack, none⟩ := by
  induction s generalizing skip raw with
  | nil => cases skip <;> simp [quoteAux, run]
  | cons b rest ih =>
    cases skip with
    | succ k =>
      simp only [quoteAux]
      exact ih k raw
    | zero =>
      simp only [quoteAux]
      split
      · rw [run_append, show str "\\u2028" = [92, 117, 50, 48, 50, 56] from rfl,
          run_escape_u float isKey raw stack 50 48 50 56 2 0 2 8 rfl rfl rfl rfl]
        simp [ih]
      · split
        · rw [run_append, show str "\\u2029" = [92, 117, 50, 48, 50, 57] from rfl,
            run_escape_u float isKey raw stack 50 48 50 57 2 0 2 9 rfl rfl rfl rfl]
          simp [ih]
        · rw [run_append, run_quoteByte]
          simp [ih]

/-- The scanner reads the string literal the encoder writes for `s` and ends the string
with the body it wrote. -/
theorem run_quote (float : Float64Text) (isKey : Bool) (stack : List Frame) (s rest : GoString) :
    run float ⟨Mode.string isKey [], stack, none⟩ (quoteAux 0 s ++ 34 :: rest)
      = (endString isKey (quoteAux 0 s).reverse stack).bind (fun d => run float d rest) := by
  rw [run_append, run_quoteAux]
  simp [run, step]
  cases endString isKey (quoteAux 0 s).reverse stack <;> simp

/-! ## Strings: writing and reading back -/

/-- The shapes of a valid UTF-8 sequence at the head of a string. -/
theorem utf8Len_cases (b : Nat) (rest : GoString) :
    utf8Len (b :: rest) = 0 ∨
    (b < 128 ∧ utf8Len (b :: rest) = 1) ∨
    (∃ b1 r, rest = b1 :: r ∧ 194 ≤ b ∧ b ≤ 223 ∧ 128 ≤ b1 ∧ b1 ≤ 191 ∧
      ∀ X, utf8Len (b :: b1 :: X) = 2) ∨
    (∃ b1 b2 r, rest = b1 :: b2 :: r ∧ 224 ≤ b ∧ b ≤ 239 ∧ 128 ≤ b1 ∧ b1 ≤ 191 ∧
      128 ≤ b2 ∧ b2 ≤ 191 ∧ ∀ X, utf8Len (b :: b1 :: b2 :: X) = 3) ∨
    (∃ b1 b2 b3 r, rest = b1 :: b2 :: b3 :: r ∧ 240 ≤ b ∧ b ≤ 244 ∧ 128 ≤ b1 ∧ b1 ≤ 191 ∧
      128 ≤ b2 ∧ b2 ≤ 191 ∧ 128 ≤ b3 ∧ b3 ≤ 191 ∧
      ∀ X, utf8Len (b :: b1 :: b2 :: b3 :: X) = 4) := by
  by_cases h0 : b < 128
  · exact Or.inr (Or.inl ⟨h0, by simp [utf8Len, h0]⟩)
  · cases rest with
    | nil => exact Or.inl (by simp [utf8Len, h0])
    | cons b1 r1 =>
      by_cases h2 : 194 ≤ b ∧ b ≤ 223
      · by_cases hc : isCont b1 = true
        · have hc2 := hc
          simp only [isCont, Bool.and_eq_true, decide_eq_true_eq] at hc2
          exact Or.inr (Or.inr (Or.inl ⟨b1, r1, rfl, h2.1, h2.2, hc2.1, hc2.2, fun X => by
            simp [utf8Len, h0, h2, hc]⟩))
        · exact Or.inl (by simp [utf8Len, h0, h2, hc])
      · cases r1 with
        | nil => exact Or.inl (by simp [utf8Len, h0, h2])
        | cons b2 r2 =>
          by_cases h3 : 224 ≤ b ∧ b ≤ 239
          · by_cases hc : (if b = 224 then 160 else 128) ≤ b1 ∧ b1 ≤ (if b = 237 then 159 else 191)
                ∧ isCont b2 = true
            · have hc2 := hc.2.2
              simp only [isCont, Bool.and_eq_true, decide_eq_true_eq] at hc2
              have hb1 : 128 ≤ b1 ∧ b1 ≤ 191 := by
                obtain ⟨x, y, -⟩ := hc
                split at x <;> split at y <;> omega
              exact Or.inr (Or.inr (Or.inr (Or.inl ⟨b1, b2, r2, rfl, h3.1, h3.2, hb1.1, hb1.2,
                hc2.1, hc2.2, fun X => by simp [utf8Len, h0, h2, h3, hc]⟩)))
            · exact Or.inl (by simp [utf8Len, h0, h2, h3, hc])
          · cases r2 with
            | nil => exact Or.inl (by simp [utf8Len, h0, h2, h3])
            | cons b3 r3 =>
              by_cases hc : 240 ≤ b ∧ b ≤ 244 ∧ (if b = 240 then 144 else 128) ≤ b1
                  ∧ b1 ≤ (if b = 244 then 143 else 191) ∧ isCont b2 = true ∧ isCont b3 = true
              · have hc2 := hc.2.2.2.2.1
                have hc3 := hc.2.2.2.2.2
                simp only [isCont, Bool.and_eq_true, decide_eq_true_eq] at hc2 hc3
                have hb1 : 128 ≤ b1 ∧ b1 ≤ 191 := by
                  obtain ⟨-, -, x, y, -⟩ := hc
                  split at x <;> split at y <;> omega
                exact Or.inr (Or.inr (Or.inr (Or.inr ⟨b1, b2, b3, r3, rfl, hc.1, hc.2.1, hb1.1,
                  hb1.2, hc2.1, hc2.2, hc3.1, hc3.2, fun X => by
                    simp [utf8Len, h0, h2, h3, hc]⟩)))
              · exact Or.inl (by simp [utf8Len, h0, h2, h3, hc])

theorem unquoteAux_cons (st : UnquoteState) (b : Nat) (rest : GoString) :
    unquoteAux st (b :: rest)
      = (unquoteStep st b rest).1 ++ unquoteAux (unquoteStep st b rest).2 rest := by
  cases st <;> rfl

/-- Reading back a six-byte escape `\u00XY` or `\u20XY` of a rune that is no surrogate. -/
theorem unquote_escape_u (a b c d : Nat) (va vb vc vd : Nat) (ha : hexValue a = some va)
    (hb : hexValue b = some vb) (hc : hexValue c = some vc) (hd : hexValue d = some vd)
    (hr : ((va * 16 + vb) * 16 + vc) * 16 + vd < 55296) (Y : GoString) :
    unquoteAux UnquoteState.plain (92 :: 117 :: a :: b :: c :: d :: Y)
      = utf8Encode (((va * 16 + vb) * 16 + vc) * 16 + vd) ++ unquoteAux UnquoteState.plain Y := by
  have h1 : ¬ (55296 ≤ ((va * 16 + vb) * 16 + vc) * 16 + vd) := by omega
  have h2 : ¬ (56320 ≤ ((va * 16 + vb) * 16 + vc) * 16 + vd) := by omega
  simp [unquoteAux_cons, unquoteStep, unquotePlain, unquoteRune, ha, hb, hc, hd, h1, h2]

/-- Reading back what the encoder writes for an ASCII byte gives the byte. -/
theorem unquote_quoteByte {b : Nat} (h : b < 128) (Y : GoString) :
    unquoteAux UnquoteState.plain (quoteByte b ++ Y) = b :: unquoteAux UnquoteState.plain Y := by
  unfold quoteByte
  split
  · rename_i e
    simp [unquoteAux_cons, unquoteStep, unquotePlain, escByte, e]
  split
  · rename_i e
    simp [unquoteAux_cons, unquoteStep, unquotePlain, escByte, e]
  split
  · rename_i e
    simp [unquoteAux_cons, unquoteStep, unquotePlain, escByte, e]
  split
  · rename_i e
    simp [unquoteAux_cons, unquoteStep, unquotePlain, escByte, e]
  split
  · rename_i e
    simp [unquoteAux_cons, unquoteStep, unquotePlain, escByte, e]
  split
  · rename_i e
    simp [unquoteAux_cons, unquoteStep, unquotePlain, escByte, e]
  split
  · rename_i e
    simp [unquoteAux_cons, unquoteStep, unquotePlain, escByte, e]
  split
  · rename_i h1 h2 h3 h4 h5 h6 h7 h8
    have hb : b < 64 := by omega
    have e := unquote_escape_u 48 48 (hexDigit (b / 16)) (hexDigit (b % 16)) 0 0 (b / 16) (b % 16)
      rfl rfl (hexValue_hexDigit (by omega)) (hexValue_hexDigit (by omega)) (by omega) Y
    have e2 : ((0 * 16 + 0) * 16 + b / 16) * 16 + b % 16 = b := by omega
    rw [e2] at e
    simp only [List.cons_append, List.nil_append]
    rw [e]
    simp [utf8Encode, h]
  · rename_i h1 h2 h3 h4 h5 h6 h7 h8
    simp [unquoteAux_cons, unquoteStep, unquotePlain, h2, h]

theorem quoteByte_high {b : Nat} (h : 128 ≤ b) : quoteByte b = [b] := by
  have h1 : ¬ b = 34 := by omega
  have h2 : ¬ b = 92 := by omega
  have h3 : ¬ b = 8 := by omega
  have h4 : ¬ b = 12 := by omega
  have h5 : ¬ b = 10 := by omega
  have h6 : ¬ b = 13 := by omega
  have h7 : ¬ b = 9 := by omega
  have h8 : ¬ (b < 32 ∨ b = 60 ∨ b = 62 ∨ b = 38) := by omega
  simp [quoteByte, h1, h2, h3, h4, h5, h6, h7, h8]

theorem quoteAux_raw {b : Nat} (h : 128 ≤ b) (r : GoString)
    (h1 : ¬ (b = 226 ∧ r.take 2 = [128, 168])) (h2 : ¬ (b = 226 ∧ r.take 2 = [128, 169])) :
    quoteAux 0 (b :: r) = b :: quoteAux 0 r := by
  simp only [quoteAux, if_neg h1, if_neg h2, quoteByte_high h]
  rfl

theorem quoteAux_cont {c : Nat} (h1 : 128 ≤ c) (h2 : c ≤ 191) (r : GoString) :
    quoteAux 0 (c :: r) = c :: quoteAux 0 r :=
  quoteAux_raw h1 r (fun h => by omega) (fun h => by omega)

/-- Reading back a raw multi-byte sequence copies it. -/
theorem unquote_raw {b : Nat} (h : 128 ≤ b) (Z : GoString) :
    (∀ b1, utf8Len (b :: b1 :: Z) = 2 →
      unquoteAux UnquoteState.plain (b :: b1 :: Z)
        = b :: b1 :: unquoteAux UnquoteState.plain Z) ∧
    (∀ b1 b2, utf8Len (b :: b1 :: b2 :: Z) = 3 →
      unquoteAux UnquoteState.plain (b :: b1 :: b2 :: Z)
        = b :: b1 :: b2 :: unquoteAux UnquoteState.plain Z) ∧
    (∀ b1 b2 b3, utf8Len (b :: b1 :: b2 :: b3 :: Z) = 4 →
      unquoteAux UnquoteState.plain (b :: b1 :: b2 :: b3 :: Z)
        = b :: b1 :: b2 :: b3 :: unquoteAux UnquoteState.plain Z) := by
  have h1 : ¬ b = 92 := by omega
  have h2 : ¬ b < 128 := by omega
  refine ⟨fun b1 e => ?_, fun b1 b2 e => ?_, fun b1 b2 b3 e => ?_⟩
  · simp [unquoteAux_cons, unquoteStep, unquotePlain, h1, h2, e]
  · simp [unquoteAux_cons, unquoteStep, unquotePlain, h1, h2, e]
  · simp [unquoteAux_cons, unquoteStep, unquotePlain, h1, h2, e]

/-- Reading back the body the encoder writes for a valid UTF-8 string gives the string. -/
theorem unquoteAux_quoteAux (n : Nat) :
    ∀ s : GoString, s.length ≤ n → validUtf8Aux 0 s = true → ∀ Y : GoString,
      unquoteAux UnquoteState.plain (quoteAux 0 s ++ Y)
        = s ++ unquoteAux UnquoteState.plain Y := by
  induction n with
  | zero =>
    intro s hs _ Y
    have : s = [] := List.length_eq_zero.1 (by omega)
    subst this
    simp [quoteAux]
  | succ n ih =>
    intro s hs hv Y
    cases s with
    | nil => simp [quoteAux]
    | cons b rest =>
      simp only [validUtf8Aux, Bool.and_eq_true, decide_eq_true_eq] at hv
      obtain ⟨hlen, hrest⟩ := hv
      simp only [List.length_cons] at hs
      rcases utf8Len_cases b rest with h | ⟨hb, h1⟩ | ⟨b1, r, rfl, hb, hb2, c1, c2, hX⟩ |
          ⟨b1, b2, r, rfl, hb, hb2, c1, c2, c3, c4, hX⟩ |
          ⟨b1, b2, b3, r, rfl, hb, hb2, c1, c2, c3, c4, c5, c6, hX⟩
      · exact absurd h hlen
      · rw [h1] at hrest
        have e : quoteAux 0 (b :: rest) = quoteByte b ++ quoteAux 0 rest := by
          have n1 : ¬ (b = 226 ∧ rest.take 2 = [128, 168]) := fun h => by omega
          have n2 : ¬ (b = 226 ∧ rest.take 2 = [128, 169]) := fun h => by omega
          simp only [quoteAux, if_neg n1, if_neg n2]
        rw [e, List.append_assoc, unquote_quoteByte hb, ih rest (by omega) hrest Y]
        rfl
      · rw [hX r] at hrest
        simp only [Nat.add_one_sub_one, validUtf8Aux] at hrest
        simp only [List.length_cons] at hs
        rw [quoteAux_raw (by omega) _ (fun h => by omega) (fun h => by omega),
          quoteAux_cont c1 c2]
        simp only [List.cons_append]
        rw [(unquote_raw (by omega : 128 ≤ b) _).1 b1 (hX _), ih r (by omega) hrest Y]
      · rw [hX r] at hrest
        simp only [Nat.add_one_sub_one, validUtf8Aux] at hrest
        simp only [List.length_cons] at hs
        by_cases p1 : b = 226 ∧ (b1 :: b2 :: r).take 2 = [128, 168]
        · obtain ⟨rfl, p2⟩ := p1
          simp only [List.take_succ_cons, List.take_zero, List.cons.injEq, and_true] at p2
          obtain ⟨rfl, rfl⟩ := p2
          have e : quoteAux 0 (226 :: 128 :: 168 :: r)
              = 92 :: 117 :: 50 :: 48 :: 50 :: 56 :: quoteAux 0 r := by
            simp [quoteAux]
            rfl
          rw [e]
          simp only [List.cons_append]
          rw [unquote_escape_u 50 48 50 56 2 0 2 8 rfl rfl rfl rfl (by decide),
            ih r (by omega) hrest Y]
          rfl
        · by_cases p3 : b = 226 ∧ (b1 :: b2 :: r).take 2 = [128, 169]
          · obtain ⟨rfl, p2⟩ := p3
            simp only [List.take_succ_cons, List.take_zero, List.cons.injEq, and_true] at p2
            obtain ⟨rfl, rfl⟩ := p2
            have e : quoteAux 0 (226 :: 128 :: 169 :: r)
                = 92 :: 117 :: 50 :: 48 :: 50 :: 57 :: quoteAux 0 r := by
              simp [quoteAux]
              rfl
            rw [e]
            simp only [List.cons_append]
            rw [unquote_escape_u 50 48 50 57 2 0 2 9 rfl rfl rfl rfl (by decide),
              ih r (by omega) hrest Y]
            rfl
          · rw [quoteAux_raw (by omega) _ p1 p3, quoteAux_cont c1 c2, quoteAux_cont c3 c4]
            simp only [List.cons_append]
            rw [(unquote_raw (by omega : 128 ≤ b) _).2.1 b1 b2 (hX _), ih r (by omega) hrest Y]
      · rw [hX r] at hrest
        simp only [Nat.add_one_sub_one, validUtf8Aux] at hrest
        simp only [List.length_cons] at hs
        rw [quoteAux_raw (by omega) _ (fun h => by omega) (fun h => by omega),
          quoteAux_cont c1 c2, quoteAux_cont c3 c4, quoteAux_cont c5 c6]
        simp only [List.cons_append]
        rw [(unquote_raw (by omega : 128 ≤ b) _).2.2 b1 b2 b3 (hX _), ih r (by omega) hrest Y]

/-- Reading back the string literal the encoder writes for a valid UTF-8 string gives the
string. -/
theorem unquote_quoteAux {s : GoString} (h : validUtf8 s = true) :
    unquote (quoteAux 0 s) = s := by
  have := unquoteAux_quoteAux s.length s (le_refl _) h []
  simpa [unquote, unquoteAux] using this

/-! ## Numbers, white space and keys -/

theorem NumState.next_terminator (st : NumState) {c : Nat} (h : c = 10 ∨ c = 44) :
    st.next c = none := by
  rcases h with rfl | rfl <;> cases st <;> rfl

theorem run_numberScan (float : Float64Text) (stack : List Frame) (t : GoString) :
    ∀ (st st2 : NumState) (lit : GoString), numberScan st t = some st2 →
      run float ⟨Mode.number st lit, stack, none⟩ t
        = some ⟨Mode.number st2 (t.reverse ++ lit), stack, none⟩ := by
  induction t with
  | nil =>
    intro st st2 lit h
    simp only [numberScan, Option.some.injEq] at h
    subst h
    simp [run]
  | cons c cs ih =>
    intro st st2 lit h
    simp only [numberScan] at h
    cases hn : st.next c with
    | none => simp [hn] at h
    | some st3 =>
      simp only [hn] at h
      simp only [run, step, hn]
      rw [ih st3 st2 (c :: lit) h]
      simp

theorem step_numberStart (float : Float64Text) (stack : List Frame) {c : Nat} {st : NumState}
    (h : numberStart c = some st) :
    step float ⟨Mode.value, stack, none⟩ c = some ⟨Mode.number st [c], stack, none⟩ ∧
      step float ⟨Mode.valueOrEnd, stack, none⟩ c = some ⟨Mode.number st [c], stack, none⟩ := by
  unfold numberStart at h
  split at h
  · rename_i e
    cases h
    subst e
    exact ⟨rfl, rfl⟩
  · split at h
    · rename_i e
      cases h
      subst e
      exact ⟨rfl, rfl⟩
    · split at h
      · rename_i e1 e2 e3
        cases h
        have a1 : isSpace c = false := by
          simp only [isSpace, Bool.or_eq_false_iff, beq_eq_false_iff_ne, ne_eq]
          omega
        have a2 : ¬ c = 123 := by omega
        have a3 : ¬ c = 91 := by omega
        have a4 : ¬ c = 34 := by omega
        have a5 : ¬ c = 93 := by omega
        simp [step, beginValue, a1, a2, a3, a4, a5, e1, e2, e3]
      · cases h

theorem step_next (float : Float64Text) {d : Decoder} (h : d.mode = Mode.next) (c : Nat) :
    step float d c = afterValue d.stack d.top c := by
  unfold step
  rw [h]

theorem emit_mode {v : JsonValue} {stack : List Frame} {d1 : Decoder}
    (h : emit v stack = some d1) : d1.mode = Mode.next := by
  unfold emit at h
  split at h <;> first | (cases h; rfl) | cases h

theorem step_number_end (float : Float64Text) (stack : List Frame) (st : NumState)
    (lit t : GoString) (c : Nat) (d1 : Decoder) (hn : st.next c = none)
    (hfin : st.final = true) (hf : float lit.reverse = some t)
    (he : emit (JsonValue.number t) stack = some d1) :
    step float ⟨Mode.number st lit, stack, none⟩ c = step float d1 c := by
  rw [step_next float (emit_mode he)]
  simp only [step, hn, hfin, if_true, emitNumber, hf, he]

/-- The decoder reads a number literal that is followed by a line break or a comma. -/
theorem run_number (float : Float64Text) (stack : List Frame) (t rest : GoString) (c : Nat)
    (d1 : Decoder) (hlit : isNumberLiteral t = true) (hf : float t = some t)
    (hc : c = 10 ∨ c = 44) (he : emit (JsonValue.number t) stack = some d1) :
    run float ⟨Mode.value, stack, none⟩ (t ++ c :: rest) = run float d1 (c :: rest) ∧
      run float ⟨Mode.valueOrEnd, stack, none⟩ (t ++ c :: rest) = run float d1 (c :: rest) := by
  cases t with
  | nil => simp [isNumberLiteral] at hlit
  | cons b bs =>
    simp only [isNumberLiteral] at hlit
    cases hs : numberStart b with
    | none => simp [hs] at hlit
    | some st =>
      simp only [hs] at hlit
      cases hn : numberScan st bs with
      | none => simp [hn] at hlit
      | some st2 =>
        simp only [hn] at hlit
        obtain ⟨s1, s2⟩ := step_numberStart float stack hs
        have hrev : (bs.reverse ++ [b]).reverse = b :: bs := by simp
        have key : run float ⟨Mode.number st [b], stack, none⟩ (bs ++ c :: rest)
            = run float d1 (c :: rest) := by
          rw [run_append, run_numberScan float stack bs st st2 [b] hn, Option.some_bind]
          rw [run, run, step_number_end float stack st2 _ (b :: bs) c d1
            (NumState.next_terminator st2 hc) hlit (by rw [hrev]; exact hf) he]
        constructor
        · rw [List.cons_append, run, s1]
          exact key
        · rw [List.cons_append, run, s2]
          exact key

/-- White space between tokens is skipped. -/
theorem run_space (float : Float64Text) (stack : List Frame) (top : Option JsonValue)
    (ws rest : GoString) (h : ∀ c ∈ ws, isSpace c = true) :
    run float ⟨Mode.value, stack, top⟩ (ws ++ rest) = run float ⟨Mode.value, stack, top⟩ rest ∧
    run float ⟨Mode.valueOrEnd, stack, top⟩ (ws ++ rest)
      = run float ⟨Mode.valueOrEnd, stack, top⟩ rest ∧
    run float ⟨Mode.keyOrEnd, stack, top⟩ (ws ++ rest)
      = run float ⟨Mode.keyOrEnd, stack, top⟩ rest ∧
    run float ⟨Mode.key, stack, top⟩ (ws ++ rest) = run float ⟨Mode.key, stack, top⟩ rest ∧
    run float ⟨Mode.next, stack, top⟩ (ws ++ rest) = run float ⟨Mode.next, stack, top⟩ rest := by
  induction ws with
  | nil => simp
  | cons c cs ih =>
    have hc : isSpace c = true := h c (by simp)
    obtain ⟨i1, i2, i3, i4, i5⟩ := ih (fun x hx => h x (by simp [hx]))
    simp only [List.cons_append, run, step, afterValue, hc, if_true]
    exact ⟨i1, i2, i3, i4, i5⟩

theorem newline_space (depth : Nat) : ∀ c ∈ newline [] (str "  ") depth, isSpace c = true := by
  intro c hc
  simp only [newline, List.nil_append, List.mem_cons, List.mem_flatten, List.mem_replicate] at hc
  rcases hc with rfl | ⟨l, ⟨-, rfl⟩, h2⟩
  · rfl
  · have : c = 32 := by
      simp [str] at h2
      exact h2
    subst this
    rfl

theorem newline_head (depth : Nat) :
    ∃ r, newline [] (str "  ") depth = 10 :: r := ⟨_, rfl⟩

theorem keyLess_irrefl (a : GoString) : keyLess a a = false := by
  induction a with
  | nil => rfl
  | cons x xs ih => simp [keyLess, ih]

theorem keyLess_asymm : ∀ a b : GoString, keyLess a b = true → keyLess b a = false := by
  intro a
  induction a with
  | nil =>
    intro b h
    cases b <;> simp [keyLess] at h ⊢
  | cons x xs ih =>
    intro b h
    cases b with
    | nil => simp [keyLess] at h
    | cons y ys =>
      simp only [keyLess] at h ⊢
      by_cases h1 : x < y
      · have h2 : ¬ y < x := by omega
        simp [h1, h2]
      · by_cases h2 : y < x
        · simp [h1, h2] at h
        · simp only [h1, h2, if_false] at h ⊢
          exact ih ys h

theorem keyLess_trans : ∀ a b c : GoString, keyLess a b = true → keyLess b c = true →
    keyLess a c = true := by
  intro a
  induction a with
  | nil =>
    intro b c h1 h2
    cases b with
    | nil => simp [keyLess] at h1
    | cons y ys =>
      cases c with
      | nil => simp [keyLess] at h2
      | cons z zs => simp [keyLess]
  | cons x xs ih =>
    intro b c h1 h2
    cases b with
    | nil => simp [keyLess] at h1
    | cons y ys =>
      cases c with
      | nil => simp [keyLess] at h2
      | cons z zs =>
        simp only [keyLess] at h1 h2 ⊢
        by_cases a1 : x < y
        · by_cases a2 : y < z
          · have : x < z := by omega
            simp [this]
          · by_cases a3 : z < y
            · simp [a2, a3] at h2
            · have : x < z := by omega
              simp [this]
        · by_cases a1b : y < x
          · simp [a1, a1b] at h1
          · simp only [a1, a1b, if_false] at h1
            have exy : x = y := by omega
            subst exy
            by_cases a2 : x < z
            · simp [a2]
            · by_cases a3 : z < x
              · simp [a2, a3] at h2
              · simp only [a2, a3, if_false] at h2 ⊢
                exact ih ys zs h1 h2

theorem setField_append (k : GoString) (v : JsonValue) (acc : List (GoString × JsonValue))
    (h : ∀ p ∈ acc, keyLess p.1 k = true) : setField k v acc = acc ++ [(k, v)] := by
  induction acc with
  | nil => rfl
  | cons p ps ih =>
    obtain ⟨k2, v2⟩ := p
    have h1 : keyLess k2 k = true := h (k2, v2) (by simp)
    have h2 : ¬ k = k2 := by
      intro e
      rw [e, keyLess_irrefl] at h1
      cases h1
    have h3 : keyLess k k2 = false := keyLess_asymm _ _ h1
    simp only [setField, if_neg h2, h3, Bool.false_eq_true, if_false, List.cons_append]
    rw [ih (fun q hq => h q (by simp [hq]))]

theorem sortedKeys_head (k : GoString) (v : JsonValue) (fs : List (GoString × JsonValue))
    (h : sortedKeys ((k, v) :: fs) = true) :
    sortedKeys fs = true ∧ ∀ q ∈ fs, keyLess k q.1 = true := by
  induction fs generalizing k v with
  | nil => simp [sortedKeys]
  | cons q qs ih =>
    obtain ⟨k2, v2⟩ := q
    simp only [sortedKeys, Bool.and_eq_true] at h
    obtain ⟨h1, h2⟩ := h
    have hs : sortedKeys ((k2, v2) :: qs) = true := by
      simp only [sortedKeys, Bool.and_eq_true]
      exact h2
    refine ⟨hs, fun q hq => ?_⟩
    rcases List.mem_cons.1 hq with rfl | hq
    · exact h1
    · exact keyLess_trans _ _ _ h1 ((ih k2 v2 hs).2 q hq)

/-! ## Reading back what the encoder writes -/

theorem enc_array_cons (d : Nat) (x : JsonValue) (xs : List JsonValue) (rest : GoString) :
    encodeValue [] (str "  ") d (JsonValue.array (x :: xs)) ++ rest
      = 91 :: (newline [] (str "  ") (d + 1) ++ (encodeValue [] (str "  ") (d + 1) x
          ++ (encodeItems [] (str "  ") (d + 1) xs ++ (newline [] (str "  ") d ++ 93 :: rest)))) := by
  simp [encodeValue]

theorem enc_items_cons (d : Nat) (x : JsonValue) (xs : List JsonValue) (T : GoString) :
    encodeItems [] (str "  ") d (x :: xs) ++ T
      = 44 :: (newline [] (str "  ") d ++ (encodeValue [] (str "  ") d x
          ++ (encodeItems [] (str "  ") d xs ++ T))) := by
  simp [encodeItems]

theorem enc_object_cons (d : Nat) (k : GoString) (v : JsonValue)
    (fs : List (GoString × JsonValue)) (rest : GoString) :
    encodeValue [] (str "  ") d (JsonValue.object ((k, v) :: fs)) ++ rest
      = 123 :: (newline [] (str "  ") (d + 1) ++ (quote k ++ 58 :: 32 ::
          (encodeValue [] (str "  ") (d + 1) v
            ++ (encodeFields [] (str "  ") (d + 1) fs
              ++ (newline [] (str "  ") d ++ 125 :: rest))))) := by
  simp [encodeValue]

theorem enc_fields_cons (d : Nat) (k : GoString) (v : JsonValue)
    (fs : List (GoString × JsonValue)) (T : GoString) :
    encodeFields [] (str "  ") d ((k, v) :: fs) ++ T
      = 44 :: (newline [] (str "  ") d ++ (quote k ++ 58 :: 32 ::
          (encodeValue [] (str "  ") d v ++ (encodeFields [] (str "  ") d fs ++ T)))) := by
  simp [encodeFields]

theorem items_head (d d2 : Nat) (xs : List JsonValue) (T : GoString) :
    ∃ c r, encodeItems [] (str "  ") d xs ++ (newline [] (str "  ") d2 ++ T) = c :: r ∧
      (c = 10 ∨ c = 44) := by
  cases xs with
  | nil => exact ⟨10, _, rfl, Or.inl rfl⟩
  | cons x xs => exact ⟨44, _, enc_items_cons d x xs _, Or.inr rfl⟩

theorem fields_head (d d2 : Nat) (fs : List (GoString × JsonValue)) (T : GoString) :
    ∃ c r, encodeFields [] (str "  ") d fs ++ (newline [] (str "  ") d2 ++ T) = c :: r ∧
      (c = 10 ∨ c = 44) := by
  cases fs with
  | nil => exact ⟨10, _, rfl, Or.inl rfl⟩
  | cons p ps =>
    obtain ⟨k, v⟩ := p
    exact ⟨44, _, enc_fields_cons d k v ps _, Or.inr rfl⟩

/-- The decoder reads a key the encoder wrote, the colon and the blank after it. -/
theorem run_key (float : Float64Text) (stack : List Frame) (acc : List (GoString × JsonValue))
    (k rest : GoString) (hk : validUtf8 k = true) :
    run float ⟨Mode.key, Frame.obj acc none :: stack, none⟩ (quote k ++ 58 :: 32 :: rest)
        = run float ⟨Mode.value, Frame.obj acc (some k) :: stack, none⟩ rest ∧
      run float ⟨Mode.keyOrEnd, Frame.obj acc none :: stack, none⟩ (quote k ++ 58 :: 32 :: rest)
        = run float ⟨Mode.value, Frame.obj acc (some k) :: stack, none⟩ rest := by
  have e : quote k ++ 58 :: 32 :: rest = 34 :: (quoteAux 0 k ++ 34 :: (58 :: 32 :: rest)) := by
    simp [quote]
  have s1 : step float ⟨Mode.key, Frame.obj acc none :: stack, none⟩ 34
      = some ⟨Mode.string true [], Frame.obj acc none :: stack, none⟩ := rfl
  have s2 : step float ⟨Mode.keyOrEnd, Frame.obj acc none :: stack, none⟩ 34
      = some ⟨Mode.string true [], Frame.obj acc none :: stack, none⟩ := rfl
  have key : run float ⟨Mode.string true [], Frame.obj acc none :: stack, none⟩
      (quoteAux 0 k ++ 34 :: (58 :: 32 :: rest))
      = run float ⟨Mode.value, Frame.obj acc (some k) :: stack, none⟩ rest := by
    rw [run_quote]
    simp only [endString, if_true, List.reverse_reverse, unquote_quoteAux hk, Option.some_bind]
    rfl
  rw [e]
  exact ⟨by rw [run, s1]; exact key, by rw [run, s2]; exact key⟩

mutual
/-- The decoder, expecting a value, reads the text the encoder writes for a canonical
value and is then in the state it has after that value. -/
theorem run_value (float : Float64Text) : (v : JsonValue) → (stack : List Frame) →
    (rest : GoString) → (d : Nat) → (d1 : Decoder) → canonical float v = true →
    stack.length + depthOf v ≤ maxNestingDepth → emit v stack = some d1 →
    ((∃ t, v = JsonValue.number t) → ∃ c r, rest = c :: r ∧ (c = 10 ∨ c = 44)) →
    run float ⟨Mode.value, stack, none⟩ (encodeValue [] (str "  ") d v ++ rest)
        = run float d1 rest ∧
      run float ⟨Mode.valueOrEnd, stack, none⟩ (encodeValue [] (str "  ") d v ++ rest)
        = run float d1 rest
  | JsonValue.null, stack, rest, d, d1, _, _, he, _ => by
    constructor <;> simp [encodeValue, str, run, step, beginValue, isSpace, he]
  | JsonValue.bool true, stack, rest, d, d1, _, _, he, _ => by
    constructor <;> simp [encodeValue, str, run, step, beginValue, isSpace, he]
  | JsonValue.bool false, stack, rest, d, d1, _, _, he, _ => by
    constructor <;> simp [encodeValue, str, run, step, beginValue, isSpace, he]
  | JsonValue.number t, stack, rest, d, d1, hc, _, he, hn => by
    obtain ⟨c, r, rfl, hcr⟩ := hn ⟨t, rfl⟩
    simp only [canonical, Bool.and_eq_true, beq_iff_eq] at hc
    simp only [encodeValue]
    exact run_number float stack t r c d1 hc.1 hc.2 hcr he
  | JsonValue.string s, stack, rest, d, d1, hc, _, he, _ => by
    simp only [canonical] at hc
    have e : encodeValue [] (str "  ") d (JsonValue.string s) ++ rest
        = 34 :: (quoteAux 0 s ++ 34 :: rest) := by
      simp [encodeValue, quote]
    have s1 : step float ⟨Mode.value, stack, none⟩ 34
        = some ⟨Mode.string false [], stack, none⟩ := rfl
    have s2 : step float ⟨Mode.valueOrEnd, stack, none⟩ 34
        = some ⟨Mode.string false [], stack, none⟩ := rfl
    have key : run float ⟨Mode.string false [], stack, none⟩ (quoteAux 0 s ++ 34 :: rest)
        = run float d1 rest := by
      rw [run_quote]
      simp only [endString, Bool.false_eq_true, if_false, List.reverse_reverse,
        unquote_quoteAux hc, he, Option.some_bind]
    rw [e]
    exact ⟨by rw [run, s1]; exact key, by rw [run, s2]; exact key⟩
  | JsonValue.array [], stack, rest, d, d1, _, hd, he, _ => by
    have hd2 : stack.length + 1 ≤ maxNestingDepth := by
      simpa [depthOf, depthItems] using hd
    constructor <;>
      simp [encodeValue, str, run, step, beginValue, isSpace, he, hd2]
  | JsonValue.array (x :: xs), stack, rest, d, d1, hc, hd, he, _ => by
    simp only [canonical, canonicalItems, Bool.and_eq_true] at hc
    simp only [depthOf, depthItems] at hd
    have hd2 : stack.length + 1 ≤ maxNestingDepth := by omega
    have s1 : step float ⟨Mode.value, stack, none⟩ 91
        = some ⟨Mode.valueOrEnd, Frame.arr [] :: stack, none⟩ := by
      simp [step, beginValue, isSpace, hd2]
    have s2 : step float ⟨Mode.valueOrEnd, stack, none⟩ 91
        = some ⟨Mode.valueOrEnd, Frame.arr [] :: stack, none⟩ := by
      simp [step, beginValue, isSpace, hd2]
    have key : run float ⟨Mode.valueOrEnd, Frame.arr [] :: stack, none⟩
        (newline [] (str "  ") (d + 1) ++ (encodeValue [] (str "  ") (d + 1) x
          ++ (encodeItems [] (str "  ") (d + 1) xs ++ (newline [] (str "  ") d ++ 93 :: rest))))
        = run float d1 rest := by
      rw [(run_space float _ none _ _ (newline_space (d + 1))).2.1]
      rw [(run_value float x (Frame.arr [] :: stack) _ (d + 1)
        ⟨Mode.next, Frame.arr [x] :: stack, none⟩ hc.1
        (by simp only [List.length_cons]; omega) rfl
        (fun _ => items_head (d + 1) d xs _)).2]
      exact run_items float xs [x] stack rest (d + 1) d d1 hc.2
        (by omega) (by simpa using he)
    rw [enc_array_cons]
    exact ⟨by rw [run, s1]; exact key, by rw [run, s2]; exact key⟩
  | JsonValue.object [], stack, rest, d, d1, _, hd, he, _ => by
    have hd2 : stack.length + 1 ≤ maxNestingDepth := by
      simpa [depthOf, depthFields] using hd
    constructor <;>
      simp [encodeValue, str, run, step, beginValue, isSpace, he, hd2]
  | JsonValue.object ((k, v) :: fs), stack, rest, d, d1, hc, hd, he, _ => by
    simp only [canonical, canonicalFields, Bool.and_eq_true] at hc
    obtain ⟨hsorted, ⟨hk, hv⟩, hfs⟩ := hc
    obtain ⟨hs2, hlt⟩ := sortedKeys_head k v fs hsorted
    simp only [depthOf, depthFields] at hd
    have hd2 : stack.length + 1 ≤ maxNestingDepth := by omega
    have s1 : step float ⟨Mode.value, stack, none⟩ 123
        = some ⟨Mode.keyOrEnd, Frame.obj [] none :: stack, none⟩ := by
      simp [step, beginValue, isSpace, hd2]
    have s2 : step float ⟨Mode.valueOrEnd, stack, none⟩ 123
        = some ⟨Mode.keyOrEnd, Frame.obj [] none :: stack, none⟩ := by
      simp [step, beginValue, isSpace, hd2]
    have key : run float ⟨Mode.keyOrEnd, Frame.obj [] none :: stack, none⟩
        (newline [] (str "  ") (d + 1) ++ (quote k ++ 58 :: 32 ::
          (encodeValue [] (str "  ") (d + 1) v
            ++ (encodeFields [] (str "  ") (d + 1) fs
              ++ (newline [] (str "  ") d ++ 125 :: rest)))))
        = run float d1 rest := by
      rw [(run_space float _ none _ _ (newline_space (d + 1))).2.2.1]
      rw [(run_key float stack [] k _ hk).2]
      rw [(run_value float v (Frame.obj [] (some k) :: stack) _ (d + 1)
        ⟨Mode.next, Frame.obj [(k, v)] none :: stack, none⟩ hv
        (by simp only [List.length_cons]; omega) rfl
        (fun _ => fields_head (d + 1) d fs _)).1]
      exact run_fields float fs [(k, v)] stack rest (d + 1) d d1 hfs hs2
        (by
          intro p hp q hq
          simp only [List.mem_singleton] at hp
          subst hp
          exact hlt q hq)
        (by omega) (by simpa using he)
    rw [enc_object_cons]
    exact ⟨by rw [run, s1]; exact key, by rw [run, s2]; exact key⟩
/-- The same for the items of an open array after the first, up to the closing bracket. -/
theorem run_items (float : Float64Text) : (xs : List JsonValue) → (acc : List JsonValue) →
    (stack : List Frame) → (rest : GoString) → (d d2 : Nat) → (d1 : Decoder) →
    canonicalItems float xs = true →
    stack.length + 1 + depthItems xs ≤ maxNestingDepth →
    emit (JsonValue.array (acc.reverse ++ xs)) stack = some d1 →
    run float ⟨Mode.next, Frame.arr acc :: stack, none⟩
        (encodeItems [] (str "  ") d xs ++ (newline [] (str "  ") d2 ++ 93 :: rest))
      = run float d1 rest
  | [], acc, stack, rest, d, d2, d1, _, _, he => by
    simp only [encodeItems, List.nil_append]
    rw [(run_space float _ none _ _ (newline_space d2)).2.2.2.2]
    simp only [List.append_nil] at he
    simp [run, step, afterValue, isSpace, he]
  | x :: xs, acc, stack, rest, d, d2, d1, hc, hd, he => by
    simp only [canonicalItems, Bool.and_eq_true] at hc
    simp only [depthItems] at hd
    have s1 : step float ⟨Mode.next, Frame.arr acc :: stack, none⟩ 44
        = some ⟨Mode.value, Frame.arr acc :: stack, none⟩ := rfl
    rw [enc_items_cons, run, s1]
    simp only []
    rw [(run_space float _ none _ _ (newline_space d)).1]
    rw [(run_value float x (Frame.arr acc :: stack) _ d
      ⟨Mode.next, Frame.arr (x :: acc) :: stack, none⟩ hc.1
      (by simp only [List.length_cons]; omega) rfl
      (fun _ => items_head d d2 xs _)).1]
    exact run_items float xs (x :: acc) stack rest d d2 d1 hc.2 (by omega) (by simpa using he)
/-- The same for the fields of an open object after the first, up to the closing brace. -/
theorem run_fields (float : Float64Text) : (fs : List (GoString × JsonValue)) →
    (acc : List (GoString × JsonValue)) → (stack : List Frame) → (rest : GoString) →
    (d d2 : Nat) → (d1 : Decoder) → canonicalFields float fs = true → sortedKeys fs = true →
    (∀ p ∈ acc, ∀ q ∈ fs, keyLess p.1 q.1 = true) →
    stack.length + 1 + depthFields fs ≤ maxNestingDepth →
    emit (JsonValue.object (acc ++ fs)) stack = some d1 →
    run float ⟨Mode.next, Frame.obj acc none :: stack, none⟩
        (encodeFields [] (str "  ") d fs ++ (newline [] (str "  ") d2 ++ 125 :: rest))
      = run float d1 rest
  | [], acc, stack, rest, d, d2, d1, _, _, _, _, he => by
    simp only [encodeFields, List.nil_append]
    rw [(run_space float _ none _ _ (newline_space d2)).2.2.2.2]
    simp only [List.append_nil] at he
    simp [run, step, afterValue, isSpace, he]
  | (k, v) :: fs, acc, stack, rest, d, d2, d1, hc, hs, hlt, hd, he => by
    simp only [canonicalFields, Bool.and_eq_true] at hc
    obtain ⟨⟨hk, hv⟩, hfs⟩ := hc
    obtain ⟨hs2, hlt2⟩ := sortedKeys_head k v fs hs
    simp only [depthFields] at hd
    have s1 : step float ⟨Mode.next, Frame.obj acc none :: stack, none⟩ 44
        = some ⟨Mode.key, Frame.obj acc none :: stack, none⟩ := rfl
    have hset : setField k v acc = acc ++ [(k, v)] :=
      setField_append k v acc (fun p hp => hlt p hp (k, v) (by simp))
    rw [enc_fields_cons, run, s1]
    simp only []
    rw [(run_space float _ none _ _ (newline_space d)).2.2.2.1]
    rw [(run_key float stack acc k _ hk).1]
    rw [(run_value float v (Frame.obj acc (some k) :: stack) _ d
      ⟨Mode.next, Frame.obj (acc ++ [(k, v)]) none :: stack, none⟩ hv
      (by simp only [List.length_cons]; omega) (by simp only [emit, hset])
      (fun _ => fields_head d d2 fs _)).1]
    exact run_fields float fs (acc ++ [(k, v)]) stack rest d d2 d1 hfs hs2
      (by
        intro p hp q hq
        rcases List.mem_append.1 hp with hp | hp
        · exact hlt p hp q (by simp [hq])
        · simp only [List.mem_singleton] at hp
          subst hp
          exact hlt2 q hq)
      (by omega) (by simpa using he)
end

/-! ## What the decoder produces is canonical -/

theorem valid_ascii {b : Nat} (h : b < 128) (X : GoString) :
    validUtf8Aux 0 (b :: X) = validUtf8Aux 0 X := by
  simp [validUtf8Aux, utf8Len, h]

theorem valid_replacement (X : GoString) :
    validUtf8Aux 0 (replacementChar ++ X) = validUtf8Aux 0 X := by
  simp [replacementChar, validUtf8Aux, utf8Len, isCont]

theorem utf8Len_two {b0 b1 : Nat} (h0 : 194 ≤ b0 ∧ b0 ≤ 223) (h1 : 128 ≤ b1 ∧ b1 ≤ 191)
    (X : GoString) : utf8Len (b0 :: b1 :: X) = 2 := by
  have a1 : ¬ b0 < 128 := by omega
  have a3 : isCont b1 = true := by
    simp only [isCont, Bool.and_eq_true, decide_eq_true_eq]
    omega
  simp [utf8Len, a1, h0, a3]

theorem utf8Len_three {b0 b1 b2 : Nat} (h0 : 224 ≤ b0 ∧ b0 ≤ 239)
    (h1 : (if b0 = 224 then 160 else 128) ≤ b1 ∧ b1 ≤ (if b0 = 237 then 159 else 191))
    (h2 : 128 ≤ b2 ∧ b2 ≤ 191) (X : GoString) : utf8Len (b0 :: b1 :: b2 :: X) = 3 := by
  have a1 : ¬ b0 < 128 := by omega
  have a2 : ¬ (194 ≤ b0 ∧ b0 ≤ 223) := by omega
  have a3 : isCont b2 = true := by
    simp only [isCont, Bool.and_eq_true, decide_eq_true_eq]
    omega
  have hc : (if b0 = 224 then 160 else 128) ≤ b1 ∧ b1 ≤ (if b0 = 237 then 159 else 191)
      ∧ isCont b2 = true := ⟨h1.1, h1.2, a3⟩
  simp [utf8Len, a1, a2, h0, hc]

theorem utf8Len_four {b0 b1 b2 b3 : Nat} (h0 : 240 ≤ b0 ∧ b0 ≤ 244)
    (h1 : (if b0 = 240 then 144 else 128) ≤ b1 ∧ b1 ≤ (if b0 = 244 then 143 else 191))
    (h2 : 128 ≤ b2 ∧ b2 ≤ 191) (h3 : 128 ≤ b3 ∧ b3 ≤ 191) (X : GoString) :
    utf8Len (b0 :: b1 :: b2 :: b3 :: X) = 4 := by
  have a1 : ¬ b0 < 128 := by omega
  have a2 : ¬ (194 ≤ b0 ∧ b0 ≤ 223) := by omega
  have a2b : ¬ (224 ≤ b0 ∧ b0 ≤ 239) := by omega
  have a3 : isCont b2 = true := by
    simp only [isCont, Bool.and_eq_true, decide_eq_true_eq]
    omega
  have a4 : isCont b3 = true := by
    simp only [isCont, Bool.and_eq_true, decide_eq_true_eq]
    omega
  have hc : 240 ≤ b0 ∧ b0 ≤ 244 ∧ (if b0 = 240 then 144 else 128) ≤ b1
      ∧ b1 ≤ (if b0 = 244 then 143 else 191) ∧ isCont b2 = true ∧ isCont b3 = true :=
    ⟨h0.1, h0.2, h1.1, h1.2, a3, a4⟩
  simp [utf8Len, a1, a2, a2b, hc]

theorem valid_of_len {b : Nat} {rest : GoString} {n : Nat} (h : utf8Len (b :: rest) = n + 1) :
    validUtf8Aux 0 (b :: rest) = validUtf8Aux n rest := by
  simp [validUtf8Aux, h]

/-- The UTF-8 encoding of a rune that is no surrogate is a valid sequence. -/
theorem valid_encode {r : Nat} (h : r < 55296 ∨ (57344 ≤ r ∧ r < 1114112)) (X : GoString) :
    validUtf8Aux 0 (utf8Encode r ++ X) = validUtf8Aux 0 X := by
  unfold utf8Encode
  split
  · rename_i h1
    exact valid_ascii h1 X
  · split
    · rename_i h1 h2
      simp only [List.cons_append, List.nil_append]
      rw [valid_of_len (@utf8Len_two (192 + r / 64) (128 + r % 64) (by omega) (by omega) X)]
      rfl
    · split
      · rename_i h1 h2 h3
        simp only [List.cons_append, List.nil_append]
        rw [valid_of_len (@utf8Len_three (224 + r / 4096) (128 + r / 64 % 64) (128 + r % 64)
          (by omega) ⟨by split <;> omega, by split <;> omega⟩ (by omega) X)]
        rfl
      · rename_i h1 h2 h3
        simp only [List.cons_append, List.nil_append]
        rw [valid_of_len (@utf8Len_four (240 + r / 262144) (128 + r / 4096 % 64)
          (128 + r / 64 % 64) (128 + r % 64)
          (by omega) ⟨by split <;> omega, by split <;> omega⟩ (by omega) (by omega) X)]
        rfl

theorem hexValue_lt {c v : Nat} (h : hexValue c = some v) : v < 16 := by
  unfold hexValue at h
  split at h
  · cases h
    omega
  · split at h
    · cases h
      omega
    · split at h
      · cases h
        omega
      · cases h

theorem strScan_hex {left : Nat} {body : GoString}
    (h : strScan (StrState.hex left) body = some StrState.normal) :
    ∃ x r v, body = x :: r ∧ hexValue x = some v ∧
      strScan (if left ≤ 1 then StrState.normal else StrState.hex (left - 1)) r
        = some StrState.normal := by
  cases body with
  | nil => simp [strScan] at h
  | cons x r =>
    simp only [strScan, strStep] at h
    cases e : hexValue x with
    | none => simp [e] at h
    | some v =>
      refine ⟨x, r, v, rfl, e, ?_⟩
      rw [e] at h
      by_cases hl : left ≤ 1
      · simp only [hl, if_true] at h ⊢
        exact h
      · simp only [hl, if_false] at h ⊢
        exact h

/-- The three shapes of an accepted body of a string literal: a raw byte, a two-byte
escape, a six-byte `\u` escape. -/
theorem strScan_cases {c : Nat} {rest : GoString}
    (h : strScan StrState.normal (c :: rest) = some StrState.normal) :
    (c ≠ 92 ∧ c ≠ 34 ∧ 32 ≤ c ∧ strScan StrState.normal rest = some StrState.normal) ∨
    (c = 92 ∧ ∃ e r, rest = e :: r ∧ e ≠ 117 ∧ escByte e < 128 ∧
      strScan StrState.normal r = some StrState.normal) ∨
    (c = 92 ∧ ∃ x1 x2 x3 x4 r v1 v2 v3 v4, rest = 117 :: x1 :: x2 :: x3 :: x4 :: r ∧
      hexValue x1 = some v1 ∧ hexValue x2 = some v2 ∧ hexValue x3 = some v3 ∧
      hexValue x4 = some v4 ∧ strScan StrState.normal r = some StrState.normal) := by
  simp only [strScan, strStep] at h
  by_cases h34 : c = 34
  · simp [h34] at h
  · by_cases h92 : c = 92
    · subst h92
      refine Or.inr ?_
      simp only [if_neg h34, if_true] at h
      cases rest with
      | nil => simp [strScan] at h
      | cons e r =>
        simp only [strScan, strStep] at h
        by_cases he : e = 98 ∨ e = 102 ∨ e = 110 ∨ e = 114 ∨ e = 116 ∨ e = 92 ∨ e = 47 ∨ e = 34
        · refine Or.inl ⟨rfl, e, r, rfl, by omega, ?_, by simpa [he] using h⟩
          rcases he with rfl | rfl | rfl | rfl | rfl | rfl | rfl | rfl <;> decide
        · simp only [if_neg he] at h
          by_cases hu : e = 117
          · subst hu
            simp only [if_true] at h
            refine Or.inr ⟨rfl, ?_⟩
            obtain ⟨x1, r1, v1, rfl, e1, h1⟩ := strScan_hex h
            obtain ⟨x2, r2, v2, rfl, e2, h2⟩ := strScan_hex h1
            obtain ⟨x3, r3, v3, rfl, e3, h3⟩ := strScan_hex h2
            obtain ⟨x4, r4, v4, rfl, e4, h4⟩ := strScan_hex h3
            exact ⟨x1, x2, x3, x4, r4, v1, v2, v3, v4, rfl, e1, e2, e3, e4, h4⟩
          · simp [hu] at h
    · refine Or.inl ⟨h92, h34, ?_⟩
      simp only [if_neg h34, if_neg h92] at h
      by_cases h32 : c < 32
      · simp [h32] at h
      · simp only [if_neg h32] at h
        exact ⟨by omega, h⟩

theorem unquote_esc {e : Nat} (he : e ≠ 117) (Y : GoString) :
    unquoteAux UnquoteState.plain (92 :: e :: Y)
      = escByte e :: unquoteAux UnquoteState.plain Y := by
  simp [unquoteAux_cons, unquoteStep, unquotePlain, he]

theorem unquote_u (x1 x2 x3 x4 v1 v2 v3 v4 : Nat) (h1 : hexValue x1 = some v1)
    (h2 : hexValue x2 = some v2) (h3 : hexValue x3 = some v3) (h4 : hexValue x4 = some v4)
    (Y : GoString) :
    unquoteAux UnquoteState.plain (92 :: 117 :: x1 :: x2 :: x3 :: x4 :: Y)
      = (unquoteRune (((v1 * 16 + v2) * 16 + v3) * 16 + v4)).1
          ++ unquoteAux (unquoteRune (((v1 * 16 + v2) * 16 + v3) * 16 + v4)).2 Y := by
  simp [unquoteAux_cons, unquoteStep, unquotePlain, h1, h2, h3, h4]

theorem unquote_high_raw (h : Nat) {c : Nat} (hc : c ≠ 92) (Y : GoString) :
    unquoteAux (UnquoteState.high h) (c :: Y)
      = replacementChar ++ unquoteAux UnquoteState.plain (c :: Y) := by
  simp [unquoteAux_cons, unquoteStep, hc]

theorem unquote_high_esc (h : Nat) {e : Nat} (he : e ≠ 117) (Y : GoString) :
    unquoteAux (UnquoteState.high h) (92 :: e :: Y)
      = replacementChar ++ unquoteAux UnquoteState.plain (92 :: e :: Y) := by
  simp [unquoteAux_cons, unquoteStep, unquotePlain, he]

theorem unquote_high_u (h x1 x2 x3 x4 v1 v2 v3 v4 : Nat) (h1 : hexValue x1 = some v1)
    (h2 : hexValue x2 = some v2) (h3 : hexValue x3 = some v3) (h4 : hexValue x4 = some v4)
    (Y : GoString) :
    unquoteAux (UnquoteState.high h) (92 :: 117 :: x1 :: x2 :: x3 :: x4 :: Y)
      = if 56320 ≤ ((v1 * 16 + v2) * 16 + v3) * 16 + v4
            ∧ ((v1 * 16 + v2) * 16 + v3) * 16 + v4 < 57344 then
          utf8Encode (65536 + (h - 55296) * 1024
            + ((((v1 * 16 + v2) * 16 + v3) * 16 + v4) - 56320))
            ++ unquoteAux UnquoteState.plain Y
        else
          replacementChar
            ++ unquoteAux UnquoteState.plain (92 :: 117 :: x1 :: x2 :: x3 :: x4 :: Y) := by
  rw [unquote_u x1 x2 x3 x4 v1 v2 v3 v4 h1 h2 h3 h4]
  simp only [unquoteAux_cons, unquoteStep, if_true, h1, h2, h3, h4, Option.getD_some]
  simp
  split <;> simp

/-- What `unquote` makes of an accepted body is valid UTF-8, also after a pending high
surrogate. -/
theorem valid_unquoteAux (n : Nat) :
    ∀ body : GoString, body.length ≤ n →
      strScan StrState.normal body = some StrState.normal →
      validUtf8Aux 0 (unquoteAux UnquoteState.plain body) = true ∧
        ∀ h, h < 56320 → validUtf8Aux 0 (unquoteAux (UnquoteState.high h) body) = true := by
  induction n with
  | zero =>
    intro body hlen _
    have : body = [] := List.length_eq_zero.1 (by omega)
    subst this
    exact ⟨rfl, fun h _ => rfl⟩
  | succ n ih =>
    intro body hlen hscan
    cases body with
    | nil => exact ⟨rfl, fun h _ => rfl⟩
    | cons c rest =>
      simp only [List.length_cons] at hlen
      rcases strScan_cases hscan with ⟨c92, c34, c32, hr⟩ |
          ⟨rfl, e, r, rfl, he, hesc, hr⟩ |
          ⟨rfl, x1, x2, x3, x4, r, v1, v2, v3, v4, rfl, e1, e2, e3, e4, hr⟩
      · -- a raw byte
        have p1 : validUtf8Aux 0 (unquoteAux UnquoteState.plain (c :: rest)) = true := by
          by_cases hc : c < 128
          · have e : unquoteAux UnquoteState.plain (c :: rest)
                = c :: unquoteAux UnquoteState.plain rest := by
              simp [unquoteAux_cons, unquoteStep, unquotePlain, c92, hc]
            rw [e, valid_ascii hc]
            exact (ih rest (by omega) hr).1
          · rcases utf8Len_cases c rest with h0 | ⟨hb, -⟩ |
                ⟨b1, r, rfl, hb, hb2, k1, k2, hX⟩ |
                ⟨b1, b2, r, rfl, hb, hb2, k1, k2, k3, k4, hX⟩ |
                ⟨b1, b2, b3, r, rfl, hb, hb2, k1, k2, k3, k4, k5, k6, hX⟩
            · have e : unquoteAux UnquoteState.plain (c :: rest)
                  = replacementChar ++ unquoteAux UnquoteState.plain rest := by
                simp [unquoteAux_cons, unquoteStep, unquotePlain, c92, hc, h0]
              rw [e, valid_replacement]
              exact (ih rest (by omega) hr).1
            · exact absurd hb hc
            · have hr2 : strScan StrState.normal r = some StrState.normal := by
                have a1 : ¬ b1 = 34 := by omega
                have a2 : ¬ b1 = 92 := by omega
                have a3 : ¬ b1 < 32 := by omega
                simpa [strScan, strStep, a1, a2, a3] using hr
              simp only [List.length_cons] at hlen
              rw [(unquote_raw (by omega : 128 ≤ c) _).1 b1 (hX _), valid_of_len (hX _)]
              simp only [validUtf8Aux]
              exact (ih r (by omega) hr2).1
            · have hr2 : strScan StrState.normal r = some StrState.normal := by
                have a1 : ¬ b1 = 34 := by omega
                have a2 : ¬ b1 = 92 := by omega
                have a3 : ¬ b1 < 32 := by omega
                have a4 : ¬ b2 = 34 := by omega
                have a5 : ¬ b2 = 92 := by omega
                have a6 : ¬ b2 < 32 := by omega
                simpa [strScan, strStep, a1, a2, a3, a4, a5, a6] using hr
              simp only [List.length_cons] at hlen
              rw [(unquote_raw (by omega : 128 ≤ c) _).2.1 b1 b2 (hX _), valid_of_len (hX _)]
              simp only [validUtf8Aux]
              exact (ih r (by omega) hr2).1
            · have hr2 : strScan StrState.normal r = some StrState.normal := by
                have a1 : ¬ b1 = 34 := by omega
                have a2 : ¬ b1 = 92 := by omega
                have a3 : ¬ b1 < 32 := by omega
                have a4 : ¬ b2 = 34 := by omega
                have a5 : ¬ b2 = 92 := by omega
                have a6 : ¬ b2 < 32 := by omega
                have a7 : ¬ b3 = 34 := by omega
                have a8 : ¬ b3 = 92 := by omega
                have a9 : ¬ b3 < 32 := by omega
                simpa [strScan, strStep, a1, a2, a3, a4, a5, a6, a7, a8, a9] using hr
              simp only [List.length_cons] at hlen
              rw [(unquote_raw (by omega : 128 ≤ c) _).2.2 b1 b2 b3 (hX _), valid_of_len (hX _)]
              simp only [validUtf8Aux]
              exact (ih r (by omega) hr2).1
        refine ⟨p1, fun h _ => ?_⟩
        rw [unquote_high_raw h c92, valid_replacement]
        exact p1
      · -- a two-byte escape
        simp only [List.length_cons] at hlen
        have p1 : validUtf8Aux 0 (unquoteAux UnquoteState.plain (92 :: e :: r)) = true := by
          rw [unquote_esc he, valid_ascii hesc]
          exact (ih r (by omega) hr).1
        refine ⟨p1, fun h _ => ?_⟩
        rw [unquote_high_esc h he, valid_replacement]
        exact p1
      · -- a six-byte escape
        simp only [List.length_cons] at hlen
        have b1 := hexValue_lt e1
        have b2 := hexValue_lt e2
        have b3 := hexValue_lt e3
        have b4 := hexValue_lt e4
        obtain ⟨i1, i2⟩ := ih r (by omega) hr
        have p1 : validUtf8Aux 0
            (unquoteAux UnquoteState.plain (92 :: 117 :: x1 :: x2 :: x3 :: x4 :: r)) = true := by
          rw [unquote_u x1 x2 x3 x4 v1 v2 v3 v4 e1 e2 e3 e4]
          unfold unquoteRune
          split
          · rename_i hh
            simp only [List.nil_append]
            exact i2 _ hh.2
          · split
            · simp only []
              rw [valid_replacement]
              exact i1
            · rename_i hh1 hh2
              simp only []
              rw [valid_encode (by omega)]
              exact i1
        refine ⟨p1, fun h hh => ?_⟩
        rw [unquote_high_u h x1 x2 x3 x4 v1 v2 v3 v4 e1 e2 e3 e4]
        split
        · rw [valid_encode (by omega)]
          exact i1
        · rw [valid_replacement]
          exact p1

/-- The string `unquote` makes of an accepted body is valid UTF-8. -/
theorem valid_unquote {body : GoString}
    (h : strScan StrState.normal body = some StrState.normal) :
    validUtf8 (unquote body) = true :=
  (valid_unquoteAux body.length body (le_refl _) h).1

/-! ### Lists of values -/

theorem canonicalItems_append (float : Float64Text) (a b : List JsonValue) :
    canonicalItems float (a ++ b) = (canonicalItems float a && canonicalItems float b) := by
  induction a with
  | nil => simp [canonicalItems]
  | cons x xs ih => simp [canonicalItems, ih, Bool.and_assoc]

theorem canonicalItems_reverse (float : Float64Text) (a : List JsonValue) :
    canonicalItems float a.reverse = canonicalItems float a := by
  induction a with
  | nil => rfl
  | cons x xs ih =>
    simp [canonicalItems_append, canonicalItems, ih, Bool.and_comm]

theorem depthItems_append (a b : List JsonValue) :
    depthItems (a ++ b) = max (depthItems a) (depthItems b) := by
  induction a with
  | nil => simp [depthItems]
  | cons x xs ih => simp [depthItems, ih, max_assoc]

theorem depthItems_reverse (a : List JsonValue) : depthItems a.reverse = depthItems a := by
  induction a with
  | nil => rfl
  | cons x xs ih =>
    simp [depthItems_append, depthItems, ih, max_comm]

theorem keyLess_total : ∀ a b : GoString, a ≠ b → keyLess a b = false → keyLess b a = true := by
  intro a
  induction a with
  | nil =>
    intro b hne h
    cases b with
    | nil => exact absurd rfl hne
    | cons y ys => simp [keyLess] at h
  | cons x xs ih =>
    intro b hne h
    cases b with
    | nil => simp [keyLess]
    | cons y ys =>
      simp only [keyLess] at h ⊢
      by_cases h1 : x < y
      · simp [h1] at h
      · by_cases h2 : y < x
        · simp [h2]
        · have e : x = y := by omega
          subst e
          simp only [h1, if_false] at h ⊢
          exact ih ys (fun e => hne (by rw [e])) h

theorem sortedKeys_cons_iff (k : GoString) (v : JsonValue) (fs : List (GoString × JsonValue)) :
    sortedKeys ((k, v) :: fs) = true ↔
      sortedKeys fs = true ∧ ∀ q ∈ fs, keyLess k q.1 = true := by
  constructor
  · exact sortedKeys_head k v fs
  · rintro ⟨h1, h2⟩
    cases fs with
    | nil => rfl
    | cons q qs =>
      obtain ⟨k2, v2⟩ := q
      simp only [sortedKeys, Bool.and_eq_true]
      refine ⟨h2 (k2, v2) (by simp), ?_⟩
      simpa [sortedKeys] using h1

theorem mem_setField {k : GoString} {v : JsonValue} {fs : List (GoString × JsonValue)}
    {q : GoString × JsonValue} (h : q ∈ setField k v fs) : q = (k, v) ∨ q ∈ fs := by
  induction fs with
  | nil =>
    simp only [setField, List.mem_singleton] at h
    exact Or.inl h
  | cons p ps ih =>
    obtain ⟨k2, v2⟩ := p
    simp only [setField] at h
    split at h
    · rcases List.mem_cons.1 h with h | h
      · exact Or.inl h
      · exact Or.inr (List.mem_cons_of_mem _ h)
    · split at h
      · rcases List.mem_cons.1 h with h | h
        · exact Or.inl h
        · exact Or.inr h
      · rcases List.mem_cons.1 h with h | h
        · exact Or.inr (by rw [h]; simp)
        · rcases ih h with h | h
          · exact Or.inl h
          · exact Or.inr (List.mem_cons_of_mem _ h)

theorem sortedKeys_setField (k : GoString) (v : JsonValue) (fs : List (GoString × JsonValue))
    (h : sortedKeys fs = true) : sortedKeys (setField k v fs) = true := by
  induction fs with
  | nil => rfl
  | cons p ps ih =>
    obtain ⟨k2, v2⟩ := p
    obtain ⟨h1, h2⟩ := (sortedKeys_cons_iff k2 v2 ps).1 h
    simp only [setField]
    split
    · rename_i e
      subst e
      exact (sortedKeys_cons_iff k v ps).2 ⟨h1, h2⟩
    · rename_i hne
      split
      · rename_i hlt
        refine (sortedKeys_cons_iff k v _).2 ⟨h, fun q hq => ?_⟩
        rcases List.mem_cons.1 hq with rfl | hq
        · exact hlt
        · exact keyLess_trans _ _ _ hlt (h2 q hq)
      · rename_i hlt
        have hgt : keyLess k2 k = true :=
          keyLess_total k k2 hne (by simpa using hlt)
        refine (sortedKeys_cons_iff k2 v2 _).2 ⟨ih h1, fun q hq => ?_⟩
        rcases mem_setField hq with rfl | hq
        · exact hgt
        · exact h2 q hq

theorem canonicalFields_setField (float : Float64Text) (k : GoString) (v : JsonValue)
    (fs : List (GoString × JsonValue)) (hk : validUtf8 k = true)
    (hv : canonical float v = true) (h : canonicalFields float fs = true) :
    canonicalFields float (setField k v fs) = true := by
  induction fs with
  | nil => simp [setField, canonicalFields, hk, hv]
  | cons p ps ih =>
    obtain ⟨k2, v2⟩ := p
    simp only [canonicalFields, Bool.and_eq_true] at h
    simp only [setField]
    split
    · simp [canonicalFields, hk, hv, h.2]
    · split
      · simp [canonicalFields, hk, hv, h.1, h.2]
      · simp [canonicalFields, h.1, ih h.2]

theorem depthFields_setField (k : GoString) (v : JsonValue)
    (fs : List (GoString × JsonValue)) :
    depthFields (setField k v fs) ≤ max (depthOf v) (depthFields fs) := by
  induction fs with
  | nil => simp [setField, depthFields]
  | cons p ps ih =>
    obtain ⟨k2, v2⟩ := p
    simp only [setField]
    split
    · simp only [depthFields]
      omega
    · split
      · simp only [depthFields]
        omega
      · simp only [depthFields]
        omega

/-! ### The invariant of the decoder -/

theorem strScan_snoc (body : GoString) (c : Nat) :
    ∀ st : StrState, strScan st (body ++ [c])
      = (strScan st body).bind (fun st2 => strStep st2 c) := by
  induction body with
  | nil =>
    intro st
    simp only [List.nil_append, strScan, Option.some_bind]
    cases strStep st c <;> rfl
  | cons x xs ih =>
    intro st
    simp only [List.cons_append, strScan]
    cases strStep st x with
    | none => rfl
    | some st2 => exact ih st2

theorem numberScan_snoc (bs : GoString) (c : Nat) :
    ∀ st : NumState, numberScan st (bs ++ [c])
      = (numberScan st bs).bind (fun st2 => st2.next c) := by
  induction bs with
  | nil =>
    intro st
    simp only [List.nil_append, numberScan, Option.some_bind]
    cases st.next c <;> rfl
  | cons x xs ih =>
    intro st
    simp only [List.cons_append, numberScan]
    cases st.next x with
    | none => rfl
    | some st2 => exact ih st2

theorem stackOK_length (float : Float64Text) {stack : List Frame} (h : stackOK float stack) :
    stack.length ≤ maxNestingDepth := by
  cases stack with
  | nil => simp [maxNestingDepth]
  | cons f rest => exact h.2.1

theorem emit_inv (float : Float64Text) {v : JsonValue} {stack : List Frame} {e : Decoder}
    (hs : stackOK float stack) (hv : canonical float v = true)
    (hd : depthOf v + stack.length ≤ maxNestingDepth) (h : emit v stack = some e) :
    Inv float e := by
  unfold emit at h
  split at h
  · cases h
    exact ⟨trivial, trivial, fun w hw => by
      cases hw
      exact ⟨hv, by simpa using hd⟩⟩
  · rename_i items rest
    cases h
    obtain ⟨⟨f1, f2⟩, f3, f4⟩ := hs
    simp only [List.length_cons] at hd
    refine ⟨trivial, ⟨⟨?_, ?_⟩, f3, f4⟩, fun w hw => by cases hw⟩
    · simp [canonicalItems, hv, f1]
    · simp only [depthItems]
      omega
  · rename_i fields k rest
    cases h
    obtain ⟨⟨f1, f2, f3, f4⟩, f5, f6⟩ := hs
    simp only [List.length_cons] at hd
    have hk : validUtf8 k = true := f4 k rfl
    refine ⟨trivial, ⟨⟨canonicalFields_setField float k v fields hk hv f1,
      sortedKeys_setField k v fields f2, ?_, fun k2 hk2 => by cases hk2⟩, f5, f6⟩,
      fun w hw => by cases hw⟩
    have := depthFields_setField k v fields
    omega
  · cases h

theorem beginValue_inv (float : Float64Text) {stack : List Frame} {c : Nat} {e : Decoder}
    (hs : stackOK float stack) (h : beginValue stack c = some e) : Inv float e := by
  unfold beginValue at h
  split at h
  · split at h
    · rename_i hd
      cases h
      exact ⟨trivial, ⟨⟨rfl, rfl, by simpa [depthFields] using hd, fun k hk => by cases hk⟩,
        hd, hs⟩, fun w hw => by cases hw⟩
    · cases h
  · split at h
    · split at h
      · rename_i hd
        cases h
        exact ⟨trivial, ⟨⟨rfl, by simpa [depthItems] using hd⟩, hd, hs⟩,
          fun w hw => by cases hw⟩
      · cases h
    · split at h
      · cases h
        exact ⟨rfl, hs, fun w hw => by cases hw⟩
      · split at h
        · rename_i hc
          cases h
          exact ⟨⟨c, [], NumState.neg, rfl, by simp [numberStart, hc], rfl⟩, hs,
            fun w hw => by cases hw⟩
        · split at h
          · rename_i hc1 hc
            cases h
            exact ⟨⟨c, [], NumState.zero, rfl, by simp [numberStart, hc], rfl⟩, hs,
              fun w hw => by cases hw⟩
          · split at h
            · rename_i hc1 hc2 hc
              cases h
              exact ⟨⟨c, [], NumState.int, rfl, by simp [numberStart, hc1, hc2, hc], rfl⟩, hs,
                fun w hw => by cases hw⟩
            · split at h
              · cases h
                exact ⟨⟨rfl, rfl⟩, hs, fun w hw => by cases hw⟩
              · split at h
                · cases h
                  exact ⟨⟨rfl, rfl⟩, hs, fun w hw => by cases hw⟩
                · split at h
                  · cases h
                    exact ⟨⟨rfl, rfl⟩, hs, fun w hw => by cases hw⟩
                  · cases h

theorem afterValue_inv (float : Float64Text) {stack : List Frame} {top : Option JsonValue}
    {c : Nat} {e : Decoder} (hs : stackOK float stack)
    (ht : ∀ v, top = some v → canonical float v = true ∧ depthOf v ≤ maxNestingDepth)
    (h : afterValue stack top c = some e) : Inv float e := by
  unfold afterValue at h
  split at h
  · cases h
    exact ⟨trivial, hs, ht⟩
  · split at h
    · cases h
    · rename_i items rest
      obtain ⟨⟨f1, f2⟩, f3, f4⟩ := hs
      split at h
      · cases h
        exact ⟨trivial, ⟨⟨f1, f2⟩, f3, f4⟩, fun w hw => by cases hw⟩
      · split at h
        · refine emit_inv float f4 ?_ ?_ h
          · simp only [canonical, canonicalItems_reverse]
            exact f1
          · simp only [depthOf, depthItems_reverse]
            omega
        · cases h
    · rename_i fields key rest
      obtain ⟨⟨f1, f2, f3, f5⟩, f6, f4⟩ := hs
      split at h
      · cases h
        exact ⟨trivial, ⟨⟨f1, f2, f3, f5⟩, f6, f4⟩, fun w hw => by cases hw⟩
      · split at h
        · refine emit_inv float f4 ?_ ?_ h
          · simp [canonical, f1, f2]
          · simp only [depthOf]
            omega
        · cases h

theorem endString_inv (float : Float64Text) {isKey : Bool} {raw : GoString}
    {stack : List Frame} {e : Decoder} (hs : stackOK float stack)
    (hr : strScan StrState.normal raw.reverse = some StrState.normal)
    (h : endString isKey raw stack = some e) : Inv float e := by
  unfold endString at h
  split at h
  · split at h
    · rename_i fields key rest
      cases h
      obtain ⟨⟨f1, f2, f3, -⟩, f6, f4⟩ := hs
      exact ⟨trivial, ⟨⟨f1, f2, f3, fun k hk => by
        cases hk
        exact valid_unquote hr⟩, f6, f4⟩, fun w hw => by cases hw⟩
    · cases h
  · exact emit_inv float hs (by simpa [canonical] using valid_unquote hr)
      (by simpa [depthOf] using stackOK_length float hs) h

/-- One step of the decoder keeps the invariant. -/
theorem step_inv (float : Float64Text) (hf : FloatStable float) {d e : Decoder} {c : Nat}
    (hi : Inv float d) (h : step float d c = some e) : Inv float e := by
  obtain ⟨hm, hs, ht⟩ := hi
  obtain ⟨mode, stack, top⟩ := d
  simp only at hm hs ht
  cases mode with
  | value =>
    simp only [step] at h
    split at h
    · cases h
      exact ⟨trivial, hs, ht⟩
    · exact beginValue_inv float hs h
  | valueOrEnd =>
    simp only [step] at h
    split at h
    · cases h
      exact ⟨trivial, hs, ht⟩
    · split at h
      · split at h
        · rename_i items rest
          exact emit_inv float hs.2.2 (by simp [canonical, canonicalItems]) (by
            have h1 := hs.2.1
            simp only [depthOf, depthItems]
            omega) h
        · cases h
      · exact beginValue_inv float hs h
  | keyOrEnd =>
    simp only [step] at h
    split at h
    · cases h
      exact ⟨trivial, hs, ht⟩
    · split at h
      · split at h
        · rename_i fields key rest
          exact emit_inv float hs.2.2 (by simp [canonical, canonicalFields, sortedKeys]) (by
            have h1 := hs.2.1
            simp only [depthOf, depthFields]
            omega) h
        · cases h
      · split at h
        · cases h
          exact ⟨rfl, hs, fun w hw => by cases hw⟩
        · cases h
  | key =>
    simp only [step] at h
    split at h
    · cases h
      exact ⟨trivial, hs, ht⟩
    · split at h
      · cases h
        exact ⟨rfl, hs, fun w hw => by cases hw⟩
      · cases h
  | colon =>
    simp only [step] at h
    split at h
    · cases h
      exact ⟨trivial, hs, ht⟩
    · split at h
      · cases h
        exact ⟨trivial, hs, fun w hw => by cases hw⟩
      · cases h
  | next =>
    simp only [step] at h
    exact afterValue_inv float hs ht h
  | string isKey raw =>
    simp only [step] at h
    simp only [modeOK] at hm
    split at h
    · exact endString_inv float hs hm h
    · rename_i h34
      split at h
      · rename_i h92
        cases h
        refine ⟨?_, hs, fun w hw => by cases hw⟩
        simp only [modeOK, List.reverse_cons, strScan_snoc, hm, Option.some_bind, strStep,
          if_neg h34, if_pos h92]
      · rename_i h92
        split at h
        · cases h
        · rename_i h32
          cases h
          refine ⟨?_, hs, fun w hw => by cases hw⟩
          simp only [modeOK, List.reverse_cons, strScan_snoc, hm, Option.some_bind, strStep,
            if_neg h34, if_neg h92, if_neg h32]
  | stringEsc isKey raw =>
    simp only [step] at h
    simp only [modeOK] at hm
    split at h
    · rename_i he
      cases h
      refine ⟨?_, hs, fun w hw => by cases hw⟩
      simp only [modeOK, List.reverse_cons, strScan_snoc, hm, Option.some_bind, strStep,
        if_pos he]
    · rename_i he
      split at h
      · rename_i hu
        cases h
        refine ⟨?_, hs, fun w hw => by cases hw⟩
        simp only [modeOK, List.reverse_cons, strScan_snoc, hm, Option.some_bind, strStep,
          if_neg he, if_pos hu]
      · cases h
  | stringHex isKey raw left =>
    simp only [step] at h
    simp only [modeOK] at hm
    cases hx : hexValue c with
    | none => simp [hx] at h
    | some v =>
      simp only [hx] at h
      split at h
      · rename_i hl
        cases h
        refine ⟨?_, hs, fun w hw => by cases hw⟩
        simp only [modeOK, List.reverse_cons, strScan_snoc, hm, Option.some_bind, strStep, hx,
          if_pos hl]
      · rename_i hl
        cases h
        refine ⟨?_, hs, fun w hw => by cases hw⟩
        simp only [modeOK, List.reverse_cons, strScan_snoc, hm, Option.some_bind, strStep, hx,
          if_neg hl]
  | number st lit =>
    simp only [step] at h
    simp only [modeOK] at hm
    obtain ⟨c0, bs, st0, hlit, hstart, hscan⟩ := hm
    cases hn : st.next c with
    | some st2 =>
      simp only [hn] at h
      cases h
      refine ⟨⟨c0, bs ++ [c], st0, ?_, hstart, ?_⟩, hs, fun w hw => by cases hw⟩
      · simp [hlit]
      · rw [numberScan_snoc, hscan]
        exact hn
    | none =>
      simp only [hn] at h
      split at h
      · rename_i hfin
        simp only [emitNumber] at h
        cases hfl : float lit.reverse with
        | none => simp [hfl] at h
        | some t =>
          simp only [hfl] at h
          cases hem : emit (JsonValue.number t) stack with
          | none => simp [hem] at h
          | some d2 =>
            simp only [hem] at h
            have hnum : isNumberLiteral lit.reverse = true := by
              rw [hlit]
              simp [isNumberLiteral, hstart, hscan, hfin]
            obtain ⟨q1, q2⟩ := hf lit.reverse t hnum hfl
            obtain ⟨-, i2, i3⟩ := emit_inv float hs
              (by simp [canonical, q1, q2] : canonical float (JsonValue.number t) = true)
              (by simpa [depthOf] using stackOK_length float hs) hem
            exact afterValue_inv float i2 i3 h
      · cases h
  | literal rest v =>
    simp only [step] at h
    simp only [modeOK] at hm
    split at h
    · cases h
    · split at h
      · exact emit_inv float hs hm.1 (by
          rw [hm.2]
          simpa using stackOK_length float hs) h
      · cases h
    · split at h
      · cases h
        exact ⟨hm, hs, fun w hw => by cases hw⟩
      · cases h

theorem run_inv (float : Float64Text) (hf : FloatStable float) (data : GoString) :
    ∀ d e : Decoder, Inv float d → run float d data = some e → Inv float e := by
  induction data with
  | nil =>
    intro d e hi h
    simp only [run, Option.some.injEq] at h
    subst h
    exact hi
  | cons c cs ih =>
    intro d e hi h
    simp only [run] at h
    cases hs : step float d c with
    | none => simp [hs] at h
    | some d2 =>
      simp only [hs] at h
      exact ih d2 e (step_inv float hf hi hs) h

/-- Every value the decoder produces is canonical and at most `maxNestingDepth` deep. -/
theorem decodeValue_canonical (float : Float64Text) (hf : FloatStable float)
    {data : GoString} {v : JsonValue} (h : decodeValue float data = some v) :
    canonical float v = true ∧ depthOf v ≤ maxNestingDepth := by
  unfold decodeValue at h
  cases hr : run float ⟨Mode.value, [], none⟩ data with
  | none => simp [hr] at h
  | some d =>
    simp only [hr] at h
    have hi : Inv float d :=
      run_inv float hf data ⟨Mode.value, [], none⟩ d
        ⟨trivial, trivial, fun w hw => by cases hw⟩ hr
    obtain ⟨hm, hs, ht⟩ := hi
    obtain ⟨mode, stack, top⟩ := d
    simp only at hm hs ht
    unfold finish at h
    split at h
    · rename_i e1 e2
      simp only at e1 e2 h
      exact ht v h
    · rename_i st lit e1 e2
      simp only at e1 e2
      subst e1 e2
      simp only [modeOK] at hm
      obtain ⟨c0, bs, st0, hlit, hstart, hscan⟩ := hm
      split at h
      · rename_i hfin
        simp only [emitNumber] at h
        cases hfl : float lit.reverse with
        | none => simp [hfl] at h
        | some t =>
          simp only [hfl, emit] at h
          cases h
          have hnum : isNumberLiteral lit.reverse = true := by
            rw [hlit]
            simp [isNumberLiteral, hstart, hscan, hfin]
          obtain ⟨q1, q2⟩ := hf lit.reverse t hnum hfl
          exact ⟨by simp [canonical, q1, q2], by simp [depthOf]⟩
      · cases h
    · cases h

/-! ## Reading back the printed text -/

/-- The decoder reads the indented text of a canonical value, followed by white space,
back to that value (a number apart, whose end the white space would have to mark). -/
theorem decodeValue_encodeValue (float : Float64Text) (v : JsonValue) (ws : GoString)
    (hc : canonical float v = true) (hd : depthOf v ≤ maxNestingDepth)
    (hn : ∀ t, v ≠ JsonValue.number t) (hw : ∀ c ∈ ws, isSpace c = true) :
    decodeValue float (encodeValue [] (str "  ") 0 v ++ ws) = some v := by
  unfold decodeValue
  rw [(run_value float v [] ws 0 ⟨Mode.next, [], some v⟩ hc (by simpa using hd) rfl
    (fun ⟨t, ht⟩ => absurd ht (hn t))).1]
  have h := (run_space float [] (some v) ws [] hw).2.2.2.2
  rw [List.append_nil] at h
  rw [h]
  rfl

/-- The text `MarshalIndent` writes for a map that `Unmarshal` returned is read back by
`Unmarshal` to the same map, also when white space follows it. -/
theorem Unmarshal_MarshalIndent (float : Float64Text) (hf : FloatStable float)
    {data : GoString} {m : GoMap} (h : Unmarshal float data = some m) (ws : GoString)
    (hw : ∀ c ∈ ws, isSpace c = true) :
    ∃ json, MarshalIndent m [] (str "  ") = some json ∧
      Unmarshal float (json ++ ws) = some m := by
  unfold Unmarshal at h
  cases hv : decodeValue float data with
  | none => simp [hv] at h
  | some v =>
    obtain ⟨hc, hd⟩ := decodeValue_canonical float hf hv
    cases v with
    | object fields =>
      simp only [hv, Option.some.injEq] at h
      subst h
      refine ⟨_, rfl, ?_⟩
      unfold Unmarshal
      rw [decodeValue_encodeValue float _ ws hc hd (fun t ht => by cases ht) hw]
    | null =>
      simp only [hv, Option.some.injEq] at h
      subst h
      refine ⟨_, rfl, ?_⟩
      unfold Unmarshal
      have e : str "null" = encodeValue [] (str "  ") 0 JsonValue.null := rfl
      rw [e, decodeValue_encodeValue float _ ws hc hd (fun t ht => by cases ht) hw]
    | bool b => simp [hv] at h
    | number t => simp [hv] at h
    | string s => simp [hv] at h
    | array xs => simp [hv] at h

/-! ## The lines of the printed object -/

theorem intercalate_cons_cons (sep x y : GoString) (xs : List GoString) :
    sep.intercalate (x :: y :: xs) = x ++ (sep ++ sep.intercalate (y :: xs)) := by
  simp [List.intercalate, List.intersperse]

theorem encodeFields_lines (fs : List (GoString × JsonValue)) (k : GoString) (v : JsonValue)
    (T : GoString) :
    quote k ++ 58 :: 32 :: (encodeValue [] (str "  ") 1 v ++ (encodeFields [] (str "  ") 1 fs ++ T))
      = (str ",\n  ").intercalate (((k, v) :: fs).map
          (fun kv => quote kv.1 ++ (str ": " ++ encodeValue [] (str "  ") 1 kv.2))) ++ T := by
  induction fs generalizing k v with
  | nil => simp [encodeFields, List.intercalate, List.intersperse, str]
  | cons f fs ih =>
    obtain ⟨k2, v2⟩ := f
    have e : newline [] (str "  ") 1 = [10, 32, 32] := rfl
    have ih2 := ih k2 v2
    rw [List.map_cons] at ih2
    rw [enc_fields_cons, List.map_cons, List.map_cons, intercalate_cons_cons, e, ih2]
    simp [str]

/-- The text of a top-level object that is not empty: an opening brace, one line per field
that starts with two spaces and holds the quoted key, a colon, a space and the value, the
lines separated by commas, and a closing brace on a line of its own. -/
theorem encodeValue_lines (f : GoString × JsonValue) (fs : List (GoString × JsonValue)) :
    encodeValue [] (str "  ") 0 (JsonValue.object (f :: fs))
      = str "\x7b\n  " ++ (str ",\n  ").intercalate ((f :: fs).map
          (fun kv => quote kv.1 ++ (str ": " ++ encodeValue [] (str "  ") 1 kv.2)))
        ++ str "\n\x7d" := by
  obtain ⟨k, v⟩ := f
  have h := enc_object_cons 0 k v fs []
  rw [List.append_nil] at h
  rw [h]
  have e : newline [] (str "  ") (0 + 1) = [10, 32, 32] := rfl
  have e0 : newline [] (str "  ") 0 = [10] := rfl
  rw [e, e0, Nat.zero_add, encodeFields_lines]
  simp [str]

/-- A string of printable ASCII without the quote, the backslash, `<`, `>` and `&` is
written between two quotes as it stands. -/
theorem quote_plain (s : GoString)
    (h : ∀ b ∈ s, 32 ≤ b ∧ b < 127 ∧ b ≠ 34 ∧ b ≠ 92 ∧ b ≠ 60 ∧ b ≠ 62 ∧ b ≠ 38) :
    quote s = 34 :: (s ++ [34]) := by
  have e : quoteAux 0 s = s := by
    induction s with
    | nil => rfl
    | cons b rest ih =>
      have hb := h b (List.mem_cons_self b rest)
      have hq : quoteByte b = [b] := by
        unfold quoteByte
        simp only [hb.2.2.1, hb.2.2.2.1, hb.2.2.2.2.1, hb.2.2.2.2.2.1, hb.2.2.2.2.2.2, if_false,
          or_false]
        have h8 : b ≠ 8 := by omega
        have h12 : b ≠ 12 := by omega
        have h10 : b ≠ 10 := by omega
        have h13 : b ≠ 13 := by omega
        have h9 : b ≠ 9 := by omega
        have h32 : ¬ b < 32 := by omega
        simp only [h8, h12, h10, h13, h9, h32, if_false]
      have h226 : b ≠ 226 := by omega
      simp only [quoteAux, h226, false_and, if_false, hq]
      rw [ih (fun c hc => h c (List.mem_cons_of_mem b hc))]
      rfl
  simp only [quote, e]

theorem Unmarshal_object (float : Float64Text) {data : GoString}
    {fields : List (GoString × JsonValue)} (h : Unmarshal float data = some (some fields)) :
    decodeValue float data = some (JsonValue.object fields) := by
  unfold Unmarshal at h
  cases hv : decodeValue float data with
  | none => simp [hv] at h
  | some v =>
    cases v <;> simp [hv] at h
    rw [h]

/-- The stand-in `literalFloat` has the property `FloatStable`. -/
theorem FloatStable_literalFloat : FloatStable literalFloat := by
  intro lit t h1 h2
  simp only [literalFloat, Option.some.injEq] at h2
  subst h2
  exact ⟨h1, rfl⟩

/-! ## The token decoder: claims -/

/-- C13. Segment count: when the line is non-empty after trimming and does not split on `.`
into exactly three segments (it has fewer or more than two `.`), the decoder writes nothing
to standard output and one diagnostic to standard error, the line "Error: Invalid JWT
token format (expected 3 parts, got N)" with `N` the number of segments found. -/
theorem main_segment_count (float : Float64Text) (text : GoString)
    (hne : TrimSpace text ≠ []) (h : (Split (TrimSpace text) 46).length ≠ 3) :
    main float (some text)
        = ⟨[], [Diag.invalidFormat (Split (TrimSpace text) 46).length], false⟩ ∧
      (Split (TrimSpace text) 46).length = (TrimSpace text).count 46 + 1 ∧
      (TrimSpace text).count 46 ≠ 2 ∧
      Diag.text (Diag.invalidFormat (Split (TrimSpace text) 46).length)
        = str "Error: Invalid JWT token format (expected 3 parts, got "
            ++ fmtNat (Split (TrimSpace text) 46).length ++ str ")\n" := by
  refine ⟨main_not_three float hne h, Split_length _ _, ?_, rfl⟩
  intro hc
  apply h
  rw [Split_length, hc]

/-- Witness of C13: the line `" a.b "` has two segments and `"a.b.c.d"` has four. -/
theorem main_segment_count_witness :
    main literalFloat (some (str " a.b ")) = ⟨[], [Diag.invalidFormat 2], false⟩ ∧
      main literalFloat (some (str "a.b.c.d")) = ⟨[], [Diag.invalidFormat 4], false⟩ :=
  ⟨(main_segment_count literalFloat (str " a.b ") (by decide) (by decide)).1,
    (main_segment_count literalFloat (str "a.b.c.d") (by decide) (by decide)).1⟩

/-- C14, as the code behaves: for a three-segment token whose header segment is valid
unpadded base64url and whose payload segment is not, the decoder writes the diagnostic
"Error decoding payload" to standard error and nothing to standard output. -/
theorem main_payload_decode_failure (float : Float64Text) (text p0 p1 p2 headerBytes : GoString)
    (hs : Split (TrimSpace text) 46 = [p0, p1, p2])
    (h0 : DecodeString p0 = some headerBytes) (h1 : DecodeString p1 = none) :
    main float (some text) = ⟨[], [Diag.decodingPayload], false⟩ := by
  rw [main_three float hs, h0, h1]
  rfl

/-- Witness of the amended C14: header `eyJhbGciOiJub25lIn0`, payload `!`. -/
theorem main_payload_decode_failure_witness :
    main literalFloat (some (str "eyJhbGciOiJub25lIn0.!.sig"))
      = ⟨[], [Diag.decodingPayload], false⟩ :=
  main_payload_decode_failure literalFloat (str "eyJhbGciOiJub25lIn0.!.sig")
    (str "eyJhbGciOiJub25lIn0") (str "!") (str "sig") (str "\x7b\"alg\":\"none\"\x7d")
    (by decide) (by decide) (by decide)

/-- C14, as stated, fails: an invalid payload segment does not always give the payload
diagnostic. In the token `!.!.sig` the payload `!` is not base64url, and the only
diagnostic names the header. -/
theorem payload_error_hidden_by_header :
    (¬ ∀ (float : Float64Text) (text p0 p1 p2 : GoString),
        Split (TrimSpace text) 46 = [p0, p1, p2] → DecodeString p1 = none →
          main float (some text) = ⟨[], [Diag.decodingPayload], false⟩) ∧
      Split (TrimSpace (str "!.!.sig")) 46 = [str "!", str "!", str "sig"] ∧
      DecodeString (str "!") = none ∧
      main literalFloat (some (str "!.!.sig")) = ⟨[], [Diag.decodingHeader], false⟩ := by
  refine ⟨fun h => ?_, by decide, by decide, by decide⟩
  have := h literalFloat (str "!.!.sig") (str "!") (str "!") (str "sig") (by decide) (by decide)
  revert this
  decide

/-- C15. The decoder stops at the header: for a three-segment token whose header segment is
not valid unpadded base64url, the only diagnostic is "Error decoding header", standard
output is empty, and the outcome is the same for every other token with this header
segment, whatever its payload and signature segments are. -/
theorem main_stops_at_header (float : Float64Text) (text p0 p1 p2 : GoString)
    (hs : Split (TrimSpace text) 46 = [p0, p1, p2]) (h0 : DecodeString p0 = none) :
    main float (some text) = ⟨[], [Diag.decodingHeader], false⟩ ∧
      ∀ text2 q1 q2 : GoString, Split (TrimSpace text2) 46 = [p0, q1, q2] →
        main float (some text2) = main float (some text) := by
  have key : ∀ t q1 q2 : GoString, Split (TrimSpace t) 46 = [p0, q1, q2] →
      main float (some t) = ⟨[], [Diag.decodingHeader], false⟩ := by
    intro t q1 q2 ht
    rw [main_three float ht, h0]
    rfl
  exact ⟨key text p1 p2 hs, fun t q1 q2 ht => (key t q1 q2 ht).trans (key text p1 p2 hs).symm⟩

/-- Witness of C15: header `!` with a valid and with a malformed payload segment. -/
theorem main_stops_at_header_witness :
    main literalFloat (some (str "!.eyJzdWIiOiIxMjMifQ.sig"))
        = ⟨[], [Diag.decodingHeader], false⟩ ∧
      main literalFloat (some (str "!.?.x")) = main literalFloat (some (str "!.eyJzdWIiOiIxMjMifQ.sig")) :=
  ⟨(main_stops_at_header literalFloat (str "!.eyJzdWIiOiIxMjMifQ.sig") (str "!")
      (str "eyJzdWIiOiIxMjMifQ") (str "sig") (by decide) (by decide)).1,
    (main_stops_at_header literalFloat (str "!.eyJzdWIiOiIxMjMifQ.sig") (str "!")
      (str "eyJzdWIiOiIxMjMifQ") (str "sig") (by decide) (by decide)).2 (str "!.?.x") (str "?")
      (str "x") (by decide)⟩

/-- C16, as the code behaves: for a three-segment token whose header and payload segments
both base64url-decode, if `json.Unmarshal` refuses the header bytes the decoder writes
"Error parsing header JSON" to standard error; if it accepts the header bytes and refuses
the payload bytes, it writes "Error parsing payload JSON"; in both cases nothing is
written to standard output. `json.Unmarshal` accepts exactly the bytes that decode to a
JSON object or to the JSON value `null`: it refuses bytes that do not decode at all (text
that is not JSON, or JSON holding a number out of the `float64` range) and bytes that
decode to an array, a string, a number or a boolean. -/
theorem main_requires_object_or_null (float : Float64Text)
    (text p0 p1 p2 headerBytes payloadBytes : GoString)
    (hs : Split (TrimSpace text) 46 = [p0, p1, p2])
    (h0 : DecodeString p0 = some headerBytes) (h1 : DecodeString p1 = some payloadBytes) :
    (Unmarshal float headerBytes = none →
      main float (some text) = ⟨[], [Diag.parsingHeader], false⟩) ∧
    (Unmarshal float headerBytes ≠ none → Unmarshal float payloadBytes = none →
      main float (some text) = ⟨[], [Diag.parsingPayload], false⟩) ∧
    (∀ data : GoString, Unmarshal float data ≠ none ↔
      ((∃ fields, decodeValue float data = some (JsonValue.object fields)) ∨
        decodeValue float data = some JsonValue.null)) ∧
    (∀ data : GoString, Unmarshal float data = none ↔
      (decodeValue float data = none ∨
        (∃ items, decodeValue float data = some (JsonValue.array items)) ∨
        (∃ s, decodeValue float data = some (JsonValue.string s)) ∨
        (∃ t, decodeValue float data = some (JsonValue.number t)) ∨
        (∃ b, decodeValue float data = some (JsonValue.bool b)))) := by
  rw [main_decoded float hs h0 h1]
  refine ⟨fun a => ?_, fun a b => ?_, fun data => ?_, fun data => ?_⟩
  · rw [a]
    rfl
  · obtain ⟨m, hm⟩ := Option.ne_none_iff_exists'.1 a
    rw [hm, b]
    rfl
  · unfold Unmarshal
    cases h : decodeValue float data with
    | none => simp
    | some v => cases v <;> simp
  · unfold Unmarshal
    cases h : decodeValue float data with
    | none => simp
    | some v => cases v <;> simp

/-- Witness of the amended C16: the header `{"alg":"none"}` with the payload `[1]`
(segment `WzFd`) names the payload; the header `"x"` (segment `Ingi`) names the header;
and so does the header `{"a":1e999}` (segment `eyJhIjoxZTk5OX0`), a JSON object whose
number is out of range. -/
theorem main_requires_object_or_null_witness :
    main literalFloat (some (str "eyJhbGciOiJub25lIn0.WzFd.sig"))
        = ⟨[], [Diag.parsingPayload], false⟩ ∧
      main literalFloat (some (str "Ingi.WzFd.sig")) = ⟨[], [Diag.parsingHeader], false⟩ ∧
      main boundedFloat (some (str "eyJhIjoxZTk5OX0.WzFd.sig"))
        = ⟨[], [Diag.parsingHeader], false⟩ :=
  ⟨(main_requires_object_or_null literalFloat (str "eyJhbGciOiJub25lIn0.WzFd.sig")
      (str "eyJhbGciOiJub25lIn0") (str "WzFd") (str "sig") (str "\x7b\"alg\":\"none\"\x7d")
      (str "[1]") (by decide) (by decide) (by decide)).2.1
      (by
        rw [show Unmarshal literalFloat (str "\x7b\"alg\":\"none\"\x7d")
          = some (some [(str "alg", JsonValue.string (str "none"))]) from rfl]
        simp)
      rfl,
    (main_requires_object_or_null literalFloat (str "Ingi.WzFd.sig")
      (str "Ingi") (str "WzFd") (str "sig") (str "\"x\"")
      (str "[1]") (by decide) (by decide) (by decide)).1 rfl,
    (main_requires_object_or_null boundedFloat (str "eyJhIjoxZTk5OX0.WzFd.sig")
      (str "eyJhIjoxZTk5OX0") (str "WzFd") (str "sig") (str "\x7b\"a\":1e999\x7d")
      (str "[1]") (by decide) (by decide) (by decide)).1 rfl⟩

/-- C16, as stated, fails: a segment that is the JSON value `null` is not a JSON object,
yet it is accepted. With header `{"alg":"none"}` and payload `null` (segment `bnVsbA`)
the decoder writes no diagnostic and prints `null`. -/
theorem null_payload_accepted :
    (¬ ∀ (float : Float64Text) (text p0 p1 p2 headerBytes payloadBytes : GoString),
        Split (TrimSpace text) 46 = [p0, p1, p2] → DecodeString p0 = some headerBytes →
        DecodeString p1 = some payloadBytes →
        ((¬ ∃ fields, decodeValue float headerBytes = some (JsonValue.object fields)) ∨
          (¬ ∃ fields, decodeValue float payloadBytes = some (JsonValue.object fields))) →
        (main float (some text)).stdout = [] ∧
          ((main float (some text)).stderr = [Diag.parsingHeader] ∨
            (main float (some text)).stderr = [Diag.parsingPayload])) ∧
      DecodeString (str "bnVsbA") = some (str "null") ∧
      decodeValue literalFloat (str "null") = some JsonValue.null ∧
      main literalFloat (some (str "eyJhbGciOiJub25lIn0.bnVsbA.sig"))
        = ⟨str "null\n", [], false⟩ := by
  refine ⟨fun h => ?_, by decide, rfl, by decide⟩
  have hnull : ¬ ∃ fields, decodeValue literalFloat (str "null")
      = some (JsonValue.object fields) := by
    rw [show decodeValue literalFloat (str "null") = some JsonValue.null from rfl]
    simp
  have := (h literalFloat (str "eyJhbGciOiJub25lIn0.bnVsbA.sig") (str "eyJhbGciOiJub25lIn0")
    (str "bnVsbA") (str "sig") (str "\x7b\"alg\":\"none\"\x7d") (str "null") (by decide)
    (by decide) (by decide) (Or.inr hnull)).1
  revert this
  decide

/-- C17. Only the payload is emitted: two three-segment tokens with the same payload
segment, whose header segments both decode and parse, give the same output whatever their
header and signature segments are. When the payload segment decodes and parses, standard
error is empty and standard output is the JSON of the payload indented by two spaces and
followed by a newline: `null` for the `nil` map, a pair of braces for the empty object, else
an opening brace, one line per field that starts with two spaces and holds the quoted key,
a colon, a space and the value, the lines separated by commas, and the closing brace on a
line of its own. When the floating-point parameter writes numbers as `strconv` does (what
it writes reads back to the same text), the keys of the printed object increase strictly in
byte order, and what is printed parses back to exactly the payload, so no field and no byte
of a string is lost or changed. A key or string of printable ASCII without the quote, the
backslash, `<`, `>` and `&` is written between two quotes as it stands. -/
theorem main_only_payload (float : Float64Text)
    (text1 text2 h1 h2 p s1 s2 hb1 hb2 : GoString) (m1 m2 : GoMap)
    (hs1 : Split (TrimSpace text1) 46 = [h1, p, s1])
    (hs2 : Split (TrimSpace text2) 46 = [h2, p, s2])
    (hd1 : DecodeString h1 = some hb1) (hd2 : DecodeString h2 = some hb2)
    (hu1 : Unmarshal float hb1 = some m1) (hu2 : Unmarshal float hb2 = some m2) :
    main float (some text1) = main float (some text2) ∧
      (∀ payloadBytes payload, DecodeString p = some payloadBytes →
        Unmarshal float payloadBytes = some payload →
        ∃ json, MarshalIndent payload [] (str "  ") = some json ∧
          main float (some text1) = ⟨json ++ str "\n", [], false⟩ ∧
          (payload = none → json = str "null") ∧
          (payload = some [] → json = str "\x7b\x7d") ∧
          (∀ f fs, payload = some (f :: fs) →
            json = str "\x7b\n  " ++ (str ",\n  ").intercalate ((f :: fs).map
                (fun kv => quote kv.1 ++ (str ": " ++ encodeValue [] (str "  ") 1 kv.2)))
              ++ str "\n\x7d") ∧
          (FloatStable float →
            (∀ fields, payload = some fields → sortedKeys fields = true) ∧
            Unmarshal float json = some payload ∧
            Unmarshal float (json ++ str "\n") = some payload)) ∧
      (∀ s : GoString,
        (∀ b ∈ s, 32 ≤ b ∧ b < 127 ∧ b ≠ 34 ∧ b ≠ 92 ∧ b ≠ 60 ∧ b ≠ 62 ∧ b ≠ 38) →
          quote s = 34 :: (s ++ [34])) := by
  rw [main_three float hs1, main_three float hs2, hd1, hd2]
  simp only [hu1, hu2]
  refine ⟨trivial, fun pb payload hpb hpay => ?_, quote_plain⟩
  obtain ⟨json, hj⟩ := MarshalIndent_eq payload [] (str "  ")
  refine ⟨json, hj, ?_, ?_, ?_, ?_, ?_⟩
  · rw [hpb]
    simp only [hpay, hj]
    rfl
  · intro e
    subst e
    exact (Option.some.inj hj).symm
  · intro e
    subst e
    exact (Option.some.inj hj).symm
  · intro f fs e
    subst e
    rw [← Option.some.inj hj]
    exact encodeValue_lines f fs
  · intro hf
    refine ⟨?_, ?_, ?_⟩
    · intro fields e
      subst e
      have hc := (decodeValue_canonical float hf (Unmarshal_object float hpay)).1
      simp only [canonical, Bool.and_eq_true] at hc
      exact hc.1
    · obtain ⟨j, hj2, hr⟩ := Unmarshal_MarshalIndent float hf hpay [] (by simp)
      rw [hj] at hj2
      cases hj2
      simpa using hr
    · obtain ⟨j, hj2, hr⟩ := Unmarshal_MarshalIndent float hf hpay (str "\n") (by
        intro c hc
        simp only [str] at hc
        simp at hc
        subst hc
        rfl)
      rw [hj] at hj2
      cases hj2
      exact hr

set_option maxRecDepth 100000 in
/-- Witness of C17: header `{"alg":"none"}` and payload `{"sub":"123"}` print only the
object with the key `sub`, and so does the same payload behind the header `{}` (segment
`e30`) with another signature. A payload with nested arrays and objects, a repeated key,
escapes and keys out of order is printed with its keys sorted, the last value of the
repeated key, `<`, `&`, `>` as `\u` escapes, the quote and the line feed escaped, and `é`
and an emoji, written as `\u` escapes in the payload, as UTF-8. A payload with blanks
between its tokens is printed without them. The standard output of the first run parses
back to the payload. -/
theorem main_only_payload_witness :
    main literalFloat (some (str "eyJhbGciOiJub25lIn0.eyJzdWIiOiIxMjMifQ.sig"))
        = ⟨str "\x7b\n  \"sub\": \"123\"\n\x7d\n", [], false⟩ ∧
      main literalFloat (some (str "eyJhbGciOiJub25lIn0.eyJzdWIiOiIxMjMifQ.sig"))
        = main literalFloat (some (str "e30.eyJzdWIiOiIxMjMifQ.")) ∧
      main literalFloat (some (str "eyJhbGciOiJub25lIn0.eyJiIjpbdHJ1ZSxudWxsLHsieiI6IjwmPiIsInkiOltdfV0sImEiOiJ4IiwiYyI6InFcIlxuXHUwMGU5XHVkODNkXHVkZTAwXC8iLCJiMiI6e30sImEiOmZhbHNlfQ.sig"))
        = ⟨str "\x7b\n  \"a\": false,\n  \"b\": [\n    true,\n    null,\n    \x7b\n      \"y\": [],\n      \"z\": \"\\u003c\\u0026\\u003e\"\n    \x7d\n  ],\n  \"b2\": \x7b\x7d,\n  \"c\": \"q\\\"\\n"
            ++ [195, 169, 240, 159, 152, 128] ++ str "/\"\n\x7d\n", [], false⟩ ∧
      main literalFloat (some (str "e30.IHsgInoiIDogbnVsbCAsICJhIiA6ICJ4XHR5IiB9IA."))
        = ⟨str "\x7b\n  \"a\": \"x\\ty\",\n  \"z\": null\n\x7d\n", [], false⟩ ∧
      Unmarshal literalFloat
          (main literalFloat (some (str "eyJhbGciOiJub25lIn0.eyJzdWIiOiIxMjMifQ.sig"))).stdout
        = some (some [(str "sub", JsonValue.string (str "123"))]) := by
  have h := main_only_payload literalFloat (str "eyJhbGciOiJub25lIn0.eyJzdWIiOiIxMjMifQ.sig")
    (str "e30.eyJzdWIiOiIxMjMifQ.") (str "eyJhbGciOiJub25lIn0") (str "e30")
    (str "eyJzdWIiOiIxMjMifQ") (str "sig") (str "") (str "\x7b\"alg\":\"none\"\x7d")
    (str "\x7b\x7d") (some [(str "alg", JsonValue.string (str "none"))]) (some [])
    (by decide) (by decide) (by decide) (by decide) rfl rfl
  refine ⟨by decide, h.1, by decide, by decide, ?_⟩
  obtain ⟨json, -, hm, -, -, -, hr⟩ := h.2.1 (str "\x7b\"sub\":\"123\"\x7d")
    (some [(str "sub", JsonValue.string (str "123"))]) (by decide) rfl
  rw [hm]
  exact (hr FloatStable_literalFloat).2.2

/-- C18. Empty input is a silent no-op: when the line read from standard input is empty
after trimming white space, the decoder writes nothing to standard output and nothing to
standard error. -/
theorem main_empty_line_silent (float : Float64Text) (text : GoString)
    (h : TrimSpace text = []) :
    (main float (some text)).stdout = [] ∧ (main float (some text)).stderr = [] ∧
      (main float (some text)).panicked = false := by
  rw [main_empty float h]
  exact ⟨rfl, rfl, rfl⟩

/-- Witness of C18: the empty line and a line of blanks and a tab. -/
theorem main_empty_line_silent_witness :
    main literalFloat (some (str "")) = ⟨[], [], false⟩ ∧
      (main literalFloat (some (str "  \t "))).stdout = [] ∧
      (main literalFloat (some (str "  \t "))).stderr = [] :=
  ⟨by decide, (main_empty_line_silent literalFloat (str "  \t ") (by decide)).1,
    (main_empty_line_silent literalFloat (str "  \t ") (by decide)).2.1⟩

/-- C19. The token decoder never crashes: on every input the run ends without a panic
(once the segment count is three, the segments 0 and 1 exist) in exactly one of three
outcomes: nothing written at all; exactly one diagnostic on standard error with empty
standard output; or the indented JSON of the payload and a newline on standard output
with empty standard error. -/
theorem main_never_crashes (float : Float64Text) (scan : Option GoString) :
    (main float scan).panicked = false ∧
    (∀ parts : List GoString, parts.length = 3 → parts[0]? ≠ none ∧ parts[1]? ≠ none) ∧
    (((main float scan).stdout = [] ∧ (main float scan).stderr = []) ∨
      ((main float scan).stdout = [] ∧ ∃ d, (main float scan).stderr = [d]) ∨
      ((main float scan).stderr = [] ∧
        ∃ text p0 p1 p2 payloadBytes payload json,
          scan = some text ∧ Split (TrimSpace text) 46 = [p0, p1, p2] ∧
          DecodeString p1 = some payloadBytes ∧ Unmarshal float payloadBytes = some payload ∧
          MarshalIndent payload [] (str "  ") = some json ∧
          (main float scan).stdout = json ++ str "\n")) ∧
    ¬ (((main float scan).stdout = [] ∧ (main float scan).stderr = []) ∧
        ∃ d, (main float scan).stderr = [d]) ∧
    ¬ ((main float scan).stdout = [] ∧ ∃ json, (main float scan).stdout = json ++ str "\n") := by
  have hidx : ∀ parts : List GoString, parts.length = 3 →
      parts[0]? ≠ none ∧ parts[1]? ≠ none := by
    intro parts hlen
    obtain ⟨a, b, c, rfl⟩ := three_of_length hlen
    simp
  have hex1 : ¬ (((main float scan).stdout = [] ∧ (main float scan).stderr = []) ∧
      ∃ d, (main float scan).stderr = [d]) := by
    rintro ⟨⟨-, h1⟩, d, h2⟩
    rw [h1] at h2
    cases h2
  have hex2 : ¬ ((main float scan).stdout = [] ∧
      ∃ json, (main float scan).stdout = json ++ str "\n") := by
    rintro ⟨h1, json, h2⟩
    rw [h1] at h2
    have := congrArg List.length h2
    simp [str] at this
  have hfail : ∀ d : Diag, main float scan = fail d →
      (main float scan).panicked = false ∧
        ((main float scan).stdout = [] ∧ ∃ e, (main float scan).stderr = [e]) := by
    intro d hd
    rw [hd]
    exact ⟨rfl, rfl, d, rfl⟩
  suffices hmain : (main float scan).panicked = false ∧
      (((main float scan).stdout = [] ∧ (main float scan).stderr = []) ∨
      ((main float scan).stdout = [] ∧ ∃ d, (main float scan).stderr = [d]) ∨
      ((main float scan).stderr = [] ∧
        ∃ text p0 p1 p2 payloadBytes payload json,
          scan = some text ∧ Split (TrimSpace text) 46 = [p0, p1, p2] ∧
          DecodeString p1 = some payloadBytes ∧ Unmarshal float payloadBytes = some payload ∧
          MarshalIndent payload [] (str "  ") = some json ∧
          (main float scan).stdout = json ++ str "\n")) from
    ⟨hmain.1, hidx, hmain.2, hex1, hex2⟩
  cases scan with
  | none =>
    obtain ⟨a, b⟩ := hfail Diag.readingInput rfl
    exact ⟨a, Or.inr (Or.inl b)⟩
  | some text =>
    by_cases hempty : TrimSpace text = []
    · rw [main_empty float hempty]
      exact ⟨rfl, Or.inl ⟨rfl, rfl⟩⟩
    · by_cases hlen : (Split (TrimSpace text) 46).length = 3
      · obtain ⟨p0, p1, p2, hs⟩ := three_of_length hlen
        cases h0 : DecodeString p0 with
        | none =>
          obtain ⟨a, b⟩ := hfail Diag.decodingHeader (by rw [main_three float hs, h0])
          exact ⟨a, Or.inr (Or.inl b)⟩
        | some headerBytes =>
          cases h1 : DecodeString p1 with
          | none =>
            obtain ⟨a, b⟩ := hfail Diag.decodingPayload (by rw [main_three float hs, h0, h1])
            exact ⟨a, Or.inr (Or.inl b)⟩
          | some payloadBytes =>
            have hm := main_decoded float hs h0 h1
            cases hu0 : Unmarshal float headerBytes with
            | none =>
              rw [hu0] at hm
              obtain ⟨a, b⟩ := hfail Diag.parsingHeader hm
              exact ⟨a, Or.inr (Or.inl b)⟩
            | some header =>
              cases hu1 : Unmarshal float payloadBytes with
              | none =>
                rw [hu0] at hm
                simp only [hu1] at hm
                obtain ⟨a, b⟩ := hfail Diag.parsingPayload hm
                exact ⟨a, Or.inr (Or.inl b)⟩
              | some payload =>
                obtain ⟨json, hj⟩ := MarshalIndent_eq payload [] (str "  ")
                rw [hu0] at hm
                simp only [hu1, hj] at hm
                rw [hm]
                exact ⟨rfl, Or.inr (Or.inr ⟨rfl, text, p0, p1, p2, payloadBytes, payload, json,
                  rfl, hs, h1, hu1, hj, rfl⟩)⟩
      · obtain ⟨a, b⟩ := hfail _ (main_not_three float hempty hlen)
        exact ⟨a, Or.inr (Or.inl b)⟩

end DecodeJwt
